import Mathlib

/-!
# `igl::knn_octree` — exact k-nearest-neighbour search over an octree

Shallow embedding of `include/igl/knn_octree.cpp`.

Scalars.  The source computes with `double`.  Rounding is not modelled: the
embedding uses exact arithmetic.  Inputs (point coordinates, cell centres and
widths) are rationals, which covers every finite `double`.  The two distances of
the source involve `std::sqrt`, which leaves the rationals, so every distance is
present twice:

* a real-valued definition that follows the source text (`norm`,
  `distance_to_width_one_cube`, `distance_to_cube`), and
* a computable rational *signed square* (`x ↦ x * |x|`) of the same value
  (`squaredNorm`, `distance_to_cube_ssq`), which is what the executable
  comparator `cmp` compares.  `x ↦ x * |x|` is strictly increasing, so comparing
  signed squares is comparing the distances themselves (`cmp_iff_real`).
-/

namespace igl

/-! ## Three-component rows (`RowVector3PType`, `Eigen::Matrix<CentersType,1,3>`) -/

/-- A row of three scalars. -/
structure Vec3 (K : Type) where
  x : K
  y : K
  z : K
deriving DecidableEq, Repr

namespace Vec3

variable {K : Type}

/-- Component-wise difference `a - b`. -/
def sub [Sub K] (a b : Vec3 K) : Vec3 K := ⟨a.x - b.x, a.y - b.y, a.z - b.z⟩

/-- Division of every component by a scalar, `a / w`. -/
def divScalar [Div K] (a : Vec3 K) (w : K) : Vec3 K := ⟨a.x / w, a.y / w, a.z / w⟩

/-- The sum of the squared components: the radicand of Eigen's `.norm()`. -/
def squaredNorm [Add K] [Mul K] (a : Vec3 K) : K := a.x * a.x + a.y * a.y + a.z * a.z

/-- Apply a map to each component (used to read rational rows as real rows). -/
def map {L : Type} (f : K → L) (a : Vec3 K) : Vec3 L := ⟨f a.x, f a.y, f a.z⟩

end Vec3

/-- Read a rational row as a real row. -/
def toReal (a : Vec3 ℚ) : Vec3 ℝ := ⟨(a.x : ℝ), (a.y : ℝ), (a.z : ℝ)⟩

/-! ## Distance primitives (source lines 26-38 and `.norm()`) -/

/-- The argument of `std::sqrt` in `distance_to_width_one_cube`:
`max(|p0|-1,0)^2 + max(|p1|-1,0)^2 + max(|p2|-1,0)^2`. -/
def width_one_cube_radicand {K : Type} [LinearOrderedField K] (point : Vec3 K) : K :=
  (max (|point.x| - 1) 0) ^ 2 + (max (|point.y| - 1) 0) ^ 2 + (max (|point.z| - 1) 0) ^ 2

/-- Eigen's `.norm()` of a row: the Euclidean length. -/
noncomputable def norm (v : Vec3 ℝ) : ℝ := Real.sqrt v.squaredNorm

/-- The lambda `distance_to_width_one_cube` (lines 26-30). -/
noncomputable def distance_to_width_one_cube (point : Vec3 ℝ) : ℝ :=
  Real.sqrt (width_one_cube_radicand point)

/-- The lambda `distance_to_cube` (lines 32-38):
`transformed_point = (point - cube_center) / cube_width;
 return cube_width * distance_to_width_one_cube(transformed_point)`. -/
noncomputable def distance_to_cube (point cube_center : Vec3 ℝ) (cube_width : ℝ) : ℝ :=
  cube_width * distance_to_width_one_cube ((point.sub cube_center).divScalar cube_width)

/-- Signed square of `distance_to_cube point cube_center cube_width`, computed
in the rationals: `(w * sqrt r) * |w * sqrt r| = w * |w| * r`. -/
def distance_to_cube_ssq (point cube_center : Vec3 ℚ) (cube_width : ℚ) : ℚ :=
  cube_width * |cube_width| *
    width_one_cube_radicand ((point.sub cube_center).divScalar cube_width)

/-- A location `q` lies in the closed axis-aligned cube of full width `w`
centred at `c`: `|q_j - c_j| ≤ w / 2` on each axis. -/
def InCube {K : Type} [LinearOrderedField K] (q c : Vec3 K) (w : K) : Prop :=
  |q.x - c.x| ≤ w / 2 ∧ |q.y - c.y| ≤ w / 2 ∧ |q.z - c.z| ≤ w / 2

instance {K : Type} [LinearOrderedField K] [DecidableRel (fun a b : K => a ≤ b)]
    (q c : Vec3 K) (w : K) : Decidable (InCube q c w) := by
  unfold InCube; infer_instance

/-! ## Inputs

`P` is the point set (`n = P.rows()` rows), `k` the requested neighbour count
(`KType`, a signed integer), and the four index-aligned arrays describe the
octree.  Indices (`IndexType`) are signed: `-1` in the first child slot marks a
leaf.  Index arithmetic is modelled in unbounded integers; the source needs
`n + m` to fit its integer type. -/

/-- The four octree arrays passed to `knn_octree`. -/
structure Octree where
  point_indices : List (List Int)
  children : List (Fin 8 → Int)
  centers : List (Vec3 ℚ)
  widths : List ℚ

/-- Ways in which a run of the source fails to produce a result. -/
inductive Fault where
  /-- `std::vector::at` threw `std::out_of_range`. -/
  | out_of_range
  /-- `P.row(j)` with `j` outside `[0, n)`. -/
  | bad_row
  /-- `queue.top()` / `queue.pop()` on an empty queue. -/
  | empty_queue
  /-- `I.resize(n, real_k)` with a negative column count. -/
  | bad_resize
  /-- The loop did not end within the fuel given to the model. -/
  | out_of_fuel
deriving DecidableEq, Repr

/-- The bounds-checked `std::vector::at`: an index outside `[0, size)` throws
`std::out_of_range` (a negative `int` converts to a huge `size_t`). -/
def vector_at {α : Type} (v : List α) (i : Int) : Except Fault α :=
  if 0 ≤ i then
    match v[i.toNat]? with
    | some a => .ok a
    | none => .error Fault.out_of_range
  else .error Fault.out_of_range

/-- Row access `P.row(j)`: defined for `0 ≤ j < n` only. -/
def P_row (P : List (Vec3 ℚ)) (j : Int) : Except Fault (Vec3 ℚ) :=
  if 0 ≤ j then
    match P[j.toNat]? with
    | some a => .ok a
    | none => .error Fault.bad_row
  else .error Fault.bad_row

/-- Line 24: `real_k = std::min(n, k)`. -/
def real_k (n k : Int) : Int := min n k

/-! ## The comparator `cmp` (lines 52-71) -/

/-- Signed square of `leftdistance` / `rightdistance` in `cmp`: for an index
below `n` the squared `(P.row(v) - point_of_interest).norm()`, otherwise the
signed square of `distance_to_cube(point_of_interest, centers.at(v-n),
widths.at(v-n))`.  Fails where the source access fails. -/
def distance_key (P : List (Vec3 ℚ)) (t : Octree) (point_of_interest : Vec3 ℚ) (v : Int) :
    Except Fault ℚ :=
  let n : Int := P.length
  if v < n then
    match P_row P v with
    | .ok row => .ok (row.sub point_of_interest).squaredNorm
    | .error e => .error e
  else
    match vector_at t.centers (v - n) with
    | .error e => .error e
    | .ok c =>
      match vector_at t.widths (v - n) with
      | .error e => .error e
      | .ok w => .ok (distance_to_cube_ssq point_of_interest c w)

/-- The comparator `cmp(left, right)`: `leftdistance >= rightdistance`. -/
def cmp (P : List (Vec3 ℚ)) (t : Octree) (point_of_interest : Vec3 ℚ) (left right : Int) :
    Except Fault Bool :=
  match distance_key P t point_of_interest left with
  | .error e => .error e
  | .ok leftdistance =>
    match distance_key P t point_of_interest right with
    | .error e => .error e
    | .ok rightdistance => .ok (decide (leftdistance ≥ rightdistance))

/-- The key of a candidate as a total function (`0` where the access fails; the
traversal never lets the queue compare such a candidate, see `checked_push`). -/
def key_or_zero (P : List (Vec3 ℚ)) (t : Octree) (point_of_interest : Vec3 ℚ) (v : Int) : ℚ :=
  match distance_key P t point_of_interest v with
  | .ok d => d
  | .error _ => 0

/-- A comparator `left ↦ right ↦ key left >= key right` on a total key. -/
def cmp_of (key : Int → ℚ) (left right : Int) : Bool := decide (key left ≥ key right)

/-- The comparator object handed to the queue. -/
def cmp_total (P : List (Vec3 ℚ)) (t : Octree) (point_of_interest : Vec3 ℚ) : Int → Int → Bool :=
  cmp_of (key_or_zero P t point_of_interest)

/-- The value `leftdistance` / `rightdistance` of `cmp` as the source computes
it, with real arithmetic: `(P.row(v) - point_of_interest).norm()` for an index
below `n`, otherwise `distance_to_cube(point_of_interest, centers.at(v-n),
widths.at(v-n))`. -/
noncomputable def candidate_distance (P : List (Vec3 ℚ)) (t : Octree)
    (point_of_interest : Vec3 ℚ) (v : Int) : Except Fault ℝ :=
  let n : Int := P.length
  if v < n then
    match P_row P v with
    | .ok row => .ok (norm ((toReal row).sub (toReal point_of_interest)))
    | .error e => .error e
  else
    match vector_at t.centers (v - n) with
    | .error e => .error e
    | .ok c =>
      match vector_at t.widths (v - n) with
      | .error e => .error e
      | .ok w => .ok (distance_to_cube (toReal point_of_interest) (toReal c) (w : ℝ))

/-! ## The frontier: `std::priority_queue<IndexType, std::vector<IndexType>, decltype(cmp)>`

The queue is library code.  The traversal is written against its operations
(`push`, `top`, `pop`), and the properties of the traversal are proved for every
implementation that meets the contract `PriorityQueue.Lawful`: on a comparator
`key left >= key right`, `top` is an entry whose key no other entry undercuts,
and `push` / `pop` add / remove exactly one entry.  The binary heap of
libstdc++ (`std_queue`) is such an implementation (`std_queue_lawful`). -/

/-- The operations of a priority queue of candidate indices.  `toList` lists
the stored entries and `valid` is the representation invariant. -/
structure PriorityQueue where
  Q : Type
  empty : Q
  push : (Int → Int → Bool) → Q → Int → Q
  top : Q → Option Int
  pop : (Int → Int → Bool) → Q → Q
  toList : Q → List Int
  valid : (Int → Int → Bool) → Q → Prop

/-- The contract of the queue for comparators of the form `cmp_of key`. -/
structure PriorityQueue.Lawful (pq : PriorityQueue) : Prop where
  valid_empty : ∀ c, pq.valid c pq.empty
  toList_empty : pq.toList pq.empty = []
  push_spec : ∀ (key : Int → ℚ) (q : pq.Q) (v : Int), pq.valid (cmp_of key) q →
    pq.valid (cmp_of key) (pq.push (cmp_of key) q v) ∧
      (pq.toList (pq.push (cmp_of key) q v)).Perm (v :: pq.toList q)
  top_none : ∀ (q : pq.Q), pq.top q = none ↔ pq.toList q = []
  top_spec : ∀ (key : Int → ℚ) (q : pq.Q) (v : Int), pq.valid (cmp_of key) q →
    pq.top q = some v → v ∈ pq.toList q ∧ ∀ x ∈ pq.toList q, key v ≤ key x
  pop_spec : ∀ (key : Int → ℚ) (q : pq.Q) (v : Int), pq.valid (cmp_of key) q →
    pq.top q = some v →
    pq.valid (cmp_of key) (pq.pop (cmp_of key) q) ∧
      (pq.toList (pq.pop (cmp_of key) q)).Perm ((pq.toList q).erase v)

/-! ### The binary heap of the C++ standard library

`std::priority_queue` keeps its entries in a `std::vector` arranged as a binary
heap: `push` is `push_back` followed by `std::push_heap`, `pop` is
`std::pop_heap` followed by `pop_back`, and `top` is `front`.  The definitions
below follow the algorithms of `bits/stl_heap.h` (libstdc++), with the vector
as a list. -/

/-- The function `std::__push_heap(first, holeIndex, topIndex, value, comp)`: move parents
down into the hole while `comp(parent, value)`, then store `value`.  The loop
runs at most `holeIndex` times, which is the fuel. -/
def std_push_heap (comp : Int → Int → Bool) (topIndex : Nat) (value : Int) :
    Nat → List Int → Nat → List Int
  | 0, first, holeIndex => first.set holeIndex value
  | fuel + 1, first, holeIndex =>
    let parent := (holeIndex - 1) / 2
    if holeIndex > topIndex ∧ comp (first.getD parent 0) value = true then
      std_push_heap comp topIndex value fuel (first.set holeIndex (first.getD parent 0)) parent
    else first.set holeIndex value

/-- The first loop of `std::__adjust_heap`: move the hole down, each time
pulling up the child selected by `comp`, until the hole has fewer than two
children.  Returns the vector and the hole. -/
def std_adjust_descend (comp : Int → Int → Bool) (len : Nat) :
    Nat → List Int → Nat → List Int × Nat
  | 0, first, holeIndex => (first, holeIndex)
  | fuel + 1, first, holeIndex =>
    if holeIndex < (len - 1) / 2 then
      let secondChild := 2 * (holeIndex + 1)
      let secondChild :=
        if comp (first.getD secondChild 0) (first.getD (secondChild - 1) 0) = true then
          secondChild - 1
        else secondChild
      std_adjust_descend comp len fuel (first.set holeIndex (first.getD secondChild 0)) secondChild
    else (first, holeIndex)

/-- The function `std::__adjust_heap(first, holeIndex, len, value, comp)`. -/
def std_adjust_heap (comp : Int → Int → Bool) (first : List Int) (holeIndex len : Nat)
    (value : Int) : List Int :=
  let topIndex := holeIndex
  let (first, secondChild) := std_adjust_descend comp len len first holeIndex
  if len % 2 = 0 ∧ secondChild = (len - 2) / 2 then
    let child := 2 * (secondChild + 1) - 1
    std_push_heap comp topIndex value child (first.set secondChild (first.getD child 0)) child
  else std_push_heap comp topIndex value secondChild first secondChild

/-- The member `priority_queue::push`:
`c.push_back(x); std::push_heap(c.begin(), c.end(), comp)`. -/
def std_push (comp : Int → Int → Bool) (c : List Int) (x : Int) : List Int :=
  std_push_heap comp 0 x c.length (c ++ [x]) c.length

/-- The member `priority_queue::pop`:
`std::pop_heap(c.begin(), c.end(), comp); c.pop_back()`.
With more than one entry, `pop_heap` takes the last entry as `value`, stores
the first entry in the last slot (removed by `pop_back`) and runs
`__adjust_heap` on the slots before it. -/
def std_pop (comp : Int → Int → Bool) (c : List Int) : List Int :=
  if c.length > 1 then
    std_adjust_heap comp c.dropLast 0 (c.length - 1) (c.getD (c.length - 1) 0)
  else c.dropLast

/-- The heap property as the library algorithms maintain it for the comparator
of the source: `comp(child, parent)` for every slot but the first. -/
def std_is_heap (comp : Int → Int → Bool) (c : List Int) : Prop :=
  ∀ i, 0 < i → i < c.length → comp (c.getD i 0) (c.getD ((i - 1) / 2) 0) = true

/-- The queue of the standard library. -/
def std_queue : PriorityQueue where
  Q := List Int
  empty := []
  push := std_push
  top := fun c => c.head?
  pop := std_pop
  toList := fun c => c
  valid := std_is_heap

/-- The loop variables of one query: the frontier, the part of row `i` of `I`
written so far (`points_found` is its length), and a count of the pops made. -/
structure LoopState (pq : PriorityQueue) where
  queue : pq.Q
  row : List Int
  pops : Nat

/-- The value of `points_found`. -/
def LoopState.points_found {pq : PriorityQueue} (s : LoopState pq) : Int := s.row.length

/-- Evaluate the keys of the listed candidates in turn; fails with the first
failing access. -/
def keys_checked (P : List (Vec3 ℚ)) (t : Octree) (poi : Vec3 ℚ) : List Int → Except Fault Unit
  | [] => .ok ()
  | x :: xs =>
    match distance_key P t poi x with
    | .error e => .error e
    | .ok _ => keys_checked P t poi xs

/-- One `queue.push(v)` inside the loop.  Pushing onto an empty queue compares
nothing.  Pushing onto a non-empty queue makes the heap call `cmp(parent, v)`,
which computes both distances; once a queue holds two entries every entry has
been an argument of `cmp`.  So the push fails exactly when the key of a stored
entry or of `v` fails. -/
def checked_push (pq : PriorityQueue) (P : List (Vec3 ℚ)) (t : Octree) (poi : Vec3 ℚ)
    (q : pq.Q) (v : Int) : Except Fault pq.Q :=
  match pq.toList q with
  | [] => .ok (pq.push (cmp_total P t poi) q v)
  | x :: xs =>
    match keys_checked P t poi (x :: xs ++ [v]) with
    | .error e => .error e
    | .ok _ => .ok (pq.push (cmp_total P t poi) q v)

/-- Pushes in sequence (the `for` loop of lines 91-94). -/
def checked_push_all (pq : PriorityQueue) (P : List (Vec3 ℚ)) (t : Octree) (poi : Vec3 ℚ) :
    pq.Q → List Int → Except Fault pq.Q
  | q, [] => .ok q
  | q, v :: vs =>
    match checked_push pq P t poi q v with
    | .error e => .error e
    | .ok q1 => checked_push_all pq P t poi q1 vs

/-- The body of the `while` loop (lines 78-96). -/
def loop_body (pq : PriorityQueue) (P : List (Vec3 ℚ)) (t : Octree) (poi : Vec3 ℚ)
    (s : LoopState pq) : Except Fault (LoopState pq) :=
  let n : Int := P.length
  match pq.top s.queue with
  | none => .error Fault.empty_queue
  | some curr_cell_or_point =>
    let queue := pq.pop (cmp_total P t poi) s.queue
    if curr_cell_or_point < n then
      .ok { queue := queue, row := s.row ++ [curr_cell_or_point], pops := s.pops + 1 }
    else
      let curr_cell := curr_cell_or_point - n
      match vector_at t.children curr_cell with
      | .error e => .error e
      | .ok ch =>
        if ch 0 = -1 then
          match vector_at t.point_indices curr_cell with
          | .error e => .error e
          | .ok pts =>
            if pts.length > 0 then
              match vector_at pts 0 with
              | .error e => .error e
              | .ok p0 =>
                match checked_push pq P t poi queue p0 with
                | .error e => .error e
                | .ok q1 => .ok { queue := q1, row := s.row, pops := s.pops + 1 }
            else .ok { queue := queue, row := s.row, pops := s.pops + 1 }
        else
          match checked_push_all pq P t poi queue (List.ofFn (fun j : Fin 8 => ch j + n)) with
          | .error e => .error e
          | .ok q1 => .ok { queue := q1, row := s.row, pops := s.pops + 1 }

/-- The loop `while (points_found < real_k)`, unrolled at most `fuel` times. -/
def while_loop (pq : PriorityQueue) (P : List (Vec3 ℚ)) (t : Octree) (poi : Vec3 ℚ)
    (rk : Int) : Nat → LoopState pq → Except Fault (LoopState pq)
  | fuel, s =>
    if s.points_found < rk then
      match fuel with
      | 0 => .error Fault.out_of_fuel
      | fuel + 1 =>
        match loop_body pq P t poi s with
        | .error e => .error e
        | .ok s1 => while_loop pq P t poi rk fuel s1
    else .ok s

/-- The state after `queue.push(n)` (line 76). -/
def initial_state (pq : PriorityQueue) (P : List (Vec3 ℚ)) (t : Octree) (poi : Vec3 ℚ) :
    LoopState pq :=
  { queue := pq.push (cmp_total P t poi) pq.empty (P.length : Int), row := [], pops := 0 }

/-- The traversal for query row `i` (the body given to `parallel_for`), as the
final loop state. -/
def query (pq : PriorityQueue) (P : List (Vec3 ℚ)) (k : Int) (t : Octree) (fuel : Nat)
    (i : Nat) : Except Fault (LoopState pq) :=
  match P_row P i with
  | .error e => .error e
  | .ok point_of_interest =>
    while_loop pq P t point_of_interest (real_k P.length k) fuel
      (initial_state pq P t point_of_interest)

/-- Row `i` of `I` after the traversal for query row `i`. -/
def knn_row (pq : PriorityQueue) (P : List (Vec3 ℚ)) (k : Int) (t : Octree) (fuel : Nat)
    (i : Nat) : Except Fault (List Int) :=
  match query pq P k t fuel i with
  | .error e => .error e
  | .ok s => .ok s.row

/-- The shape `(rows, columns)` given to `I.resize` at line 40. -/
def resize_shape (P : List (Vec3 ℚ)) (k : Int) : Int × Int := (P.length, real_k P.length k)

/-- Run the per-row body for the listed rows (`igl::parallel_for`; the rows
share no state, so the order is immaterial) and collect the rows of `I`. -/
def for_rows (body : Nat → Except Fault (List Int)) : List Nat → Except Fault (List (List Int))
  | [] => .ok []
  | i :: is =>
    match body i with
    | .error e => .error e
    | .ok row =>
      match for_rows body is with
      | .error e => .error e
      | .ok rows => .ok (row :: rows)

/-- The function `knn_octree`: the table `I` as the list of its rows.  A negative
column count cannot be allocated. -/
def knn_octree (pq : PriorityQueue) (P : List (Vec3 ℚ)) (k : Int) (t : Octree) (fuel : Nat) :
    Except Fault (List (List Int)) :=
  if (resize_shape P k).2 < 0 then .error Fault.bad_resize
  else for_rows (knn_row pq P k t fuel) (List.range P.length)

/-- The states at the head of the loop `while (points_found < rk)`:
`Reaches pq P t poi rk s s1` says that the loop started in `s` arrives at its
head in state `s1` after some number of iterations (each one with the guard
true and a body that returned). -/
inductive Reaches (pq : PriorityQueue) (P : List (Vec3 ℚ)) (t : Octree) (poi : Vec3 ℚ)
    (rk : Int) : LoopState pq → LoopState pq → Prop
  | start (s : LoopState pq) : Reaches pq P t poi rk s s
  | step (s s1 s2 : LoopState pq) (h : Reaches pq P t poi rk s s1)
      (hguard : s1.points_found < rk) (hbody : loop_body pq P t poi s1 = .ok s2) :
      Reaches pq P t poi rk s s2

/-- The index ranges that the octree arrays must respect (`m` cells, `n` points):
the four arrays have `m ≥ 1` entries, every non-leaf cell (first child slot not
`-1`) has its eight child slots in `[0, m)`, and every point index listed by a
leaf lies in `[0, n)`. -/
structure IndicesInRange (P : List (Vec3 ℚ)) (t : Octree) (m : Nat) : Prop where
  cells : 1 ≤ m
  children_length : t.children.length = m
  point_indices_length : t.point_indices.length = m
  centers_length : t.centers.length = m
  widths_length : t.widths.length = m
  child_slots : ∀ (c : Nat) (ch : Fin 8 → Int), t.children[c]? = some ch → ch 0 ≠ -1 →
    ∀ j, 0 ≤ ch j ∧ ch j < (m : Int)
  leaf_points : ∀ (c : Nat) (ch : Fin 8 → Int) (pts : List Int), t.children[c]? = some ch →
    ch 0 = -1 → t.point_indices[c]? = some pts → ∀ p ∈ pts, 0 ≤ p ∧ p < (P.length : Int)

/-- The frontier and the row of a state respect the index ranges: the queue is
valid, every frontier entry lies in `[0, n + m)` and every index written to the
row lies in `[0, n)`. -/
structure StateInRange (pq : PriorityQueue) (P : List (Vec3 ℚ)) (t : Octree) (poi : Vec3 ℚ)
    (m : Nat) (s : LoopState pq) : Prop where
  valid : pq.valid (cmp_total P t poi) s.queue
  frontier : ∀ x ∈ pq.toList s.queue, 0 ≤ x ∧ x < (P.length : Int) + m
  written : ∀ v ∈ s.row, 0 ≤ v ∧ v < (P.length : Int)

/-! ## The traversal writing into the shared table

`knn_row` returns the row of a query as a value.  In the source every query
writes its entries straight into the table `I` that all queries share
(`I(i, points_found) = curr_cell_or_point`).  The definitions below thread the
whole table through the loop, so that what a query leaves untouched can be
stated.  The point set and the octree arrays are `const` inputs: they are
arguments of these functions and are never part of the state. -/

/-- The loop variables of one query, the shared table `I`, and the list of
cells `(row, column)` of `I` written so far, oldest first. -/
structure TableState (pq : PriorityQueue) where
  queue : pq.Q
  points_found : Nat
  I : List (List Int)
  written : List (Nat × Nat)

/-- The assignment `I(i, j) = v`. -/
def write_cell (I : List (List Int)) (i j : Nat) (v : Int) : List (List Int) :=
  match I[i]? with
  | some row => I.set i (row.set j v)
  | none => I

/-- The body of the `while` loop (lines 78-96) for query row `i`, with the write
to the table. -/
def table_loop_body (pq : PriorityQueue) (P : List (Vec3 ℚ)) (t : Octree) (poi : Vec3 ℚ)
    (i : Nat) (S : TableState pq) : Except Fault (TableState pq) :=
  let n : Int := P.length
  match pq.top S.queue with
  | none => .error Fault.empty_queue
  | some curr_cell_or_point =>
    let queue := pq.pop (cmp_total P t poi) S.queue
    if curr_cell_or_point < n then
      .ok { queue := queue, points_found := S.points_found + 1,
            I := write_cell S.I i S.points_found curr_cell_or_point,
            written := S.written ++ [(i, S.points_found)] }
    else
      let curr_cell := curr_cell_or_point - n
      match vector_at t.children curr_cell with
      | .error e => .error e
      | .ok ch =>
        if ch 0 = -1 then
          match vector_at t.point_indices curr_cell with
          | .error e => .error e
          | .ok pts =>
            if pts.length > 0 then
              match vector_at pts 0 with
              | .error e => .error e
              | .ok p0 =>
                match checked_push pq P t poi queue p0 with
                | .error e => .error e
                | .ok q1 => .ok { S with queue := q1 }
            else .ok { S with queue := queue }
        else
          match checked_push_all pq P t poi queue (List.ofFn (fun j : Fin 8 => ch j + n)) with
          | .error e => .error e
          | .ok q1 => .ok { S with queue := q1 }

/-- The loop `while (points_found < real_k)` on the table state. -/
def table_while_loop (pq : PriorityQueue) (P : List (Vec3 ℚ)) (t : Octree) (poi : Vec3 ℚ)
    (i : Nat) (rk : Int) : Nat → TableState pq → Except Fault (TableState pq)
  | fuel, S =>
    if (S.points_found : Int) < rk then
      match fuel with
      | 0 => .error Fault.out_of_fuel
      | fuel + 1 =>
        match table_loop_body pq P t poi i S with
        | .error e => .error e
        | .ok S1 => table_while_loop pq P t poi i rk fuel S1
    else .ok S

/-- The body given to `parallel_for` for query row `i`, run on the table `I`. -/
def table_query (pq : PriorityQueue) (P : List (Vec3 ℚ)) (k : Int) (t : Octree) (fuel : Nat)
    (i : Nat) (I : List (List Int)) : Except Fault (TableState pq) :=
  match P_row P i with
  | .error e => .error e
  | .ok point_of_interest =>
    table_while_loop pq P t point_of_interest i (real_k P.length k) fuel
      { queue := pq.push (cmp_total P t point_of_interest) pq.empty (P.length : Int),
        points_found := 0, I := I, written := [] }

/-- The queries of the listed rows run one after the other on the same table. -/
def table_batch (pq : PriorityQueue) (P : List (Vec3 ℚ)) (k : Int) (t : Octree) (fuel : Nat) :
    List Nat → List (List Int) → Except Fault (List (List Int))
  | [], I => .ok I
  | i :: is, I =>
    match table_query pq P k t fuel i I with
    | .error e => .error e
    | .ok S => table_batch pq P k t fuel is S.I

/-- The function `knn_octree` with the rows processed in the order `order`, on
the table `I0` that `I.resize(n, real_k)` leaves (its entries are unspecified). -/
def knn_octree_in_order (pq : PriorityQueue) (P : List (Vec3 ℚ)) (k : Int) (t : Octree)
    (fuel : Nat) (order : List Nat) (I0 : List (List Int)) : Except Fault (List (List Int)) :=
  if (resize_shape P k).2 < 0 then .error Fault.bad_resize
  else table_batch pq P k t fuel order I0

/-- The shape that `I.resize(n, real_k)` gives the table: `n` rows of `real_k`
entries. -/
def TableShape (P : List (Vec3 ℚ)) (k : Int) (I : List (List Int)) : Prop :=
  I.length = P.length ∧ ∀ row ∈ I, (row.length : Int) = real_k P.length k

/-- The correspondence between the state of `loop_body` and the state of
`table_loop_body` for query row `i` started on the table `I0`: same queue,
`points_found` is the length of the row, row `i` of the table is the row
followed by the old entries not yet overwritten, the other rows are those of
`I0`, and the cells written are columns `0, …, points_found - 1` of row `i`. -/
structure Corresponds (pq : PriorityQueue) (i : Nat) (I0 : List (List Int)) (row0 : List Int)
    (s : LoopState pq) (S : TableState pq) : Prop where
  queue : S.queue = s.queue
  count : S.points_found = s.row.length
  bound : s.row.length ≤ row0.length
  length : S.I.length = I0.length
  row : S.I[i]? = some (s.row ++ row0.drop s.row.length)
  others : ∀ j, j ≠ i → S.I[j]? = I0[j]?
  written : S.written = (List.range s.row.length).map (fun c => (i, c))

/-! ## Well-formed octrees and the specification side -/

/-- The relation `Covers P t v pts size`: the candidate `v` is well formed and `pts` lists the
point indices it stands for.

* a point index `v` (a valid row of `P`) stands for itself;
* a leaf cell (first child slot `-1`) holds at most one point, has a centre and
  a positive width, and its point lies in its cube;
* a non-leaf cell has eight valid children, each well formed, a centre and a
  positive width, and every point below it lies in its cube.

`size` counts the candidates below `v`, `v` included. -/
inductive Covers (P : List (Vec3 ℚ)) (t : Octree) : Int → List Int → Nat → Prop
  | point (v : Int) (r : Vec3 ℚ) (hv : P_row P v = .ok r) : Covers P t v [v] 1
  | leaf (v : Int) (ch : Fin 8 → Int) (pts : List Int) (ctr : Vec3 ℚ) (w : ℚ)
      (hv : (P.length : Int) ≤ v)
      (hch : vector_at t.children (v - P.length) = .ok ch)
      (hleaf : ch 0 = -1)
      (hpts : vector_at t.point_indices (v - P.length) = .ok pts)
      (hctr : vector_at t.centers (v - P.length) = .ok ctr)
      (hw : vector_at t.widths (v - P.length) = .ok w)
      (hpos : 0 < w)
      (hone : pts.length ≤ 1)
      (hin : ∀ p ∈ pts, ∃ r, P_row P p = .ok r ∧ InCube r ctr w) :
      Covers P t v pts (1 + pts.length)
  | node (v : Int) (ch : Fin 8 → Int) (ctr : Vec3 ℚ) (w : ℚ)
      (below : Fin 8 → List Int) (size : Fin 8 → Nat)
      (hv : (P.length : Int) ≤ v)
      (hch : vector_at t.children (v - P.length) = .ok ch)
      (hnode : ch 0 ≠ -1)
      (hvalid : ∀ j, 0 ≤ ch j)
      (hctr : vector_at t.centers (v - P.length) = .ok ctr)
      (hw : vector_at t.widths (v - P.length) = .ok w)
      (hpos : 0 < w)
      (hsub : ∀ j, Covers P t (ch j + P.length) (below j) (size j))
      (hin : ∀ p ∈ (List.ofFn below).flatten, ∃ r, P_row P p = .ok r ∧ InCube r ctr w) :
      Covers P t v (List.ofFn below).flatten (1 + (List.ofFn size).sum)

/-- The point indices `0, …, n-1` as candidates. -/
def all_points (P : List (Vec3 ℚ)) : List Int := (List.range P.length).map Int.ofNat

/-- A well-formed octree over `P`: the root (cell `0`, candidate `n`) is well
formed and every point index of `[0, n)` is held by exactly one leaf below it. -/
def WellFormed (P : List (Vec3 ℚ)) (t : Octree) : Prop :=
  ∃ pts size, Covers P t (P.length : Int) pts size ∧ pts.Perm (all_points P)

/-- The Euclidean distance from the query `poi` to the point with index `v`
(`0` for an index that is no row of `P`). -/
noncomputable def point_distance (P : List (Vec3 ℚ)) (poi : Vec3 ℚ) (v : Int) : ℝ :=
  match P_row P v with
  | .ok r => norm ((toReal r).sub (toReal poi))
  | .error _ => 0

/-- The brute-force list of distances from `poi` to all points of `P`. -/
noncomputable def brute_force (P : List (Vec3 ℚ)) (poi : Vec3 ℚ) : List ℝ :=
  P.map (fun r => norm ((toReal r).sub (toReal poi)))

/-- The annotated frontier used in the loop invariant: every queue entry with
the points it stands for and its size. -/
abbrev Annotated := List (Int × List Int × Nat)

/-- The loop invariant of one query.  `A` annotates the frontier; the accepted
row together with the points still below the frontier is the whole point set;
the row is sorted by key and no accepted point is farther than a pending one;
`pops` plus the pending size is the constant `W`. -/
structure Invariant (pq : PriorityQueue) (P : List (Vec3 ℚ)) (t : Octree) (poi : Vec3 ℚ)
    (W : Nat) (s : LoopState pq) (A : Annotated) : Prop where
  valid : pq.valid (cmp_total P t poi) s.queue
  entries : (A.map (fun a => a.1)).Perm (pq.toList s.queue)
  covers : ∀ a ∈ A, Covers P t a.1 a.2.1 a.2.2
  partition : (s.row ++ (A.map (fun a => a.2.1)).flatten).Perm (all_points P)
  sorted : s.row.Pairwise (fun a b => key_or_zero P t poi a ≤ key_or_zero P t poi b)
  dominated : ∀ r ∈ s.row, ∀ a ∈ A, ∀ p ∈ a.2.1, key_or_zero P t poi r ≤ key_or_zero P t poi p
  budget : s.pops + (A.map (fun a => a.2.2)).sum = W

/-- What the traversal establishes for the row `row` of the query point `poi`,
in terms of keys: the row has `real_k` entries; with the points left behind
(`rest`) it lists every point index exactly once; it is sorted by key; and no
accepted key exceeds a key left behind. -/
def RowOK (P : List (Vec3 ℚ)) (t : Octree) (k : Int) (poi : Vec3 ℚ) (row : List Int) : Prop :=
  (row.length : Int) = real_k P.length k ∧
    ∃ rest, (row ++ rest).Perm (all_points P) ∧
      row.Pairwise (fun a b => key_or_zero P t poi a ≤ key_or_zero P t poi b) ∧
      ∀ r ∈ row, ∀ p ∈ rest, key_or_zero P t poi r ≤ key_or_zero P t poi p

/-! ## Concrete inputs -/

/-- The five points of the scenario: the origin, the three unit points and
`(5,5,5)`. -/
def scene_points : List (Vec3 ℚ) := [⟨0, 0, 0⟩, ⟨1, 0, 0⟩, ⟨0, 1, 0⟩, ⟨0, 0, 1⟩, ⟨5, 5, 5⟩]

/-- The child row of a leaf: `-1` in every slot. -/
def leaf_children : Fin 8 → Int := fun _ => -1

/-- An octree over `scene_points`: the root (cube `[0,5]^3`) with eight leaf
children, five of them holding one point each in a cube of width `1` around it. -/
def scene_octree : Octree where
  point_indices := [[], [0], [1], [2], [3], [4], [], [], []]
  children := [![1, 2, 3, 4, 5, 6, 7, 8], leaf_children, leaf_children, leaf_children,
    leaf_children, leaf_children, leaf_children, leaf_children, leaf_children]
  centers := [⟨5/2, 5/2, 5/2⟩, ⟨0, 0, 0⟩, ⟨1, 0, 0⟩, ⟨0, 1, 0⟩, ⟨0, 0, 1⟩, ⟨5, 5, 5⟩,
    ⟨4, 4, 4⟩, ⟨4, 4, 4⟩, ⟨4, 4, 4⟩]
  widths := [5, 1, 1, 1, 1, 1, 1, 1, 1]

/-- A single point. -/
def one_point : List (Vec3 ℚ) := [⟨2, 3, 4⟩]

/-- The octree over `one_point`: the root is a leaf holding point `0`. -/
def one_point_octree : Octree where
  point_indices := [[0]]
  children := [leaf_children]
  centers := [⟨2, 3, 4⟩]
  widths := [1]

/-! ## Lemmas on the distance primitives -/

theorem width_one_cube_radicand_nonneg {K : Type} [LinearOrderedField K] (p : Vec3 K) :
    0 ≤ width_one_cube_radicand p := by
  unfold width_one_cube_radicand; positivity

/-- One axis of the cube bound: scaled back by `w`, the excess over the cube of
the source is `max (|d| - w) 0`. -/
theorem axis_excess {K : Type} [LinearOrderedField K] (d w : K) (hw : 0 < w) :
    w * max (|d / w| - 1) 0 = max (|d| - w) 0 := by
  rw [abs_div, abs_of_pos hw, mul_max_of_nonneg _ _ hw.le, mul_zero, mul_sub, mul_one,
    mul_div_cancel₀ _ hw.ne']

theorem sq_distance_to_cube {K : Type} [LinearOrderedField K] (p c : Vec3 K) (w : K)
    (hw : 0 < w) :
    w ^ 2 * width_one_cube_radicand ((p.sub c).divScalar w) =
      (max (|p.x - c.x| - w) 0) ^ 2 + (max (|p.y - c.y| - w) 0) ^ 2 +
        (max (|p.z - c.z| - w) 0) ^ 2 := by
  simp only [width_one_cube_radicand, Vec3.sub, Vec3.divScalar]
  rw [← axis_excess (p.x - c.x) w hw, ← axis_excess (p.y - c.y) w hw,
    ← axis_excess (p.z - c.z) w hw]
  ring

theorem distance_to_cube_eq (p c : Vec3 ℝ) (w : ℝ) (hw : 0 < w) :
    distance_to_cube p c w =
      Real.sqrt ((max (|p.x - c.x| - w) 0) ^ 2 + (max (|p.y - c.y| - w) 0) ^ 2 +
        (max (|p.z - c.z| - w) 0) ^ 2) := by
  rw [← sq_distance_to_cube p c w hw, Real.sqrt_mul (sq_nonneg w), Real.sqrt_sq hw.le]
  rfl

/-- One axis: a location within `w / 2` of the centre is at least the excess
over `w` away from `p`. -/
theorem axis_lower_bound {K : Type} [LinearOrderedField K] (p q c w : K) (hw : 0 < w)
    (hq : |q - c| ≤ w / 2) : (max (|p - c| - w) 0) ^ 2 ≤ (q - p) * (q - p) := by
  have h1 : |p - c| ≤ |q - p| + |q - c| := by
    have := abs_sub_le p q c
    rwa [abs_sub_comm p q] at this
  have h2 : max (|p - c| - w) 0 ≤ |q - p| := by
    apply max_le
    · linarith
    · exact abs_nonneg _
  have h3 : 0 ≤ max (|p - c| - w) 0 := le_max_right _ _
  calc (max (|p - c| - w) 0) ^ 2 ≤ |q - p| ^ 2 := by
        exact pow_le_pow_left₀ h3 h2 2
    _ = (q - p) * (q - p) := by rw [sq_abs]; ring

theorem sq_distance_to_cube_le {K : Type} [LinearOrderedField K] (p c q : Vec3 K) (w : K)
    (hw : 0 < w) (hq : InCube q c w) :
    w ^ 2 * width_one_cube_radicand ((p.sub c).divScalar w) ≤ (q.sub p).squaredNorm := by
  rw [sq_distance_to_cube p c w hw]
  obtain ⟨hx, hy, hz⟩ := hq
  have := axis_lower_bound p.x q.x c.x w hw hx
  have := axis_lower_bound p.y q.y c.y w hw hy
  have := axis_lower_bound p.z q.z c.z w hw hz
  simp only [Vec3.squaredNorm, Vec3.sub]
  linarith

/-! ## The rational comparator decides the comparison of the real distances -/

/-- The signed square `x ↦ x * |x|` preserves and reflects order. -/
theorem signed_square_le_iff (x y : ℝ) : x * |x| ≤ y * |y| ↔ x ≤ y := by
  have mono : ∀ a b : ℝ, a ≤ b → a * |a| ≤ b * |b| := by
    intro a b hab
    rcases le_total 0 a with ha | ha
    · rw [abs_of_nonneg ha, abs_of_nonneg (le_trans ha hab)]
      nlinarith
    · rcases le_total 0 b with hb | hb
      · rw [abs_of_nonpos ha, abs_of_nonneg hb]
        nlinarith
      · rw [abs_of_nonpos ha, abs_of_nonpos hb]
        nlinarith
  have strict : ∀ a b : ℝ, a < b → a * |a| < b * |b| := by
    intro a b hab
    rcases le_total 0 a with ha | ha
    · rw [abs_of_nonneg ha, abs_of_nonneg (le_trans ha hab.le)]
      nlinarith
    · rcases le_total 0 b with hb | hb
      · rw [abs_of_nonpos ha, abs_of_nonneg hb]
        rcases lt_or_eq_of_le ha with ha1 | ha1
        · nlinarith
        · rcases lt_or_eq_of_le hb with hb1 | hb1
          · nlinarith
          · exfalso
            rw [ha1, ← hb1] at hab
            exact lt_irrefl _ hab
      · rw [abs_of_nonpos ha, abs_of_nonpos hb]
        nlinarith
  constructor
  · intro h
    by_contra hxy
    exact absurd (strict y x (not_le.1 hxy)) (not_lt.2 h)
  · exact mono x y

theorem radicand_cast (p : Vec3 ℚ) :
    ((width_one_cube_radicand p : ℚ) : ℝ) = width_one_cube_radicand (toReal p) := by
  simp only [width_one_cube_radicand, toReal]
  push_cast
  rfl

/-- The rational key is the signed square of the real distance. -/
theorem distance_to_cube_ssq_cast (p c : Vec3 ℚ) (w : ℚ) :
    ((distance_to_cube_ssq p c w : ℚ) : ℝ) =
      distance_to_cube (toReal p) (toReal c) (w : ℝ) *
        |distance_to_cube (toReal p) (toReal c) (w : ℝ)| := by
  have hr : ((p.sub c).divScalar w |> toReal) = ((toReal p).sub (toReal c)).divScalar (w : ℝ) := by
    simp only [toReal, Vec3.sub, Vec3.divScalar]
    push_cast
    rfl
  unfold distance_to_cube distance_to_cube_ssq distance_to_width_one_cube
  rw [← hr, ← radicand_cast]
  have hnn : (0 : ℝ) ≤ ((width_one_cube_radicand ((p.sub c).divScalar w) : ℚ) : ℝ) := by
    exact_mod_cast width_one_cube_radicand_nonneg ((p.sub c).divScalar w)
  rw [abs_mul, abs_of_nonneg (Real.sqrt_nonneg _)]
  push_cast
  calc (w : ℝ) * |(w : ℝ)| * ((width_one_cube_radicand ((p.sub c).divScalar w) : ℚ) : ℝ)
      = (w : ℝ) * |(w : ℝ)| *
          (Real.sqrt ((width_one_cube_radicand ((p.sub c).divScalar w) : ℚ) : ℝ) *
            Real.sqrt ((width_one_cube_radicand ((p.sub c).divScalar w) : ℚ) : ℝ)) := by
        rw [Real.mul_self_sqrt hnn]
    _ = _ := by ring

theorem norm_signed_square (r poi : Vec3 ℚ) :
    (((r.sub poi).squaredNorm : ℚ) : ℝ) =
      norm ((toReal r).sub (toReal poi)) * |norm ((toReal r).sub (toReal poi))| := by
  have hnn : (0 : ℝ) ≤ (toReal r |>.sub (toReal poi)).squaredNorm := by
    unfold Vec3.squaredNorm
    nlinarith [mul_self_nonneg ((toReal r).sub (toReal poi)).x,
      mul_self_nonneg ((toReal r).sub (toReal poi)).y,
      mul_self_nonneg ((toReal r).sub (toReal poi)).z]
  unfold norm
  rw [abs_of_nonneg (Real.sqrt_nonneg _), Real.mul_self_sqrt hnn]
  simp only [Vec3.squaredNorm, Vec3.sub, toReal]
  push_cast
  ring

/-- The key computed in the rationals succeeds exactly when the distance of the
source does, and is then its signed square. -/
theorem distance_key_cast (P : List (Vec3 ℚ)) (t : Octree) (poi : Vec3 ℚ) (v : Int) :
    (∀ e, distance_key P t poi v = .error e ↔ candidate_distance P t poi v = .error e) ∧
      (∀ d, distance_key P t poi v = .ok d →
        ∃ x, candidate_distance P t poi v = .ok x ∧ (d : ℝ) = x * |x|) := by
  unfold distance_key candidate_distance
  simp only
  by_cases hv : v < (P.length : Int)
  · simp only [hv, if_true]
    cases hr : P_row P v with
    | error e1 => simp
    | ok row =>
      simp only [Except.ok.injEq, exists_eq_left']
      refine ⟨fun e => by simp, fun d hd => ?_⟩
      rw [← hd]
      exact norm_signed_square row poi
  · simp only [hv, if_false]
    cases hc : vector_at t.centers (v - P.length) with
    | error e1 => simp
    | ok c =>
      cases hw : vector_at t.widths (v - P.length) with
      | error e1 => simp
      | ok w =>
        simp only [Except.ok.injEq, exists_eq_left']
        refine ⟨fun e => by simp, fun d hd => ?_⟩
        rw [← hd]
        exact distance_to_cube_ssq_cast poi c w

/-- The executable comparator returns `leftdistance >= rightdistance` for the
real distances of the source. -/
theorem cmp_iff_real (P : List (Vec3 ℚ)) (t : Octree) (poi : Vec3 ℚ) (left right : Int)
    (b : Bool) (h : cmp P t poi left right = .ok b) :
    ∃ leftdistance rightdistance, candidate_distance P t poi left = .ok leftdistance ∧
      candidate_distance P t poi right = .ok rightdistance ∧
      (b = true ↔ leftdistance ≥ rightdistance) := by
  unfold cmp at h
  cases hl : distance_key P t poi left with
  | error e => simp [hl] at h
  | ok dl =>
    cases hr : distance_key P t poi right with
    | error e => simp [hl, hr] at h
    | ok dr =>
      simp only [hl, hr, Except.ok.injEq] at h
      obtain ⟨x, hx, hdx⟩ := (distance_key_cast P t poi left).2 dl hl
      obtain ⟨y, hy, hdy⟩ := (distance_key_cast P t poi right).2 dr hr
      refine ⟨x, y, hx, hy, ?_⟩
      rw [← h, decide_eq_true_eq, ge_iff_le, ge_iff_le, ← signed_square_le_iff, ← hdx, ← hdy]
      exact Iff.symm Rat.cast_le

/-- On candidates whose keys succeed, the comparator object of the queue is `cmp`. -/
theorem cmp_total_eq (P : List (Vec3 ℚ)) (t : Octree) (poi : Vec3 ℚ) (left right : Int)
    (b : Bool) (h : cmp P t poi left right = .ok b) : cmp_total P t poi left right = b := by
  unfold cmp at h
  cases hl : distance_key P t poi left with
  | error e => simp [hl] at h
  | ok dl =>
    cases hr : distance_key P t poi right with
    | error e => simp [hl, hr] at h
    | ok dr =>
      simp only [hl, hr, Except.ok.injEq] at h
      simp only [cmp_total, cmp_of, key_or_zero, hl, hr]
      exact h

/-! ## Keys of well-formed candidates -/

theorem P_row_ok_iff (P : List (Vec3 ℚ)) (v : Int) (r : Vec3 ℚ) :
    P_row P v = .ok r ↔ 0 ≤ v ∧ P[v.toNat]? = some r := by
  unfold P_row
  by_cases h : 0 ≤ v
  · simp only [h, if_true, true_and]
    cases hr : P[v.toNat]? with
    | none => simp
    | some a => simp
  · simp [h]

theorem P_row_lt (P : List (Vec3 ℚ)) (v : Int) (r : Vec3 ℚ) (h : P_row P v = .ok r) :
    0 ≤ v ∧ v < P.length := by
  obtain ⟨h0, h1⟩ := (P_row_ok_iff P v r).1 h
  refine ⟨h0, ?_⟩
  have := (List.getElem?_eq_some.1 h1).1
  omega

theorem distance_key_point (P : List (Vec3 ℚ)) (t : Octree) (poi : Vec3 ℚ) (v : Int)
    (r : Vec3 ℚ) (h : P_row P v = .ok r) :
    distance_key P t poi v = .ok (r.sub poi).squaredNorm := by
  have hlt := (P_row_lt P v r h).2
  simp [distance_key, hlt, h]

theorem distance_key_cell (P : List (Vec3 ℚ)) (t : Octree) (poi : Vec3 ℚ) (v : Int)
    (c : Vec3 ℚ) (w : ℚ) (hv : (P.length : Int) ≤ v)
    (hc : vector_at t.centers (v - P.length) = .ok c)
    (hw : vector_at t.widths (v - P.length) = .ok w) :
    distance_key P t poi v = .ok (distance_to_cube_ssq poi c w) := by
  have : ¬ v < (P.length : Int) := by omega
  simp [distance_key, this, hc, hw]

theorem key_or_zero_of_ok (P : List (Vec3 ℚ)) (t : Octree) (poi : Vec3 ℚ) (v : Int) (d : ℚ)
    (h : distance_key P t poi v = .ok d) : key_or_zero P t poi v = d := by
  simp [key_or_zero, h]

theorem distance_to_cube_ssq_pos (p c : Vec3 ℚ) (w : ℚ) (hw : 0 < w) :
    distance_to_cube_ssq p c w = w ^ 2 * width_one_cube_radicand ((p.sub c).divScalar w) := by
  unfold distance_to_cube_ssq
  rw [abs_of_pos hw]
  ring

/-- The key of a cell with a positive width is at most the key of every point
of `P` inside its cube. -/
theorem cell_key_le_point_key (P : List (Vec3 ℚ)) (t : Octree) (poi : Vec3 ℚ) (v p : Int)
    (c r : Vec3 ℚ) (w : ℚ) (hv : (P.length : Int) ≤ v)
    (hc : vector_at t.centers (v - P.length) = .ok c)
    (hw : vector_at t.widths (v - P.length) = .ok w) (hpos : 0 < w)
    (hr : P_row P p = .ok r) (hin : InCube r c w) :
    key_or_zero P t poi v ≤ key_or_zero P t poi p := by
  rw [key_or_zero_of_ok P t poi v _ (distance_key_cell P t poi v c w hv hc hw),
    key_or_zero_of_ok P t poi p _ (distance_key_point P t poi p r hr),
    distance_to_cube_ssq_pos poi c w hpos]
  exact sq_distance_to_cube_le poi c r w hpos hin

theorem Covers.key_ok {P : List (Vec3 ℚ)} {t : Octree} {v : Int} {pts : List Int} {n : Nat}
    (h : Covers P t v pts n) (poi : Vec3 ℚ) : ∃ d, distance_key P t poi v = .ok d := by
  cases h with
  | point v r hv => exact ⟨_, distance_key_point P t poi v r hv⟩
  | leaf v ch pts ctr w hv hch hleaf hpts hctr hw hpos hone hin =>
    exact ⟨_, distance_key_cell P t poi v ctr w hv hctr hw⟩
  | node v ch ctr w below size hv hch hnode hvalid hctr hw hpos hsub hin =>
    exact ⟨_, distance_key_cell P t poi v ctr w hv hctr hw⟩

theorem Covers.is_point {P : List (Vec3 ℚ)} {t : Octree} {v : Int} {pts : List Int} {n : Nat}
    (h : Covers P t v pts n) : ∀ p ∈ pts, ∃ r, P_row P p = .ok r := by
  cases h with
  | point v r hv =>
    intro p hp
    rw [List.mem_singleton] at hp
    exact ⟨r, hp ▸ hv⟩
  | leaf v ch pts ctr w hv hch hleaf hpts hctr hw hpos hone hin =>
    intro p hp
    obtain ⟨r, hr, _⟩ := hin p hp
    exact ⟨r, hr⟩
  | node v ch ctr w below size hv hch hnode hvalid hctr hw hpos hsub hin =>
    intro p hp
    obtain ⟨r, hr, _⟩ := hin p hp
    exact ⟨r, hr⟩

/-- The key of a well-formed candidate is a lower bound for the key of every
point it stands for. -/
theorem Covers.key_le {P : List (Vec3 ℚ)} {t : Octree} {v : Int} {pts : List Int} {n : Nat}
    (h : Covers P t v pts n) (poi : Vec3 ℚ) :
    ∀ p ∈ pts, key_or_zero P t poi v ≤ key_or_zero P t poi p := by
  cases h with
  | point v r hv =>
    intro p hp
    rw [List.mem_singleton] at hp
    rw [hp]
  | leaf v ch pts ctr w hv hch hleaf hpts hctr hw hpos hone hin =>
    intro p hp
    obtain ⟨r, hr, hc⟩ := hin p hp
    exact cell_key_le_point_key P t poi v p ctr r w hv hctr hw hpos hr hc
  | node v ch ctr w below size hv hch hnode hvalid hctr hw hpos hsub hin =>
    intro p hp
    obtain ⟨r, hr, hc⟩ := hin p hp
    exact cell_key_le_point_key P t poi v p ctr r w hv hctr hw hpos hr hc

theorem Covers.size_pos {P : List (Vec3 ℚ)} {t : Octree} {v : Int} {pts : List Int} {n : Nat}
    (h : Covers P t v pts n) : 1 ≤ n := by
  cases h <;> omega

/-! ## Pushing onto the frontier -/

theorem keys_checked_ok (P : List (Vec3 ℚ)) (t : Octree) (poi : Vec3 ℚ) (l : List Int)
    (h : ∀ x ∈ l, ∃ d, distance_key P t poi x = .ok d) : keys_checked P t poi l = .ok () := by
  induction l with
  | nil => rfl
  | cons x xs ih =>
    obtain ⟨d, hd⟩ := h x (List.mem_cons_self x xs)
    simp only [keys_checked, hd]
    exact ih (fun y hy => h y (List.mem_cons_of_mem x hy))

theorem checked_push_spec (pq : PriorityQueue) (hpq : pq.Lawful) (P : List (Vec3 ℚ))
    (t : Octree) (poi : Vec3 ℚ) (q : pq.Q) (v : Int)
    (hq : pq.valid (cmp_total P t poi) q)
    (hkeys : ∀ x ∈ pq.toList q, ∃ d, distance_key P t poi x = .ok d)
    (hv : ∃ d, distance_key P t poi v = .ok d) :
    ∃ q1, checked_push pq P t poi q v = .ok q1 ∧ pq.valid (cmp_total P t poi) q1 ∧
      (pq.toList q1).Perm (v :: pq.toList q) := by
  have hp := hpq.push_spec (key_or_zero P t poi) q v hq
  refine ⟨pq.push (cmp_total P t poi) q v, ?_, hp.1, hp.2⟩
  unfold checked_push
  cases hl : pq.toList q with
  | nil => rfl
  | cons x xs =>
    have hall : ∀ y ∈ x :: xs ++ [v], ∃ d, distance_key P t poi y = .ok d := by
      intro y hy
      rw [List.mem_append, List.mem_singleton] at hy
      rcases hy with hy | hy
      · exact hkeys y (hl ▸ hy)
      · exact hy ▸ hv
    simp only [keys_checked_ok P t poi _ hall]

theorem checked_push_all_spec (pq : PriorityQueue) (hpq : pq.Lawful) (P : List (Vec3 ℚ))
    (t : Octree) (poi : Vec3 ℚ) (vs : List Int) :
    ∀ (q : pq.Q), pq.valid (cmp_total P t poi) q →
      (∀ x ∈ pq.toList q, ∃ d, distance_key P t poi x = .ok d) →
      (∀ v ∈ vs, ∃ d, distance_key P t poi v = .ok d) →
      ∃ q1, checked_push_all pq P t poi q vs = .ok q1 ∧ pq.valid (cmp_total P t poi) q1 ∧
        (pq.toList q1).Perm (vs ++ pq.toList q) := by
  induction vs with
  | nil =>
    intro q hq _ _
    exact ⟨q, rfl, hq, List.Perm.refl _⟩
  | cons v vs ih =>
    intro q hq hkeys hvs
    obtain ⟨q1, h1, hval1, hperm1⟩ :=
      checked_push_spec pq hpq P t poi q v hq hkeys (hvs v (List.mem_cons_self v vs))
    have hkeys1 : ∀ x ∈ pq.toList q1, ∃ d, distance_key P t poi x = .ok d := by
      intro x hx
      have hx1 := hperm1.subset hx
      rw [List.mem_cons] at hx1
      rcases hx1 with hx1 | hx1
      · exact hx1 ▸ hvs v (List.mem_cons_self v vs)
      · exact hkeys x hx1
    obtain ⟨q2, h2, hval2, hperm2⟩ :=
      ih q1 hval1 hkeys1 (fun y hy => hvs y (List.mem_cons_of_mem v hy))
    refine ⟨q2, ?_, hval2, ?_⟩
    · simp only [checked_push_all, h1, h2]
    · calc (pq.toList q2).Perm (vs ++ pq.toList q1) := hperm2
        _ |>.Perm (vs ++ (v :: pq.toList q)) := List.Perm.append_left vs hperm1
        _ |>.Perm (v :: (vs ++ pq.toList q)) := List.perm_middle
        _ = (v :: vs ++ pq.toList q) := rfl

/-! ## The loop invariant is preserved by the loop body -/

theorem all_points_length (P : List (Vec3 ℚ)) : (all_points P).length = P.length := by
  unfold all_points
  rw [List.length_map, List.length_range]

/-- After the pop, the annotations other than the popped one annotate the queue. -/
theorem entries_after_pop (pq : PriorityQueue) (hpq : pq.Lawful) (key : Int → ℚ) (q : pq.Q)
    (a : Int × List Int × Nat) (l1 l2 : Annotated)
    (hq : pq.valid (cmp_of key) q) (htop : pq.top q = some a.1)
    (hent : ((l1 ++ a :: l2).map (fun a => a.1)).Perm (pq.toList q)) :
    ((l1 ++ l2).map (fun a => a.1)).Perm (pq.toList (pq.pop (cmp_of key) q)) := by
  have hpop := (hpq.pop_spec key q a.1 hq htop).2
  have h1 : ((l1 ++ a :: l2).map (fun a => a.1)).Perm (a.1 :: (l1 ++ l2).map (fun a => a.1)) := by
    have := (@List.perm_middle _ a l1 l2).map (fun a => a.1)
    simp only [List.map_append, List.map_cons] at this ⊢
    exact this
  have h2 := (h1.symm.trans hent).erase a.1
  rw [List.erase_cons_head] at h2
  exact h2.trans hpop.symm

theorem flatten_middle (a : Int × List Int × Nat) (l1 l2 : Annotated) :
    (((l1 ++ a :: l2).map (fun a => a.2.1)).flatten).Perm
      (a.2.1 ++ ((l1 ++ l2).map (fun a => a.2.1)).flatten) := by
  have := ((@List.perm_middle _ a l1 l2).map (fun a => a.2.1)).flatten
  simpa using this

theorem sizes_middle (a : Int × List Int × Nat) (l1 l2 : Annotated) :
    ((l1 ++ a :: l2).map (fun a => a.2.2)).sum = a.2.2 + ((l1 ++ l2).map (fun a => a.2.2)).sum := by
  simp only [List.map_append, List.map_cons, List.sum_append, List.sum_cons]
  omega

/-- A popped cell is replaced by the candidates `B` pushed for it. -/
theorem Invariant.expand {pq : PriorityQueue} (hpq : pq.Lawful) {P : List (Vec3 ℚ)}
    {t : Octree} {poi : Vec3 ℚ} {W : Nat} {s : LoopState pq}
    {a : Int × List Int × Nat} {l1 l2 : Annotated}
    (hinv : Invariant pq P t poi W s (l1 ++ a :: l2)) (htop : pq.top s.queue = some a.1)
    (q1 : pq.Q) (B : Annotated) (hval : pq.valid (cmp_total P t poi) q1)
    (hq1 : (pq.toList q1).Perm
      (B.map (fun a => a.1) ++ pq.toList (pq.pop (cmp_total P t poi) s.queue)))
    (hcov : ∀ b ∈ B, Covers P t b.1 b.2.1 b.2.2)
    (hpts : ((B.map (fun a => a.2.1)).flatten).Perm a.2.1)
    (hsize : (B.map (fun a => a.2.2)).sum + 1 = a.2.2) :
    Invariant pq P t poi W { queue := q1, row := s.row, pops := s.pops + 1 }
      (B ++ (l1 ++ l2)) := by
  have hent := entries_after_pop pq hpq (key_or_zero P t poi) s.queue a l1 l2 hinv.valid htop
    hinv.entries
  refine ⟨hval, ?_, ?_, ?_, hinv.sorted, ?_, ?_⟩
  · rw [List.map_append]
    exact (List.Perm.append_left _ hent).trans hq1.symm
  · intro b hb
    rw [List.mem_append] at hb
    rcases hb with hb | hb
    · exact hcov b hb
    · apply hinv.covers
      rw [List.mem_append] at hb ⊢
      rcases hb with hb | hb
      · exact Or.inl hb
      · exact Or.inr (List.mem_cons_of_mem _ hb)
  · refine List.Perm.trans ?_ hinv.partition
    apply List.Perm.append_left
    rw [List.map_append, List.flatten_append]
    exact (List.Perm.append_right _ hpts).trans (flatten_middle a l1 l2).symm
  · intro r hr b hb p hp
    rw [List.mem_append] at hb
    rcases hb with hb | hb
    · apply hinv.dominated r hr a (by simp) p
      apply hpts.subset
      rw [List.mem_flatten]
      exact ⟨b.2.1, List.mem_map_of_mem _ hb, hp⟩
    · apply hinv.dominated r hr b _ p hp
      rw [List.mem_append] at hb ⊢
      rcases hb with hb | hb
      · exact Or.inl hb
      · exact Or.inr (List.mem_cons_of_mem _ hb)
  · have := hinv.budget
    rw [sizes_middle] at this
    simp only [List.map_append, List.sum_append] at this ⊢
    omega

/-- A popped point is appended to the row. -/
theorem Invariant.accept {pq : PriorityQueue} (hpq : pq.Lawful) {P : List (Vec3 ℚ)}
    {t : Octree} {poi : Vec3 ℚ} {W : Nat} {s : LoopState pq}
    {v : Int} {l1 l2 : Annotated}
    (hinv : Invariant pq P t poi W s (l1 ++ (v, [v], 1) :: l2))
    (htop : pq.top s.queue = some v) :
    Invariant pq P t poi W
      { queue := pq.pop (cmp_total P t poi) s.queue, row := s.row ++ [v], pops := s.pops + 1 }
      (l1 ++ l2) := by
  have hent := entries_after_pop pq hpq (key_or_zero P t poi) s.queue (v, [v], 1) l1 l2
    hinv.valid htop hinv.entries
  have hmin := (hpq.top_spec (key_or_zero P t poi) s.queue v hinv.valid htop).2
  have hsub : ∀ b ∈ l1 ++ l2, b ∈ l1 ++ (v, [v], 1) :: l2 := by
    intro b hb
    rw [List.mem_append] at hb ⊢
    rcases hb with hb | hb
    · exact Or.inl hb
    · exact Or.inr (List.mem_cons_of_mem _ hb)
  refine ⟨(hpq.pop_spec (key_or_zero P t poi) s.queue v hinv.valid htop).1, hent,
    fun b hb => hinv.covers b (hsub b hb), ?_, ?_, ?_, ?_⟩
  · refine List.Perm.trans ?_ hinv.partition
    rw [List.append_assoc]
    apply List.Perm.append_left
    exact (flatten_middle (v, [v], 1) l1 l2).symm
  · rw [List.pairwise_append]
    refine ⟨hinv.sorted, List.pairwise_singleton _ _, ?_⟩
    intro r hr x hx
    rw [List.mem_singleton] at hx
    subst hx
    exact hinv.dominated r hr (x, [x], 1) (by simp) x (by simp)
  · intro r hr b hb p hp
    rw [List.mem_append, List.mem_singleton] at hr
    rcases hr with hr | hr
    · exact hinv.dominated r hr b (hsub b hb) p hp
    · subst hr
      have h1 : b.1 ∈ pq.toList s.queue := by
        apply hinv.entries.subset
        exact List.mem_map_of_mem (fun a => a.1) (hsub b hb)
      exact le_trans (hmin b.1 h1) ((hinv.covers b (hsub b hb)).key_le poi p hp)
  · have := hinv.budget
    rw [sizes_middle] at this
    simp only at this ⊢
    omega

/-- One pass through the loop body from a state that satisfies the invariant
and has not yet accepted every point: it succeeds, the invariant holds again,
one more pop has been made, and the row has grown by at most one entry. -/
theorem loop_body_spec (pq : PriorityQueue) (hpq : pq.Lawful) (P : List (Vec3 ℚ))
    (t : Octree) (poi : Vec3 ℚ) (W : Nat) (s : LoopState pq) (A : Annotated)
    (hinv : Invariant pq P t poi W s A) (hlt : s.row.length < P.length) :
    ∃ s1 A1, loop_body pq P t poi s = .ok s1 ∧ Invariant pq P t poi W s1 A1 ∧
      s1.pops = s.pops + 1 ∧ s1.row.length ≤ s.row.length + 1 := by
  have hne : pq.toList s.queue ≠ [] := by
    intro h
    have hA : A = [] := by
      have := hinv.entries
      rw [h] at this
      simpa using this
    have := hinv.partition.length_eq
    rw [hA, all_points_length] at this
    simp at this
    omega
  cases htop : pq.top s.queue with
  | none => exact absurd ((hpq.top_none _).1 htop) hne
  | some v =>
    have hmem := (hpq.top_spec (key_or_zero P t poi) s.queue v hinv.valid htop).1
    obtain ⟨a, haA, hav⟩ := List.mem_map.1 (hinv.entries.symm.subset hmem)
    obtain ⟨l1, l2, rfl⟩ := List.append_of_mem haA
    subst hav
    have hcov := hinv.covers a (by simp)
    have hkeys : ∀ x ∈ pq.toList (pq.pop (cmp_total P t poi) s.queue),
        ∃ d, distance_key P t poi x = .ok d := by
      intro x hx
      have hent := entries_after_pop pq hpq (key_or_zero P t poi) s.queue a l1 l2 hinv.valid
        htop hinv.entries
      obtain ⟨b, hb, hbx⟩ := List.mem_map.1 (hent.symm.subset hx)
      have hb1 : b ∈ l1 ++ a :: l2 := by
        rw [List.mem_append] at hb ⊢
        rcases hb with hb | hb
        · exact Or.inl hb
        · exact Or.inr (List.mem_cons_of_mem _ hb)
      exact hbx ▸ (hinv.covers b hb1).key_ok poi
    obtain ⟨v, pts, size⟩ := a
    simp only at htop hcov
    cases hcov with
    | point _ r hv =>
      have hvn := (P_row_lt P v r hv).2
      refine ⟨_, _, ?_, Invariant.accept hpq hinv htop, rfl, ?_⟩
      · simp only [loop_body, htop, hvn, if_true]
      · simp
    | leaf _ ch _ ctr w hv hch hleaf hpts hctr hw hpos hone hin =>
      have hvn : ¬ v < (P.length : Int) := by omega
      match pts, hone, hin, hpts, hinv with
      | [], _, _, hpts, hinv =>
        refine ⟨{ queue := pq.pop (cmp_total P t poi) s.queue, row := s.row, pops := s.pops + 1 },
          _, ?_, Invariant.expand hpq hinv htop (pq.pop (cmp_total P t poi) s.queue) []
            ?_ ?_ ?_ ?_ ?_, rfl, ?_⟩
        · simp only [loop_body, htop, hvn, if_false, hch, hleaf, if_true, hpts]
          rfl
        · exact (hpq.pop_spec (key_or_zero P t poi) s.queue v hinv.valid htop).1
        · exact List.Perm.refl _
        · intro b hb
          cases hb
        · exact List.Perm.refl _
        · rfl
        · simp
      | [p], _, hin, hpts, hinv =>
        obtain ⟨r, hr, _⟩ := hin p (by simp)
        obtain ⟨q1, hq1, hval1, hperm1⟩ := checked_push_spec pq hpq P t poi
          (pq.pop (cmp_total P t poi) s.queue) p
          (hpq.pop_spec (key_or_zero P t poi) s.queue v hinv.valid htop).1 hkeys
          ⟨_, distance_key_point P t poi p r hr⟩
        refine ⟨{ queue := q1, row := s.row, pops := s.pops + 1 }, _, ?_,
          Invariant.expand hpq hinv htop q1 [(p, [p], 1)] hval1 ?_ ?_ ?_ ?_, rfl, ?_⟩
        · have hat : vector_at [p] 0 = .ok p := rfl
          simp only [loop_body, htop, hvn, if_false, hch, hleaf, if_true, hpts,
            List.length_singleton, gt_iff_lt, Nat.lt_one_iff, hat, hq1]
        · exact hperm1
        · intro b hb
          rw [List.mem_singleton] at hb
          subst hb
          exact Covers.point p r hr
        · simp
        · rfl
        · simp
      | _ :: _ :: _, hone, _, _, _ =>
        simp at hone
    | node _ ch ctr w below size hv hch hnode hvalid hctr hw hpos hsub hin =>
      have hvn : ¬ v < (P.length : Int) := by omega
      have hvs : ∀ x ∈ List.ofFn (fun j : Fin 8 => ch j + (P.length : Int)),
          ∃ d, distance_key P t poi x = .ok d := by
        intro x hx
        rw [List.mem_ofFn] at hx
        obtain ⟨j, hj⟩ := hx
        exact hj ▸ (hsub j).key_ok poi
      obtain ⟨q1, hq1, hval1, hperm1⟩ := checked_push_all_spec pq hpq P t poi
        (List.ofFn (fun j : Fin 8 => ch j + (P.length : Int)))
        (pq.pop (cmp_total P t poi) s.queue)
        (hpq.pop_spec (key_or_zero P t poi) s.queue v hinv.valid htop).1 hkeys hvs
      refine ⟨{ queue := q1, row := s.row, pops := s.pops + 1 }, _, ?_,
        Invariant.expand hpq hinv htop q1
          (List.ofFn (fun j : Fin 8 => (ch j + (P.length : Int), below j, size j)))
          hval1 ?_ ?_ ?_ ?_, rfl, ?_⟩
      · simp only [loop_body, htop, hvn, if_false, hch, hnode, hq1]
      · rw [List.map_ofFn]
        exact hperm1
      · intro b hb
        rw [List.mem_ofFn] at hb
        obtain ⟨j, hj⟩ := hb
        subst hj
        exact hsub j
      · rw [List.map_ofFn]
        exact List.Perm.refl _
      · rw [List.map_ofFn]
        simp only [Function.comp_def]
        exact Nat.add_comm _ _
      · simp

/-! ## The loop runs to completion -/

theorem Invariant.pending_pos {pq : PriorityQueue} {P : List (Vec3 ℚ)} {t : Octree}
    {poi : Vec3 ℚ} {W : Nat} {s : LoopState pq} {A : Annotated}
    (hinv : Invariant pq P t poi W s A) (hlt : s.row.length < P.length) :
    1 ≤ (A.map (fun a => a.2.2)).sum := by
  cases A with
  | nil =>
    have := hinv.partition.length_eq
    rw [all_points_length] at this
    simp at this
    omega
  | cons a A1 =>
    have := (hinv.covers a (by simp)).size_pos
    simp only [List.map_cons, List.sum_cons]
    omega

theorem while_loop_unfold (pq : PriorityQueue) (P : List (Vec3 ℚ)) (t : Octree) (poi : Vec3 ℚ)
    (rk : Int) (fuel : Nat) (s : LoopState pq) :
    while_loop pq P t poi rk fuel s =
      if s.points_found < rk then
        match fuel with
        | 0 => .error Fault.out_of_fuel
        | fuel + 1 =>
          match loop_body pq P t poi s with
          | .error e => .error e
          | .ok s1 => while_loop pq P t poi rk fuel s1
      else .ok s := by
  cases fuel <;> rfl

/-- From a state that satisfies the invariant, with fuel for the pending
candidates, the loop ends with exactly `rk` accepted points. -/
theorem while_loop_spec (pq : PriorityQueue) (hpq : pq.Lawful) (P : List (Vec3 ℚ))
    (t : Octree) (poi : Vec3 ℚ) (W : Nat) (rk : Int) (hrk : rk ≤ P.length) :
    ∀ (fuel : Nat) (s : LoopState pq) (A : Annotated), Invariant pq P t poi W s A →
      (s.row.length : Int) ≤ rk → W ≤ s.pops + fuel →
      ∃ s1 A1, while_loop pq P t poi rk fuel s = .ok s1 ∧ Invariant pq P t poi W s1 A1 ∧
        (s1.row.length : Int) = rk := by
  intro fuel
  induction fuel with
  | zero =>
    intro s A hinv hlen hfuel
    rw [while_loop_unfold]
    by_cases hlt : s.points_found < rk
    · exfalso
      have h1 : s.row.length < P.length := by
        unfold LoopState.points_found at hlt
        omega
      have := hinv.pending_pos h1
      have := hinv.budget
      omega
    · rw [if_neg hlt]
      refine ⟨s, A, rfl, hinv, ?_⟩
      unfold LoopState.points_found at hlt
      omega
  | succ fuel ih =>
    intro s A hinv hlen hfuel
    rw [while_loop_unfold]
    by_cases hlt : s.points_found < rk
    · rw [if_pos hlt]
      have h1 : s.row.length < P.length := by
        unfold LoopState.points_found at hlt
        omega
      obtain ⟨s1, A1, hbody, hinv1, hpops, hrow⟩ := loop_body_spec pq hpq P t poi W s A hinv h1
      simp only [hbody]
      apply ih s1 A1 hinv1
      · unfold LoopState.points_found at hlt
        omega
      · omega
    · rw [if_neg hlt]
      refine ⟨s, A, rfl, hinv, ?_⟩
      unfold LoopState.points_found at hlt
      omega

/-- The invariant holds after `queue.push(n)`. -/
theorem initial_invariant (pq : PriorityQueue) (hpq : pq.Lawful) (P : List (Vec3 ℚ))
    (t : Octree) (poi : Vec3 ℚ) (pts : List Int) (W : Nat)
    (hroot : Covers P t (P.length : Int) pts W) (hall : pts.Perm (all_points P)) :
    Invariant pq P t poi W (initial_state pq P t poi) [((P.length : Int), pts, W)] := by
  have hp := hpq.push_spec (key_or_zero P t poi) pq.empty (P.length : Int) (hpq.valid_empty _)
  rw [hpq.toList_empty] at hp
  refine ⟨hp.1, hp.2.symm, ?_, ?_, List.Pairwise.nil, ?_, ?_⟩
  · intro a ha
    rw [List.mem_singleton] at ha
    subst ha
    exact hroot
  · simpa [initial_state] using hall
  · intro r hr
    cases hr
  · simp [initial_state]

/-! ## The result of one query -/

theorem real_k_le (n k : Int) : real_k n k ≤ n := by
  unfold real_k
  exact min_le_left n k

/-- The traversal for row `i` over a well-formed octree, with enough fuel:
it returns, the row has `real_k` entries, the row and the points never accepted
(`rest`) are the whole point set, the row is sorted by key and every accepted
key is at most every key left behind. -/
theorem query_spec (pq : PriorityQueue) (hpq : pq.Lawful) (P : List (Vec3 ℚ)) (k : Int)
    (t : Octree) (hk : 0 ≤ k) (pts : List Int) (W : Nat)
    (hroot : Covers P t (P.length : Int) pts W) (hall : pts.Perm (all_points P))
    (fuel : Nat) (hfuel : W ≤ fuel) (i : Nat) (poi : Vec3 ℚ) (hi : P_row P i = .ok poi) :
    ∃ s rest, query pq P k t fuel i = .ok s ∧ (s.row.length : Int) = real_k P.length k ∧
      s.pops ≤ W ∧ (s.row ++ rest).Perm (all_points P) ∧
      s.row.Pairwise (fun a b => key_or_zero P t poi a ≤ key_or_zero P t poi b) ∧
      ∀ r ∈ s.row, ∀ p ∈ rest, key_or_zero P t poi r ≤ key_or_zero P t poi p := by
  have h0 : ((initial_state pq P t poi).row.length : Int) ≤ real_k P.length k := by
    have : (0 : Int) ≤ real_k P.length k := by
      unfold real_k
      exact le_min (Int.ofNat_nonneg _) hk
    simpa [initial_state] using this
  obtain ⟨s1, A1, hrun, hinv, hlen⟩ := while_loop_spec pq hpq P t poi W (real_k P.length k)
    (real_k_le _ _) fuel (initial_state pq P t poi) _
    (initial_invariant pq hpq P t poi pts W hroot hall) h0
    (by simp only [initial_state]; omega)
  refine ⟨s1, (A1.map (fun a => a.2.1)).flatten, ?_, hlen, ?_, hinv.partition, hinv.sorted, ?_⟩
  · simp only [query, hi, hrun]
  · have := hinv.budget
    omega
  · intro r hr p hp
    rw [List.mem_flatten] at hp
    obtain ⟨l, hl, hpl⟩ := hp
    obtain ⟨a, ha, hal⟩ := List.mem_map.1 hl
    subst hal
    exact hinv.dominated r hr a ha p hpl

theorem mem_all_points (P : List (Vec3 ℚ)) (p : Int) :
    p ∈ all_points P ↔ ∃ r, P_row P p = .ok r := by
  unfold all_points
  rw [List.mem_map]
  constructor
  · rintro ⟨j, hj, rfl⟩
    rw [List.mem_range] at hj
    refine ⟨P[j], (P_row_ok_iff P _ _).2 ⟨Int.ofNat_nonneg j, ?_⟩⟩
    simp [List.getElem?_eq_getElem hj]
  · rintro ⟨r, hr⟩
    obtain ⟨h0, h1⟩ := P_row_lt P p r hr
    refine ⟨p.toNat, ?_, ?_⟩
    · rw [List.mem_range]
      omega
    · simp only [Int.ofNat_eq_coe]
      omega

theorem all_points_nodup (P : List (Vec3 ℚ)) : (all_points P).Nodup := by
  unfold all_points
  exact (List.nodup_range _).map (fun a b h => Int.ofNat.inj h)

/-! ## The batch -/

theorem for_rows_ok (body : Nat → Except Fault (List Int)) (l : List Nat)
    (h : ∀ i ∈ l, ∃ row, body i = .ok row) : ∃ I, for_rows body l = .ok I := by
  induction l with
  | nil => exact ⟨[], rfl⟩
  | cons i is ih =>
    obtain ⟨row, hrow⟩ := h i (List.mem_cons_self i is)
    obtain ⟨I, hI⟩ := ih (fun j hj => h j (List.mem_cons_of_mem i hj))
    exact ⟨row :: I, by simp only [for_rows, hrow, hI]⟩

theorem for_rows_get (body : Nat → Except Fault (List Int)) (l : List Nat) :
    ∀ (I : List (List Int)), for_rows body l = .ok I →
      I.length = l.length ∧
        ∀ (j i : Nat) (row : List Int), l[j]? = some i → I[j]? = some row → body i = .ok row := by
  induction l with
  | nil =>
    intro I h
    simp only [for_rows, Except.ok.injEq] at h
    subst h
    exact ⟨rfl, fun j i row hj => by simp at hj⟩
  | cons a as ih =>
    intro I h
    simp only [for_rows] at h
    cases hb : body a with
    | error e => simp [hb] at h
    | ok r =>
      cases hr : for_rows body as with
      | error e => simp [hb, hr] at h
      | ok rows =>
        simp only [hb, hr, Except.ok.injEq] at h
        subst h
        obtain ⟨hlen, hget⟩ := ih rows hr
        refine ⟨by simp [hlen], ?_⟩
        intro j i row hj hI
        cases j with
        | zero =>
          simp only [List.getElem?_cons_zero, Option.some.injEq] at hj hI
          subst hj
          subst hI
          exact hb
        | succ j =>
          simp only [List.getElem?_cons_succ] at hj hI
          exact hget j i row hj hI

/-- The whole call over a well-formed octree, `k ≥ 0`: with enough fuel it
returns a table of `n` rows, and every row satisfies `RowOK` for its query
point; each query makes at most `N` pops. -/
theorem knn_octree_spec (pq : PriorityQueue) (hpq : pq.Lawful) (P : List (Vec3 ℚ)) (k : Int)
    (t : Octree) (hwf : WellFormed P t) (hk : 0 ≤ k) :
    ∃ N, ∀ fuel, N ≤ fuel → ∃ I, knn_octree pq P k t fuel = .ok I ∧ I.length = P.length ∧
      ∀ (i : Nat) (poi : Vec3 ℚ) (row : List Int), P[i]? = some poi → I[i]? = some row →
        RowOK P t k poi row ∧
          ∃ s, query pq P k t fuel i = .ok s ∧ s.row = row ∧ s.pops ≤ N := by
  obtain ⟨pts, W, hroot, hall⟩ := hwf
  refine ⟨W, fun fuel hfuel => ?_⟩
  have hq : ∀ (i : Nat) (poi : Vec3 ℚ), P[i]? = some poi →
      ∃ s, query pq P k t fuel i = .ok s ∧ s.pops ≤ W ∧ RowOK P t k poi s.row := by
    intro i poi hi
    have hrow : P_row P i = .ok poi := (P_row_ok_iff P _ _).2 ⟨Int.ofNat_nonneg i, by simpa using hi⟩
    obtain ⟨s, rest, h1, h2, h3, h4, h5, h6⟩ :=
      query_spec pq hpq P k t hk pts W hroot hall fuel hfuel i poi hrow
    exact ⟨s, h1, h3, h2, rest, h4, h5, h6⟩
  have hnn : ¬ (resize_shape P k).2 < 0 := by
    simp only [resize_shape, real_k, not_lt]
    exact le_min (Int.ofNat_nonneg _) hk
  obtain ⟨I, hI⟩ := for_rows_ok (knn_row pq P k t fuel) (List.range P.length) (by
    intro i hi
    rw [List.mem_range] at hi
    obtain ⟨s, hs, _⟩ := hq i P[i] (List.getElem?_eq_getElem hi)
    exact ⟨s.row, by simp only [knn_row, hs]⟩)
  obtain ⟨hlen, hget⟩ := for_rows_get _ _ I hI
  refine ⟨I, by simp only [knn_octree, hnn, if_false, hI], by simpa using hlen, ?_⟩
  intro i poi row hi hrow
  have hil : i < P.length := (List.getElem?_eq_some.1 hi).1
  have hb := hget i i row (by simp [List.getElem?_range hil]) hrow
  obtain ⟨s, hs, hpops, hok⟩ := hq i poi hi
  simp only [knn_row, hs, Except.ok.injEq] at hb
  exact ⟨hb ▸ hok, s, hs, hb, hpops⟩

/-! ## The heap of the standard library meets the contract -/

theorem getD_set_self (a : List Int) (i : Nat) (x : Int) (h : i < a.length) :
    (a.set i x).getD i 0 = x := by
  rw [List.getD_eq_getElem?_getD, List.getElem?_set_self h]
  rfl

theorem getD_set_ne (a : List Int) (i j : Nat) (x : Int) (h : i ≠ j) :
    (a.set i x).getD j 0 = a.getD j 0 := by
  rw [List.getD_eq_getElem?_getD, List.getD_eq_getElem?_getD, List.getElem?_set_ne h]

/-- Overwriting slot `j` after reading it is a rearrangement of overwriting
nothing and adding the new value. -/
theorem getD_cons_set_perm (a : List Int) (x : Int) :
    ∀ j, j < a.length → (a.getD j 0 :: a.set j x).Perm (x :: a) := by
  induction a with
  | nil => intro j hj; simp at hj
  | cons hd tl ih =>
    intro j hj
    cases j with
    | zero => exact List.Perm.swap _ _ _
    | succ j =>
      have hj1 : j < tl.length := by simpa using hj
      simp only [List.getD_cons_succ, List.set_cons_succ]
      exact (List.Perm.swap _ _ _).trans (((ih j hj1).cons hd).trans (List.Perm.swap _ _ _))

/-- Moving the entry of slot `j` into the hole `i` and storing `x` in slot `j`
rearranges the vector with `x` stored in the hole. -/
theorem set_set_perm (a : List Int) (x : Int) :
    ∀ i j, i ≠ j → i < a.length → j < a.length →
      ((a.set i (a.getD j 0)).set j x).Perm (a.set i x) := by
  induction a with
  | nil => intro i j _ hi; simp at hi
  | cons hd tl ih =>
    intro i j hij hi hj
    cases i with
    | zero =>
      cases j with
      | zero => exact absurd rfl hij
      | succ j =>
        have hj1 : j < tl.length := by simpa using hj
        simp only [List.set_cons_zero, List.set_cons_succ, List.getD_cons_succ]
        exact getD_cons_set_perm tl x j hj1
    | succ i =>
      have hi1 : i < tl.length := by simpa using hi
      cases j with
      | zero =>
        simp only [List.set_cons_zero, List.set_cons_succ, List.getD_cons_zero]
        have h1 := getD_cons_set_perm tl hd i hi1
        have h2 := getD_cons_set_perm tl x i hi1
        have h3 : (tl.getD i 0 :: x :: tl.set i hd).Perm (tl.getD i 0 :: hd :: tl.set i x) :=
          calc (tl.getD i 0 :: x :: tl.set i hd).Perm (x :: tl.getD i 0 :: tl.set i hd) :=
                List.Perm.swap _ _ _
            _ |>.Perm (x :: hd :: tl) := h1.cons x
            _ |>.Perm (hd :: x :: tl) := List.Perm.swap _ _ _
            _ |>.Perm (hd :: tl.getD i 0 :: tl.set i x) := (h2.cons hd).symm
            _ |>.Perm (tl.getD i 0 :: hd :: tl.set i x) := List.Perm.swap _ _ _
        exact h3.cons_inv
      | succ j =>
        have hj1 : j < tl.length := by simpa using hj
        simp only [List.set_cons_succ, List.getD_cons_succ]
        exact (ih i j (fun h => hij (by rw [h])) hi1 hj1).cons hd

/-- The heap property in terms of keys: a parent's key is at most its child's. -/
theorem std_is_heap_iff (key : Int → ℚ) (c : List Int) :
    std_is_heap (cmp_of key) c ↔
      ∀ i, 0 < i → i < c.length → key (c.getD ((i - 1) / 2) 0) ≤ key (c.getD i 0) := by
  simp only [std_is_heap, cmp_of, decide_eq_true_eq, ge_iff_le]

/-- Storing `value` in the hole `h` gives a heap when the rest is a heap, the
children of the hole are no smaller than `value`, and the parent of the hole is
smaller than `value`. -/
theorem set_hole_is_heap (key : Int → ℚ) (value : Int) (a : List Int) (h : Nat)
    (hh : h < a.length)
    (H1 : ∀ i, 0 < i → i < a.length → i ≠ h →
      key (a.getD ((i - 1) / 2) 0) ≤ key (a.getD i 0))
    (H2 : ∀ i, 0 < i → i < a.length → (i - 1) / 2 = h → key value ≤ key (a.getD i 0))
    (hstop : h = 0 ∨ key (a.getD ((h - 1) / 2) 0) < key value) :
    std_is_heap (cmp_of key) (a.set h value) := by
  rw [std_is_heap_iff]
  intro i hi0 hil
  rw [List.length_set] at hil
  by_cases hih : i = h
  · subst hih
    have hp : i ≠ (i - 1) / 2 := by omega
    rw [getD_set_self a i value hh, getD_set_ne a i _ value hp]
    rcases hstop with h0 | hlt
    · omega
    · exact hlt.le
  · rw [getD_set_ne a h i value (Ne.symm hih)]
    by_cases hpar : (i - 1) / 2 = h
    · rw [hpar, getD_set_self a h value hh]
      exact H2 i hi0 hil hpar
    · rw [getD_set_ne a h _ value (Ne.symm hpar)]
      exact H1 i hi0 hil hih

/-- Correctness of `std::__push_heap` with `topIndex = 0`: from a vector that is a heap except
at the hole, the result is a heap and a rearrangement of the vector with
`value` stored in the hole. -/
theorem std_push_heap_spec (key : Int → ℚ) (value : Int) :
    ∀ (fuel : Nat) (a : List Int) (h : Nat), h ≤ fuel → h < a.length →
      (∀ i, 0 < i → i < a.length → i ≠ h →
        key (a.getD ((i - 1) / 2) 0) ≤ key (a.getD i 0)) →
      (∀ i, 0 < i → i < a.length → (i - 1) / 2 = h → key value ≤ key (a.getD i 0)) →
      (0 < h → ∀ i, 0 < i → i < a.length → (i - 1) / 2 = h →
        key (a.getD ((h - 1) / 2) 0) ≤ key (a.getD i 0)) →
      std_is_heap (cmp_of key) (std_push_heap (cmp_of key) 0 value fuel a h) ∧
        (std_push_heap (cmp_of key) 0 value fuel a h).Perm (a.set h value) := by
  intro fuel
  induction fuel with
  | zero =>
    intro a h hf hh H1 H2 _
    have h0 : h = 0 := by omega
    simp only [std_push_heap]
    exact ⟨set_hole_is_heap key value a h hh H1 H2 (Or.inl h0), List.Perm.refl _⟩
  | succ fuel ih =>
    intro a h hf hh H1 H2 H3
    simp only [std_push_heap]
    by_cases hc : h > 0 ∧ cmp_of key (a.getD ((h - 1) / 2) 0) value = true
    · rw [if_pos hc]
      obtain ⟨hpos, hcv⟩ := hc
      simp only [cmp_of, decide_eq_true_eq, ge_iff_le] at hcv
      have hph : (h - 1) / 2 < h := by omega
      have hne : h ≠ (h - 1) / 2 := by omega
      have hlen : (a.set h (a.getD ((h - 1) / 2) 0)).length = a.length := List.length_set _ _ _
      have hget : ∀ j, j ≠ h → (a.set h (a.getD ((h - 1) / 2) 0)).getD j 0 = a.getD j 0 :=
        fun j hj => getD_set_ne a h j _ (Ne.symm hj)
      have hgeth : (a.set h (a.getD ((h - 1) / 2) 0)).getD h 0 = a.getD ((h - 1) / 2) 0 :=
        getD_set_self a h _ hh
      obtain ⟨hheap, hperm⟩ := ih (a.set h (a.getD ((h - 1) / 2) 0)) ((h - 1) / 2)
        (by omega) (by rw [hlen]; omega)
        (by
          intro i hi0 hil hip
          rw [hlen] at hil
          by_cases hih : i = h
          · subst hih
            rw [hgeth, hget _ (Ne.symm hne)]
          · rw [hget i hih]
            by_cases hpar : (i - 1) / 2 = h
            · rw [hpar, hgeth]
              exact H3 hpos i hi0 hil hpar
            · rw [hget _ hpar]
              exact H1 i hi0 hil hih)
        (by
          intro i hi0 hil hpar
          rw [hlen] at hil
          by_cases hih : i = h
          · subst hih
            rw [hgeth]
            exact hcv
          · rw [hget i hih]
            have := H1 i hi0 hil hih
            rw [hpar] at this
            exact le_trans hcv this)
        (by
          intro hp0 i hi0 hil hpar
          rw [hlen] at hil
          have hpp : ((h - 1) / 2 - 1) / 2 ≠ h := by omega
          rw [hget _ hpp]
          have h1 := H1 ((h - 1) / 2) hp0 (by omega) (by omega)
          by_cases hih : i = h
          · subst hih
            rw [hgeth]
            exact h1
          · rw [hget i hih]
            have := H1 i hi0 hil hih
            rw [hpar] at this
            exact le_trans h1 this)
      exact ⟨hheap, hperm.trans (set_set_perm a value h ((h - 1) / 2) hne hh (by omega))⟩
    · rw [if_neg hc]
      refine ⟨set_hole_is_heap key value a h hh H1 H2 ?_, List.Perm.refl _⟩
      by_cases h0 : h = 0
      · exact Or.inl h0
      · right
        have : ¬ cmp_of key (a.getD ((h - 1) / 2) 0) value = true :=
          fun hcv => hc ⟨by omega, hcv⟩
        simpa [cmp_of] using this

/-- Pulling the smaller child up into the hole keeps the heap property. -/
theorem pull_child_is_heap (key : Int → ℚ) (a : List Int) (h sc : Nat)
    (hheap : ∀ i, 0 < i → i < a.length → key (a.getD ((i - 1) / 2) 0) ≤ key (a.getD i 0))
    (hsc : sc < a.length) (hpar : (sc - 1) / 2 = h) (hsc0 : 0 < sc)
    (hmin : ∀ i, 0 < i → i < a.length → (i - 1) / 2 = h →
      key (a.getD sc 0) ≤ key (a.getD i 0)) :
    ∀ i, 0 < i → i < (a.set h (a.getD sc 0)).length →
      key ((a.set h (a.getD sc 0)).getD ((i - 1) / 2) 0) ≤
        key ((a.set h (a.getD sc 0)).getD i 0) := by
  intro i hi0 hil
  rw [List.length_set] at hil
  have hh : h < a.length := by omega
  by_cases hih : i = h
  · subst hih
    have hp : i ≠ (i - 1) / 2 := by omega
    rw [getD_set_self a i _ hh, getD_set_ne a i _ _ hp]
    have h1 := hheap i hi0 hil
    have h2 := hheap sc hsc0 hsc
    rw [hpar] at h2
    exact le_trans h1 h2
  · rw [getD_set_ne a h i _ (Ne.symm hih)]
    by_cases hpi : (i - 1) / 2 = h
    · rw [hpi, getD_set_self a h _ hh]
      exact hmin i hi0 hil hpi
    · rw [getD_set_ne a h _ _ (Ne.symm hpi)]
      exact hheap i hi0 hil

/-- The first loop of `std::__adjust_heap` on a heap: it ends at a hole with
fewer than two children, keeps the heap property, and whatever is stored in the
final hole, the result rearranges the start vector with that value stored in
the start hole. -/
theorem std_adjust_descend_spec (key : Int → ℚ) (len : Nat) :
    ∀ (fuel : Nat) (a : List Int) (h : Nat), a.length = len → h < len → len ≤ fuel + h →
      (∀ i, 0 < i → i < a.length → key (a.getD ((i - 1) / 2) 0) ≤ key (a.getD i 0)) →
      (std_adjust_descend (cmp_of key) len fuel a h).1.length = len ∧
        (std_adjust_descend (cmp_of key) len fuel a h).2 < len ∧
        ¬ (std_adjust_descend (cmp_of key) len fuel a h).2 < (len - 1) / 2 ∧
        (∀ i, 0 < i → i < (std_adjust_descend (cmp_of key) len fuel a h).1.length →
          key ((std_adjust_descend (cmp_of key) len fuel a h).1.getD ((i - 1) / 2) 0) ≤
            key ((std_adjust_descend (cmp_of key) len fuel a h).1.getD i 0)) ∧
        ∀ x, (((std_adjust_descend (cmp_of key) len fuel a h).1).set
          (std_adjust_descend (cmp_of key) len fuel a h).2 x).Perm (a.set h x) := by
  intro fuel
  induction fuel with
  | zero =>
    intro a h _ hh hf _
    omega
  | succ fuel ih =>
    intro a h hlen hh hf hheap
    simp only [std_adjust_descend]
    by_cases hlt : h < (len - 1) / 2
    · rw [if_pos hlt]
      have hsel : ∃ sc, (if cmp_of key (a.getD (2 * (h + 1)) 0) (a.getD (2 * (h + 1) - 1) 0) = true
            then 2 * (h + 1) - 1 else 2 * (h + 1)) = sc ∧
          (sc = 2 * h + 1 ∨ sc = 2 * h + 2) ∧
          key (a.getD sc 0) ≤ key (a.getD (2 * h + 1) 0) ∧
          key (a.getD sc 0) ≤ key (a.getD (2 * h + 2) 0) := by
        by_cases hc : cmp_of key (a.getD (2 * (h + 1)) 0) (a.getD (2 * (h + 1) - 1) 0) = true
        · refine ⟨2 * h + 1, ?_, Or.inl rfl, le_refl _, ?_⟩
          · rw [if_pos hc]
            omega
          · simp only [cmp_of, decide_eq_true_eq, ge_iff_le] at hc
            have e1 : 2 * (h + 1) = 2 * h + 2 := by omega
            have e2 : 2 * (h + 1) - 1 = 2 * h + 1 := by omega
            rw [e2, e1] at hc
            exact hc
        · refine ⟨2 * h + 2, ?_, Or.inr rfl, ?_, le_refl _⟩
          · rw [if_neg hc]
            omega
          · simp only [cmp_of, decide_eq_true_eq, ge_iff_le, not_le] at hc
            have e1 : 2 * (h + 1) = 2 * h + 2 := by omega
            have e2 : 2 * (h + 1) - 1 = 2 * h + 1 := by omega
            rw [e2, e1] at hc
            exact hc.le
      obtain ⟨sc, hsc_eq, hsc_cases, hmin1, hmin2⟩ := hsel
      rw [hsc_eq]
      have hscl : sc < a.length := by omega
      have hpar : (sc - 1) / 2 = h := by omega
      have hsc0 : 0 < sc := by omega
      have hne : h ≠ sc := by omega
      have hmin : ∀ i, 0 < i → i < a.length → (i - 1) / 2 = h →
          key (a.getD sc 0) ≤ key (a.getD i 0) := by
        intro i hi0 hil hpi
        have : i = 2 * h + 1 ∨ i = 2 * h + 2 := by omega
        rcases this with rfl | rfl
        · exact hmin1
        · exact hmin2
      have hheap1 := pull_child_is_heap key a h sc hheap hscl hpar hsc0 hmin
      obtain ⟨r1, r2, r3, r4, r5⟩ := ih (a.set h (a.getD sc 0)) sc
        (by rw [List.length_set]; exact hlen) (by omega) (by omega) hheap1
      refine ⟨r1, r2, r3, r4, fun x => (r5 x).trans ?_⟩
      exact set_set_perm a x h sc hne (by omega) hscl
    · rw [if_neg hlt]
      exact ⟨hlen, hh, hlt, hheap, fun x => List.Perm.refl _⟩

/-- Correctness of `std::__adjust_heap` from the first slot of a heap: the result is a heap
and rearranges the vector with `value` stored in the first slot. -/
theorem std_adjust_heap_spec (key : Int → ℚ) (a : List Int) (value : Int)
    (hlen : 1 ≤ a.length)
    (hheap : ∀ i, 0 < i → i < a.length → key (a.getD ((i - 1) / 2) 0) ≤ key (a.getD i 0)) :
    std_is_heap (cmp_of key) (std_adjust_heap (cmp_of key) a 0 a.length value) ∧
      (std_adjust_heap (cmp_of key) a 0 a.length value).Perm (a.set 0 value) := by
  obtain ⟨r1, r2, r3, r4, r5⟩ :=
    std_adjust_descend_spec key a.length a.length a 0 rfl (by omega) (by omega) hheap
  unfold std_adjust_heap
  generalize std_adjust_descend (cmp_of key) a.length a.length a 0 = r at r1 r2 r3 r4 r5
  obtain ⟨b, h⟩ := r
  simp only at r1 r2 r3 r4 r5 ⊢
  by_cases hodd : a.length % 2 = 0 ∧ h = (a.length - 2) / 2
  · rw [if_pos hodd]
    have hchild : 2 * (h + 1) - 1 = a.length - 1 := by omega
    rw [hchild]
    have hcl : a.length - 1 < b.length := by omega
    have hne : h ≠ a.length - 1 := by omega
    have hheap1 := pull_child_is_heap key b h (a.length - 1) r4 hcl (by omega) (by omega) (by
      intro i hi0 hil hpi
      have : i = a.length - 1 := by omega
      rw [this])
    have hl1 : (b.set h (b.getD (a.length - 1) 0)).length = a.length := by
      rw [List.length_set]
      exact r1
    obtain ⟨hh, hp⟩ := std_push_heap_spec key value (a.length - 1)
      (b.set h (b.getD (a.length - 1) 0)) (a.length - 1) (le_refl _) (by omega)
      (fun i hi0 hil _ => hheap1 i hi0 hil)
      (by
        intro i hi0 hil hpi
        rw [hl1] at hil
        omega)
      (by
        intro _ i hi0 hil hpi
        rw [hl1] at hil
        omega)
    refine ⟨hh, hp.trans ((set_set_perm b value h (a.length - 1) hne (by omega) hcl).trans (r5 value))⟩
  · rw [if_neg hodd]
    obtain ⟨hh, hp⟩ := std_push_heap_spec key value h b h (le_refl _) (by omega)
      (fun i hi0 hil _ => r4 i hi0 hil)
      (by
        intro i hi0 hil hpi
        rw [r1] at hil
        omega)
      (by
        intro _ i hi0 hil hpi
        rw [r1] at hil
        omega)
    exact ⟨hh, hp.trans (r5 value)⟩

/-- In a heap no entry has a smaller key than the first. -/
theorem heap_first_le (key : Int → ℚ) (a : List Int)
    (hheap : ∀ i, 0 < i → i < a.length → key (a.getD ((i - 1) / 2) 0) ≤ key (a.getD i 0)) :
    ∀ i, i < a.length → key (a.getD 0 0) ≤ key (a.getD i 0) := by
  intro i
  induction i using Nat.strong_induction_on with
  | _ i ih =>
    intro hi
    by_cases h0 : i = 0
    · rw [h0]
    · exact le_trans (ih ((i - 1) / 2) (by omega) (by omega)) (hheap i (by omega) hi)

theorem getD_dropLast (a : List Int) (i : Nat) (h : i < a.length - 1) :
    a.dropLast.getD i 0 = a.getD i 0 := by
  rw [List.getD_eq_getElem?_getD, List.getD_eq_getElem?_getD, List.dropLast_eq_take,
    List.getElem?_take_of_lt h]

theorem std_push_spec (key : Int → ℚ) (q : List Int) (v : Int)
    (hq : std_is_heap (cmp_of key) q) :
    std_is_heap (cmp_of key) (std_push (cmp_of key) q v) ∧
      (std_push (cmp_of key) q v).Perm (v :: q) := by
  have hq1 := (std_is_heap_iff key q).1 hq
  have hget : ∀ i, i < q.length → (q ++ [v]).getD i 0 = q.getD i 0 := by
    intro i hi
    rw [List.getD_eq_getElem?_getD, List.getD_eq_getElem?_getD, List.getElem?_append_left hi]
  obtain ⟨hh, hp⟩ := std_push_heap_spec key v q.length (q ++ [v]) q.length (le_refl _)
    (by rw [List.length_append, List.length_singleton]; omega)
    (by
      intro i hi0 hil hne
      have hil1 : i < q.length := by
        rw [List.length_append, List.length_singleton] at hil
        omega
      rw [hget i hil1, hget _ (by omega)]
      exact hq1 i hi0 hil1)
    (by
      intro i hi0 hil hpi
      rw [List.length_append, List.length_singleton] at hil
      omega)
    (by
      intro _ i hi0 hil hpi
      rw [List.length_append, List.length_singleton] at hil
      omega)
  refine ⟨hh, hp.trans ?_⟩
  have : (q ++ [v]).set q.length v = q ++ [v] := by
    rw [List.set_append_right _ _ (le_refl _)]
    simp
  rw [this]
  exact List.perm_append_singleton v q

theorem std_top_spec (key : Int → ℚ) (q : List Int) (v : Int)
    (hq : std_is_heap (cmp_of key) q) (htop : q.head? = some v) :
    v ∈ q ∧ ∀ x ∈ q, key v ≤ key x := by
  have hq1 := (std_is_heap_iff key q).1 hq
  cases q with
  | nil => simp at htop
  | cons x xs =>
    simp only [List.head?_cons, Option.some.injEq] at htop
    subst htop
    refine ⟨List.mem_cons_self x xs, ?_⟩
    intro y hy
    obtain ⟨i, hi, hiy⟩ := List.getElem_of_mem hy
    have := heap_first_le key (x :: xs) hq1 i hi
    rw [List.getD_eq_getElem _ _ hi, hiy] at this
    exact this

theorem std_pop_spec (key : Int → ℚ) (q : List Int) (v : Int)
    (hq : std_is_heap (cmp_of key) q) (htop : q.head? = some v) :
    std_is_heap (cmp_of key) (std_pop (cmp_of key) q) ∧
      (std_pop (cmp_of key) q).Perm (q.erase v) := by
  have hq1 := (std_is_heap_iff key q).1 hq
  cases q with
  | nil => simp at htop
  | cons x xs =>
    simp only [List.head?_cons, Option.some.injEq] at htop
    subst htop
    rw [List.erase_cons_head]
    unfold std_pop
    by_cases hlen : (x :: xs).length > 1
    · rw [if_pos hlen]
      have hxs : xs ≠ [] := by
        intro h
        rw [h] at hlen
        simp at hlen
      have hdl : ((x :: xs).dropLast).length = (x :: xs).length - 1 := List.length_dropLast _
      have hheap : ∀ i, 0 < i → i < ((x :: xs).dropLast).length →
          key (((x :: xs).dropLast).getD ((i - 1) / 2) 0) ≤
            key (((x :: xs).dropLast).getD i 0) := by
        intro i hi0 hil
        rw [hdl] at hil
        rw [getD_dropLast _ i hil, getD_dropLast _ _ (by omega)]
        exact hq1 i hi0 (by omega)
      have hspec := std_adjust_heap_spec key ((x :: xs).dropLast)
        ((x :: xs).getD ((x :: xs).length - 1) 0) (by rw [hdl]; omega) hheap
      rw [hdl] at hspec
      refine ⟨hspec.1, hspec.2.trans ?_⟩
      have h1 : (x :: xs).dropLast = x :: xs.dropLast := by
        cases xs with
        | nil => exact absurd rfl hxs
        | cons y ys => rfl
      have h2 : (x :: xs).getD ((x :: xs).length - 1) 0 = xs.getLast hxs := by
        rw [List.getD_eq_getElem _ _ (by simp), List.getLast_eq_getElem]
        simp only [List.length_cons, Nat.add_sub_cancel]
        cases xs with
        | nil => exact absurd rfl hxs
        | cons y ys => simp
      rw [h1, h2, List.set_cons_zero]
      have h3 := List.dropLast_append_getLast hxs
      exact (List.perm_append_singleton _ _).symm.trans (by rw [h3])
    · rw [if_neg hlen]
      have hxs : xs = [] := by
        cases xs with
        | nil => rfl
        | cons y ys => simp at hlen
      subst hxs
      exact ⟨fun i _ hi => by simp at hi, List.Perm.refl _⟩

theorem std_queue_lawful : std_queue.Lawful where
  valid_empty := fun _ i _ hi => absurd hi (Nat.not_lt_zero i)
  toList_empty := rfl
  push_spec := fun key q v hq => std_push_spec key q v hq
  top_none := fun _ => List.head?_eq_none_iff
  top_spec := fun key q v hq htop => std_top_spec key q v hq htop
  pop_spec := fun key q v hq htop => std_pop_spec key q v hq htop

/-! ## From keys to Euclidean distances -/

theorem norm_toReal_sub (r poi : Vec3 ℚ) :
    norm ((toReal r).sub (toReal poi)) = Real.sqrt (((r.sub poi).squaredNorm : ℚ) : ℝ) := by
  unfold norm
  congr 1
  simp only [Vec3.squaredNorm, Vec3.sub, toReal]
  push_cast
  ring

theorem point_distance_eq_sqrt_key (P : List (Vec3 ℚ)) (t : Octree) (poi : Vec3 ℚ) (p : Int)
    (hp : p ∈ all_points P) :
    point_distance P poi p = Real.sqrt ((key_or_zero P t poi p : ℚ) : ℝ) := by
  obtain ⟨r, hr⟩ := (mem_all_points P p).1 hp
  rw [key_or_zero_of_ok P t poi p _ (distance_key_point P t poi p r hr)]
  simp only [point_distance, hr]
  exact norm_toReal_sub r poi

theorem point_distance_mono (P : List (Vec3 ℚ)) (t : Octree) (poi : Vec3 ℚ) (p q : Int)
    (hp : p ∈ all_points P) (hq : q ∈ all_points P)
    (h : key_or_zero P t poi p ≤ key_or_zero P t poi q) :
    point_distance P poi p ≤ point_distance P poi q := by
  rw [point_distance_eq_sqrt_key P t poi p hp, point_distance_eq_sqrt_key P t poi q hq]
  apply Real.sqrt_le_sqrt
  exact_mod_cast h

theorem brute_force_eq (P : List (Vec3 ℚ)) (poi : Vec3 ℚ) :
    (all_points P).map (point_distance P poi) = brute_force P poi := by
  apply List.ext_getElem
  · simp [all_points, brute_force]
  · intro j h1 h2
    have hj : j < P.length := by simpa [all_points] using h1
    have hrow : P_row P (Int.ofNat j) = .ok P[j] :=
      (P_row_ok_iff P _ _).2 ⟨Int.ofNat_nonneg j, by simp [List.getElem?_eq_getElem hj]⟩
    simp only [all_points, brute_force, List.getElem_map, List.getElem_range, point_distance,
      hrow]

theorem RowOK.mem_row {P : List (Vec3 ℚ)} {t : Octree} {k : Int} {poi : Vec3 ℚ}
    {row : List Int} (h : RowOK P t k poi row) : ∀ p ∈ row, p ∈ all_points P := by
  obtain ⟨_, rest, hperm, _, _⟩ := h
  intro p hp
  exact hperm.subset (List.mem_append_left rest hp)

/-- The distances of a row are non-decreasing. -/
theorem RowOK.sorted_real {P : List (Vec3 ℚ)} {t : Octree} {k : Int} {poi : Vec3 ℚ}
    {row : List Int} (h : RowOK P t k poi row) :
    (row.map (point_distance P poi)).Pairwise (fun a b => a ≤ b) := by
  have hmem := h.mem_row
  obtain ⟨_, rest, hperm, hsorted, _⟩ := h
  rw [List.pairwise_map]
  exact hsorted.imp_of_mem (fun {a b} ha hb hab =>
    point_distance_mono P t poi a b (hmem a ha) (hmem b hb) hab)

/-- The distances of a row are the first entries of the sorted brute-force list. -/
theorem RowOK.smallest {P : List (Vec3 ℚ)} {t : Octree} {k : Int} {poi : Vec3 ℚ}
    {row : List Int} (h : RowOK P t k poi row) :
    row.map (point_distance P poi) =
      ((brute_force P poi).insertionSort (fun a b => a ≤ b)).take row.length := by
  have hsr := h.sorted_real
  have hmem := h.mem_row
  obtain ⟨_, rest, hperm, _, hdom⟩ := h
  have hrest : ∀ p ∈ rest, p ∈ all_points P :=
    fun p hp => hperm.subset (List.mem_append_right row hp)
  have hsortedS := List.sorted_insertionSort (fun a b : ℝ => a ≤ b)
    (rest.map (point_distance P poi))
  have hpermS := List.perm_insertionSort (fun a b : ℝ => a ≤ b)
    (rest.map (point_distance P poi))
  have h1 : (row.map (point_distance P poi) ++
      (rest.map (point_distance P poi)).insertionSort (fun a b => a ≤ b)).Sorted
        (fun a b => a ≤ b) := by
    unfold List.Sorted
    rw [List.pairwise_append]
    refine ⟨hsr, hsortedS, ?_⟩
    intro a ha b hb
    obtain ⟨r, hr, rfl⟩ := List.mem_map.1 ha
    obtain ⟨p, hp, rfl⟩ := List.mem_map.1 (hpermS.subset hb)
    exact point_distance_mono P t poi r p (hmem r hr) (hrest p hp) (hdom r hr p hp)
  have h2 : (row.map (point_distance P poi) ++
      (rest.map (point_distance P poi)).insertionSort (fun a b => a ≤ b)).Perm
        ((brute_force P poi).insertionSort (fun a b => a ≤ b)) := by
    refine (List.Perm.append_left _ hpermS).trans ?_
    rw [← List.map_append, ← brute_force_eq]
    exact (hperm.map _).trans (List.perm_insertionSort _ _).symm
  have h3 := List.eq_of_perm_of_sorted h2 h1 (List.sorted_insertionSort _ _)
  rw [← h3]
  have hl : row.length = (row.map (point_distance P poi)).length := by simp
  rw [hl, List.take_left]

/-! ## The concrete inputs are well formed -/

theorem one_point_wf : WellFormed one_point one_point_octree := by
  refine ⟨[0], 2, ?_, List.Perm.refl _⟩
  refine Covers.leaf (P := one_point) (t := one_point_octree) 1 leaf_children [0] ⟨2, 3, 4⟩ 1
    (by decide) rfl rfl rfl rfl rfl (by norm_num) (by decide) ?_
  intro p hp
  rw [List.mem_singleton] at hp
  subst hp
  exact ⟨⟨2, 3, 4⟩, rfl, by norm_num [InCube, abs_le]⟩

theorem scene_leaf (v : Int) (pts : List Int) (ctr : Vec3 ℚ)
    (hv : (scene_points.length : Int) ≤ v)
    (hch : vector_at scene_octree.children (v - scene_points.length) = .ok leaf_children)
    (hpts : vector_at scene_octree.point_indices (v - scene_points.length) = .ok pts)
    (hctr : vector_at scene_octree.centers (v - scene_points.length) = .ok ctr)
    (hw : vector_at scene_octree.widths (v - scene_points.length) = .ok 1)
    (hone : pts.length ≤ 1)
    (hin : ∀ p ∈ pts, P_row scene_points p = .ok ctr) :
    Covers scene_points scene_octree v pts (1 + pts.length) := by
  refine Covers.leaf v leaf_children pts ctr 1 hv hch rfl hpts hctr hw (by norm_num) hone ?_
  intro p hp
  exact ⟨ctr, hin p hp, by norm_num [InCube, abs_le]⟩

theorem scene_wf : WellFormed scene_points scene_octree := by
  refine ⟨(List.ofFn ![[0], [1], [2], [3], [4], [], [], []]).flatten,
    1 + (List.ofFn ![2, 2, 2, 2, 2, 1, 1, 1]).sum, ?_, ?_⟩
  · refine Covers.node (P := scene_points) (t := scene_octree) 5 ![1, 2, 3, 4, 5, 6, 7, 8]
      ⟨5/2, 5/2, 5/2⟩ 5 ![[0], [1], [2], [3], [4], [], [], []] ![2, 2, 2, 2, 2, 1, 1, 1]
      (by decide) rfl (by decide) (by decide) rfl rfl (by norm_num) ?_ ?_
    · intro j
      fin_cases j
      · exact scene_leaf 6 [0] ⟨0, 0, 0⟩ (by decide) rfl rfl rfl rfl (by decide)
          (fun p hp => by rw [List.mem_singleton] at hp; subst hp; rfl)
      · exact scene_leaf 7 [1] ⟨1, 0, 0⟩ (by decide) rfl rfl rfl rfl (by decide)
          (fun p hp => by rw [List.mem_singleton] at hp; subst hp; rfl)
      · exact scene_leaf 8 [2] ⟨0, 1, 0⟩ (by decide) rfl rfl rfl rfl (by decide)
          (fun p hp => by rw [List.mem_singleton] at hp; subst hp; rfl)
      · exact scene_leaf 9 [3] ⟨0, 0, 1⟩ (by decide) rfl rfl rfl rfl (by decide)
          (fun p hp => by rw [List.mem_singleton] at hp; subst hp; rfl)
      · exact scene_leaf 10 [4] ⟨5, 5, 5⟩ (by decide) rfl rfl rfl rfl (by decide)
          (fun p hp => by rw [List.mem_singleton] at hp; subst hp; rfl)
      · exact scene_leaf 11 [] ⟨4, 4, 4⟩ (by decide) rfl rfl rfl rfl (by decide)
          (fun p hp => by cases hp)
      · exact scene_leaf 12 [] ⟨4, 4, 4⟩ (by decide) rfl rfl rfl rfl (by decide)
          (fun p hp => by cases hp)
      · exact scene_leaf 13 [] ⟨4, 4, 4⟩ (by decide) rfl rfl rfl rfl (by decide)
          (fun p hp => by cases hp)
    · intro p hp
      have hp1 : p ∈ [(0 : Int), 1, 2, 3, 4] := by simpa using hp
      simp only [List.mem_cons, List.mem_singleton, List.not_mem_nil, or_false] at hp1
      rcases hp1 with rfl | rfl | rfl | rfl | rfl
      · exact ⟨⟨0, 0, 0⟩, rfl, by norm_num [InCube, abs_le]⟩
      · exact ⟨⟨1, 0, 0⟩, rfl, by norm_num [InCube, abs_le]⟩
      · exact ⟨⟨0, 1, 0⟩, rfl, by norm_num [InCube, abs_le]⟩
      · exact ⟨⟨0, 0, 1⟩, rfl, by norm_num [InCube, abs_le]⟩
      · exact ⟨⟨5, 5, 5⟩, rfl, by norm_num [InCube, abs_le]⟩
  · exact List.Perm.refl _

/-! ## Facts about the loop that need no assumption on the octree -/

/-- A successful pass through the loop body makes one pop and appends at most
one entry to the row. -/
theorem loop_body_ok (pq : PriorityQueue) (P : List (Vec3 ℚ)) (t : Octree) (poi : Vec3 ℚ)
    (s s1 : LoopState pq) (h : loop_body pq P t poi s = .ok s1) :
    s1.pops = s.pops + 1 ∧ (s1.row = s.row ∨ ∃ v, s1.row = s.row ++ [v]) := by
  unfold loop_body at h
  split at h
  · cases h
  · simp only at h
    split at h
    · simp only [Except.ok.injEq] at h
      subst h
      exact ⟨rfl, Or.inr ⟨_, rfl⟩⟩
    · split at h
      · cases h
      · split at h
        · split at h
          · cases h
          · split at h
            · split at h
              · cases h
              · split at h
                · cases h
                · simp only [Except.ok.injEq] at h
                  subst h
                  exact ⟨rfl, Or.inl rfl⟩
            · simp only [Except.ok.injEq] at h
              subst h
              exact ⟨rfl, Or.inl rfl⟩
        · split at h
          · cases h
          · simp only [Except.ok.injEq] at h
            subst h
            exact ⟨rfl, Or.inl rfl⟩

/-- When the loop ends, `points_found` is exactly the loop bound. -/
theorem while_loop_row_length (pq : PriorityQueue) (P : List (Vec3 ℚ)) (t : Octree)
    (poi : Vec3 ℚ) (rk : Int) :
    ∀ (fuel : Nat) (s s1 : LoopState pq), while_loop pq P t poi rk fuel s = .ok s1 →
      (s.row.length : Int) ≤ rk → (s1.row.length : Int) = rk := by
  intro fuel
  induction fuel with
  | zero =>
    intro s s1 h hlen
    rw [while_loop_unfold] at h
    by_cases hlt : s.points_found < rk
    · rw [if_pos hlt] at h
      cases h
    · rw [if_neg hlt, Except.ok.injEq] at h
      subst h
      unfold LoopState.points_found at hlt
      omega
  | succ fuel ih =>
    intro s s1 h hlen
    rw [while_loop_unfold] at h
    by_cases hlt : s.points_found < rk
    · rw [if_pos hlt] at h
      cases hb : loop_body pq P t poi s with
      | error e => simp [hb] at h
      | ok s2 =>
        simp only [hb] at h
        apply ih s2 s1 h
        unfold LoopState.points_found at hlt
        rcases (loop_body_ok pq P t poi s s2 hb).2 with h2 | ⟨v, h2⟩
        · rw [h2]
          omega
        · rw [h2, List.length_append, List.length_singleton]
          push_cast
          omega
    · rw [if_neg hlt, Except.ok.injEq] at h
      subst h
      unfold LoopState.points_found at hlt
      omega

/-- More fuel does not change a result. -/
theorem while_loop_mono (pq : PriorityQueue) (P : List (Vec3 ℚ)) (t : Octree)
    (poi : Vec3 ℚ) (rk : Int) :
    ∀ (fuel : Nat) (s s1 : LoopState pq), while_loop pq P t poi rk fuel s = .ok s1 →
      ∀ d, while_loop pq P t poi rk (fuel + d) s = .ok s1 := by
  intro fuel
  induction fuel with
  | zero =>
    intro s s1 h d
    rw [while_loop_unfold] at h ⊢
    by_cases hlt : s.points_found < rk
    · rw [if_pos hlt] at h
      cases h
    · rw [if_neg hlt] at h ⊢
      exact h
  | succ fuel ih =>
    intro s s1 h d
    rw [Nat.add_right_comm]
    rw [while_loop_unfold] at h ⊢
    by_cases hlt : s.points_found < rk
    · rw [if_pos hlt] at h ⊢
      cases hb : loop_body pq P t poi s with
      | error e => simp [hb] at h
      | ok s2 =>
        simp only [hb] at h ⊢
        exact ih s2 s1 h d
    · rw [if_neg hlt] at h ⊢
      exact h

theorem query_mono (pq : PriorityQueue) (P : List (Vec3 ℚ)) (k : Int) (t : Octree)
    (fuel : Nat) (i : Nat) (s : LoopState pq) (h : query pq P k t fuel i = .ok s) (d : Nat) :
    query pq P k t (fuel + d) i = .ok s := by
  unfold query at h ⊢
  cases hr : P_row P i with
  | error e => simp [hr] at h
  | ok poi =>
    simp only [hr] at h ⊢
    exact while_loop_mono pq P t poi _ fuel _ s h d

/-! ## Claims on the distance primitives -/

/-- C10: for every centre `c`, width `w > 0` and point `p` inside or on the
boundary of the axis-aligned cube of width `w` centred at `c`,
`distance_to_cube p c w` is exactly `0`. -/
theorem distance_to_cube_inside (p c : Vec3 ℝ) (w : ℝ) (hw : 0 < w) (hp : InCube p c w) :
    distance_to_cube p c w = 0 := by
  obtain ⟨hx, hy, hz⟩ := hp
  rw [distance_to_cube_eq p c w hw]
  have h : ∀ d : ℝ, |d| ≤ w / 2 → max (|d| - w) 0 = 0 := by
    intro d hd
    apply max_eq_right
    linarith
  rw [h _ hx, h _ hy, h _ hz]
  simp

theorem distance_to_cube_inside_witness :
    (0 : ℝ) < 2 ∧ InCube (⟨1, -1, 0⟩ : Vec3 ℝ) ⟨0, 0, 0⟩ 2 ∧
      distance_to_cube ⟨1, -1, 0⟩ ⟨0, 0, 0⟩ 2 = 0 :=
  ⟨by norm_num, by norm_num [InCube, abs_le],
    distance_to_cube_inside ⟨1, -1, 0⟩ ⟨0, 0, 0⟩ 2 (by norm_num) (by norm_num [InCube, abs_le])⟩

theorem InCube.toReal {r c : Vec3 ℚ} {w : ℚ} (h : InCube r c w) :
    InCube (toReal r) (toReal c) (w : ℝ) := by
  obtain ⟨hx, hy, hz⟩ := h
  refine ⟨?_, ?_, ?_⟩
  · have : ((|r.x - c.x| : ℚ) : ℝ) ≤ ((w / 2 : ℚ) : ℝ) := by exact_mod_cast hx
    simpa [igl.toReal] using this
  · have : ((|r.y - c.y| : ℚ) : ℝ) ≤ ((w / 2 : ℚ) : ℝ) := by exact_mod_cast hy
    simpa [igl.toReal] using this
  · have : ((|r.z - c.z| : ℚ) : ℝ) ≤ ((w / 2 : ℚ) : ℝ) := by exact_mod_cast hz
    simpa [igl.toReal] using this

theorem RowOK.length_eq {P : List (Vec3 ℚ)} {t : Octree} {k : Int} {poi : Vec3 ℚ}
    {row : List Int} (h : RowOK P t k poi row) : row.length = (min k P.length).toNat := by
  have := h.1
  unfold real_k at this
  rw [min_comm] at this
  omega

theorem scenario_brute_force :
    brute_force scene_points ⟨0, 0, 0⟩ = [0, 1, 1, 1, Real.sqrt 75] := by
  simp only [brute_force, scene_points, List.map_cons, List.map_nil, norm, toReal, Vec3.sub,
    Vec3.squaredNorm]
  norm_num

/-- The scenario of the specification: for the five points, `k = 3` and any
well-formed octree over them, the row of query `0` has the distances `0, 1, 1`
and never holds index `4`. -/
theorem scenario_query_zero (pq : PriorityQueue) (hpq : pq.Lawful) (t : Octree)
    (hwf : WellFormed scene_points t) :
    ∃ N, ∀ fuel, N ≤ fuel → ∃ I row, knn_octree pq scene_points 3 t fuel = .ok I ∧
      I[0]? = some row ∧ row.map (point_distance scene_points ⟨0, 0, 0⟩) = [0, 1, 1] ∧
      (4 : Int) ∉ row := by
  obtain ⟨N, hN⟩ := knn_octree_spec pq hpq scene_points 3 t hwf (by decide)
  refine ⟨N, fun fuel hfuel => ?_⟩
  obtain ⟨I, hI, hlen, hrows⟩ := hN fuel hfuel
  have h0 : 0 < I.length := by
    rw [hlen]
    decide
  obtain ⟨hok, _⟩ := hrows 0 ⟨0, 0, 0⟩ I[0] rfl (List.getElem?_eq_getElem h0)
  have h75 : (1 : ℝ) ≤ Real.sqrt 75 := Real.le_sqrt_of_sq_le (by norm_num)
  have hsorted : ([0, 1, 1, 1, Real.sqrt 75] : List ℝ).Sorted (fun a b => a ≤ b) := by
    simp only [List.Sorted, List.pairwise_cons, List.mem_cons, List.mem_singleton,
      List.not_mem_nil, forall_eq_or_imp, forall_eq, IsEmpty.forall_iff, implies_true,
      List.Pairwise.nil, and_true, le_refl, true_and]
    refine ⟨⟨zero_le_one, zero_le_one, zero_le_one, ?_⟩, h75, h75, h75⟩
    linarith
  have hdist : I[0].map (point_distance scene_points ⟨0, 0, 0⟩) = [0, 1, 1] := by
    have hl : I[0].length = 3 := hok.length_eq
    rw [hok.smallest, scenario_brute_force, hsorted.insertionSort_eq, hl]
    rfl
  refine ⟨I, I[0], hI, List.getElem?_eq_getElem h0, hdist, ?_⟩
  intro h4
  have hmem : point_distance scene_points ⟨0, 0, 0⟩ 4 ∈
      I[0].map (point_distance scene_points ⟨0, 0, 0⟩) := List.mem_map_of_mem _ h4
  have h4d : point_distance scene_points ⟨0, 0, 0⟩ 4 = Real.sqrt 75 := by
    have hrow : P_row scene_points 4 = .ok ⟨5, 5, 5⟩ := rfl
    simp only [point_distance, hrow, norm, toReal, Vec3.sub, Vec3.squaredNorm]
    norm_num
  rw [hdist, h4d] at hmem
  have hgt : (1 : ℝ) < Real.sqrt 75 := Real.lt_sqrt_of_sq_lt (by norm_num)
  simp only [List.mem_cons, List.mem_singleton, List.not_mem_nil, or_false] at hmem
  rcases hmem with h | h | h <;> linarith

/-- The table computed for the scenario with `k = 3` by the heap of the
standard library. -/
theorem scene_table :
    (knn_octree std_queue scene_points 3 scene_octree 20).toOption =
      some [[0, 1, 2], [1, 0, 2], [2, 0, 3], [3, 0, 2], [4, 3, 1]] := by
  decide!

/-- C4: over a well-formed octree, for every `k ≥ 0` and every query row `i`, no
point index appears twice in row `i` of `I`. -/
theorem knn_rows_nodup (pq : PriorityQueue) (hpq : pq.Lawful) (P : List (Vec3 ℚ))
    (k : Int) (t : Octree) (hwf : WellFormed P t) (hk : 0 ≤ k) :
    ∃ N, ∀ fuel, N ≤ fuel → ∃ I, knn_octree pq P k t fuel = .ok I ∧ I.length = P.length ∧
      ∀ (i : Nat) (row : List Int), i < P.length → I[i]? = some row → row.Nodup := by
  obtain ⟨N, hN⟩ := knn_octree_spec pq hpq P k t hwf hk
  refine ⟨N, fun fuel hfuel => ?_⟩
  obtain ⟨I, hI, hlen, hrows⟩ := hN fuel hfuel
  refine ⟨I, hI, hlen, fun i row hi hrow => ?_⟩
  obtain ⟨⟨_, rest, hperm, _, _⟩, _⟩ := hrows i P[i] row (List.getElem?_eq_getElem hi) hrow
  have := (hperm.nodup_iff).2 (all_points_nodup P)
  exact (List.nodup_append.1 this).1

theorem knn_rows_nodup_witness :
    WellFormed scene_points scene_octree ∧ (0 : Int) ≤ 5 ∧
      ∃ N, ∀ fuel, N ≤ fuel → ∃ I, knn_octree std_queue scene_points 5 scene_octree fuel = .ok I ∧
        I.length = scene_points.length ∧
        ∀ (i : Nat) (row : List Int), i < scene_points.length → I[i]? = some row → row.Nodup :=
  ⟨scene_wf, by decide,
    knn_rows_nodup std_queue std_queue_lawful scene_points 5 scene_octree scene_wf (by decide)⟩

theorem query_row_length (pq : PriorityQueue) (P : List (Vec3 ℚ)) (k : Int) (t : Octree)
    (fuel i : Nat) (s : LoopState pq) (hk : 0 ≤ k) (h : query pq P k t fuel i = .ok s) :
    (s.row.length : Int) = min k P.length := by
  unfold query at h
  cases hr : P_row P i with
  | error e => simp [hr] at h
  | ok poi =>
    simp only [hr] at h
    have := while_loop_row_length pq P t poi _ fuel _ s h (by
      simp only [initial_state, List.length_nil, real_k]
      exact le_min (Int.ofNat_nonneg _) hk)
    rw [this, real_k, min_comm]

theorem for_rows_replicate (body : Nat → Except Fault (List Int)) (l : List Nat)
    (h : ∀ i ∈ l, body i = .ok []) : for_rows body l = .ok (List.replicate l.length []) := by
  induction l with
  | nil => rfl
  | cons i is ih =>
    simp only [for_rows, h i (List.mem_cons_self i is),
      ih (fun j hj => h j (List.mem_cons_of_mem i hj)), List.length_cons, List.replicate_succ]

/-- C5: for every point count `n ≥ 0` and requested `k ≥ 0`, the table `I` is
sized to `n` rows and `min(k, n)` columns, every row of a returned table has
length `min(k, n)`, and for `k = 0` the call returns `n` empty rows, each query
having made no pop. -/
theorem result_table_shape (pq : PriorityQueue) (P : List (Vec3 ℚ)) (k : Int) (t : Octree)
    (fuel : Nat) (hk : 0 ≤ k) :
    resize_shape P k = ((P.length : Int), min k P.length) ∧
      (∀ I, knn_octree pq P k t fuel = .ok I →
        I.length = P.length ∧ ∀ row ∈ I, (row.length : Int) = min k P.length) ∧
      (k = 0 → knn_octree pq P k t fuel = .ok (List.replicate P.length []) ∧
        ∀ i, i < P.length → ∃ s, query pq P k t fuel i = .ok s ∧ s.row = [] ∧ s.pops = 0) := by
  have hnn : ¬ (resize_shape P k).2 < 0 := by
    simp only [resize_shape, real_k, not_lt]
    exact le_min (Int.ofNat_nonneg _) hk
  refine ⟨by simp only [resize_shape, real_k, min_comm], ?_, ?_⟩
  · intro I hI
    simp only [knn_octree, hnn, if_false] at hI
    obtain ⟨hlen, hget⟩ := for_rows_get _ _ I hI
    rw [List.length_range] at hlen
    refine ⟨hlen, fun row hrow => ?_⟩
    obtain ⟨j, hj, hjr⟩ := List.getElem_of_mem hrow
    have hb := hget j j row (by simp [List.getElem?_range (hlen ▸ hj)])
      (by rw [List.getElem?_eq_getElem hj, hjr])
    unfold knn_row at hb
    cases hq : query pq P k t fuel j with
    | error e => simp [hq] at hb
    | ok s =>
      simp only [hq, Except.ok.injEq] at hb
      rw [← hb]
      exact query_row_length pq P k t fuel j s hk hq
  · intro h0
    subst h0
    have hq : ∀ i, i < P.length →
        ∃ s, query pq P 0 t fuel i = .ok s ∧ s.row = [] ∧ s.pops = 0 := by
      intro i hi
      have hrow : P_row P i = .ok P[i] :=
        (P_row_ok_iff P _ _).2 ⟨Int.ofNat_nonneg i, by simp [List.getElem?_eq_getElem hi]⟩
      have hrk : ¬ (initial_state pq P t P[i]).points_found < real_k (P.length : Int) 0 := by
        simp only [LoopState.points_found, initial_state, List.length_nil, real_k, not_lt]
        exact min_le_right _ _
      refine ⟨initial_state pq P t P[i], ?_, rfl, rfl⟩
      simp only [query, hrow]
      rw [while_loop_unfold, if_neg hrk]
    refine ⟨?_, hq⟩
    simp only [knn_octree, hnn, if_false]
    have := for_rows_replicate (knn_row pq P 0 t fuel) (List.range P.length) (by
      intro i hi
      rw [List.mem_range] at hi
      obtain ⟨s, hs, hrow, _⟩ := hq i hi
      simp only [knn_row, hs, hrow])
    rw [List.length_range] at this
    exact this

theorem result_table_shape_witness :
    (0 : Int) ≤ 3 ∧
      resize_shape scene_points 3 = ((scene_points.length : Int), min (3 : Int) scene_points.length) ∧
      (∀ I, knn_octree std_queue scene_points 3 scene_octree 20 = .ok I →
        I.length = scene_points.length ∧
          ∀ row ∈ I, (row.length : Int) = min (3 : Int) scene_points.length) ∧
      ((3 : Int) = 0 →
        knn_octree std_queue scene_points 3 scene_octree 20 =
            .ok (List.replicate scene_points.length []) ∧
          ∀ i, i < scene_points.length →
            ∃ s, query std_queue scene_points 3 scene_octree 20 i = .ok s ∧ s.row = [] ∧
              s.pops = 0) :=
  ⟨by decide, result_table_shape std_queue scene_points 3 scene_octree 20 (by decide)⟩

/-- C6 fails as stated: for `n = 5` and `k = -1` the effective `k` is `-1`, not
the clamped value `0`, and the call yields no table. -/
theorem negative_k_not_clamped :
    real_k (scene_points.length : Int) (-1) = -1 ∧
      max (0 : Int) (min (-1) (scene_points.length : Int)) = 0 ∧
      (resize_shape scene_points (-1)).2 = -1 ∧
      knn_octree std_queue scene_points (-1) scene_octree 20 = .error Fault.bad_resize := by
  refine ⟨by decide, by decide, by decide, rfl⟩

/-- C6 as amended: for every requested `k ≥ 0` and every `n ≥ 0`, the effective
`k` that sizes the table and bounds the loop is `min(k, n)`, which is `k` clamped
to `[0, n]`; with `n = 0` the result table is empty. -/
theorem effective_k_nonneg (pq : PriorityQueue) (P : List (Vec3 ℚ)) (k : Int) (t : Octree)
    (fuel : Nat) (hk : 0 ≤ k) :
    real_k (P.length : Int) k = max 0 (min k (P.length : Int)) ∧
      (resize_shape P k).2 = real_k (P.length : Int) k ∧
      (P = [] → knn_octree pq P k t fuel = .ok []) := by
  refine ⟨?_, rfl, ?_⟩
  · unfold real_k
    rw [min_comm, max_eq_right (le_min hk (Int.ofNat_nonneg _))]
  · intro hP
    subst hP
    have hnn : ¬ (resize_shape [] k).2 < 0 := by
      simp only [resize_shape, real_k, not_lt]
      exact le_min (le_refl _) hk
    simp only [knn_octree, hnn, if_false]
    rfl

theorem effective_k_nonneg_witness :
    (0 : Int) ≤ 7 ∧
      real_k (scene_points.length : Int) 7 = max 0 (min 7 (scene_points.length : Int)) ∧
      (resize_shape scene_points 7).2 = real_k (scene_points.length : Int) 7 ∧
      (scene_points = [] → knn_octree std_queue scene_points 7 scene_octree 20 = .ok []) :=
  ⟨by decide, effective_k_nonneg std_queue scene_points 7 scene_octree 20 (by decide)⟩

/-- C8: over a well-formed octree, for every `k ≥ 0`, the traversal loop of each
query ends after finitely many pops (at most `N`), in the state in which
exactly `min(k, n)` points have been accepted; the row is returned and the rest
of the frontier is dropped. -/
theorem traversal_terminates (pq : PriorityQueue) (hpq : pq.Lawful) (P : List (Vec3 ℚ))
    (k : Int) (t : Octree) (hwf : WellFormed P t) (hk : 0 ≤ k) :
    ∃ N, ∀ (i : Nat) (poi : Vec3 ℚ), P[i]? = some poi →
      ∃ s : LoopState pq, s.points_found = min k P.length ∧ s.pops ≤ N ∧
        ∀ fuel, N ≤ fuel →
          query pq P k t fuel i = .ok s ∧ knn_row pq P k t fuel i = .ok s.row := by
  obtain ⟨N, hN⟩ := knn_octree_spec pq hpq P k t hwf hk
  refine ⟨N, fun i poi hi => ?_⟩
  obtain ⟨I, hI, hlen, hrows⟩ := hN N (le_refl N)
  have hil : i < P.length := (List.getElem?_eq_some.1 hi).1
  have hiI : i < I.length := by omega
  obtain ⟨hok, s, hs, hrow, hpops⟩ := hrows i poi I[i] hi (List.getElem?_eq_getElem hiI)
  refine ⟨s, ?_, hpops, fun fuel hfuel => ?_⟩
  · exact query_row_length pq P k t N i s hk hs
  · obtain ⟨d, rfl⟩ := Nat.exists_eq_add_of_le hfuel
    have := query_mono pq P k t N i s hs d
    exact ⟨this, by simp only [knn_row, this]⟩

theorem traversal_terminates_witness :
    WellFormed scene_points scene_octree ∧ (0 : Int) ≤ 9 ∧
      ∃ N, ∀ (i : Nat) (poi : Vec3 ℚ), scene_points[i]? = some poi →
        ∃ s : LoopState std_queue, s.points_found = min (9 : Int) scene_points.length ∧
          s.pops ≤ N ∧
          ∀ fuel, N ≤ fuel →
            query std_queue scene_points 9 scene_octree fuel i = .ok s ∧
              knn_row std_queue scene_points 9 scene_octree fuel i = .ok s.row :=
  ⟨scene_wf, by decide,
    traversal_terminates std_queue std_queue_lawful scene_points 9 scene_octree scene_wf
      (by decide)⟩

/-- C9: for a single-point dataset with a well-formed octree and every `k ≥ 1`,
the result table is `1 × 1` and its only row holds exactly index `0`. -/
theorem single_point_table (pq : PriorityQueue) (hpq : pq.Lawful) (P : List (Vec3 ℚ))
    (k : Int) (t : Octree) (hwf : WellFormed P t) (hn : P.length = 1) (hk : 1 ≤ k) :
    ∃ N, ∀ fuel, N ≤ fuel → knn_octree pq P k t fuel = .ok [[0]] := by
  obtain ⟨N, hN⟩ := knn_octree_spec pq hpq P k t hwf (by omega)
  refine ⟨N, fun fuel hfuel => ?_⟩
  obtain ⟨I, hI, hlen, hrows⟩ := hN fuel hfuel
  have hmin : (min k (P.length : Int)).toNat = 1 := by
    rw [hn]
    omega
  have h1 : I.length = 1 := hlen.trans hn
  have hrow0 : I[0]? = some I[0] := List.getElem?_eq_getElem (by omega)
  have hP0 : P[0]? = some P[0] := List.getElem?_eq_getElem (by omega)
  obtain ⟨hok, _⟩ := hrows 0 P[0] I[0] hP0 hrow0
  have hrl := hok.length_eq.trans hmin
  have hall : all_points P = [0] := by
    unfold all_points
    rw [hn]
    rfl
  have hx : ∀ x ∈ I[0], x = 0 := by
    intro x hx
    have := hok.mem_row x hx
    rw [hall, List.mem_singleton] at this
    exact this
  have hrow : I[0] = [0] := by
    match hr : I[0], hrl, hx with
    | [x], _, hx => rw [hx x (List.mem_singleton_self x)]
    | [], hrl, _ => simp at hrl
    | _ :: _ :: _, hrl, _ => simp at hrl
  obtain ⟨a, ha⟩ := List.length_eq_one.1 h1
  subst ha
  simp only [List.getElem_cons_zero] at hrow
  rw [hI, hrow]

theorem single_point_table_witness :
    WellFormed one_point one_point_octree ∧ one_point.length = 1 ∧ (1 : Int) ≤ 6 ∧
      ∃ N, ∀ fuel, N ≤ fuel → knn_octree std_queue one_point 6 one_point_octree fuel = .ok [[0]] :=
  ⟨one_point_wf, rfl, by decide,
    single_point_table std_queue std_queue_lawful one_point 6 one_point_octree one_point_wf
      rfl (by decide)⟩

/-! ## The cube that `distance_to_cube` measures -/

/-- One axis: the location of `[c - w, c + w]` nearest to `p` is at distance
`max (|p - c| - w) 0` from `p`. -/
theorem axis_clamp (p c w : ℝ) (hw : 0 < w) :
    |max (c - w) (min p (c + w)) - c| ≤ w ∧
      (max (c - w) (min p (c + w)) - p) * (max (c - w) (min p (c + w)) - p) =
        (max (|p - c| - w) 0) ^ 2 := by
  rcases le_total p (c - w) with h1 | h1
  · have e1 : min p (c + w) = p := min_eq_left (by linarith)
    have e2 : max (c - w) p = c - w := max_eq_left h1
    have e3 : |p - c| = c - p := by
      rw [abs_of_nonpos (by linarith)]
      ring
    have e4 : max (|p - c| - w) 0 = c - p - w := by
      rw [e3]
      exact max_eq_left (by linarith)
    rw [e1, e2, e4]
    refine ⟨?_, by ring⟩
    rw [abs_le]
    constructor <;> linarith
  · rcases le_total p (c + w) with h2 | h2
    · have e1 : min p (c + w) = p := min_eq_left h2
      have e2 : max (c - w) p = p := max_eq_right h1
      have e4 : max (|p - c| - w) 0 = 0 := by
        apply max_eq_right
        have : |p - c| ≤ w := by
          rw [abs_le]
          constructor <;> linarith
        linarith
      rw [e1, e2, e4]
      refine ⟨?_, by ring⟩
      rw [abs_le]
      constructor <;> linarith
    · have e1 : min p (c + w) = c + w := min_eq_right h2
      have e2 : max (c - w) (c + w) = c + w := max_eq_right (by linarith)
      have e3 : |p - c| = p - c := abs_of_nonneg (by linarith)
      have e4 : max (|p - c| - w) 0 = p - c - w := by
        rw [e3]
        exact max_eq_left (by linarith)
      rw [e1, e2, e4]
      refine ⟨?_, by ring⟩
      rw [abs_le]
      constructor <;> linarith

/-- One axis: a location within `w` of the centre is at least the excess over
`w` away from `p`. -/
theorem axis_lower_bound_wide (p q c w : ℝ) (hq : |q - c| ≤ w) :
    (max (|p - c| - w) 0) ^ 2 ≤ (q - p) * (q - p) := by
  have h1 : |p - c| ≤ |q - p| + |q - c| := by
    have := abs_sub_le p q c
    rwa [abs_sub_comm p q] at this
  have h2 : max (|p - c| - w) 0 ≤ |q - p| := by
    apply max_le
    · linarith
    · exact abs_nonneg _
  have h3 : 0 ≤ max (|p - c| - w) 0 := le_max_right _ _
  calc (max (|p - c| - w) 0) ^ 2 ≤ |q - p| ^ 2 := pow_le_pow_left₀ h3 h2 2
    _ = (q - p) * (q - p) := by rw [sq_abs]; ring

/-- C14 at the failing input: the claim says that `distance_to_cube p c w` is the
exact distance from `p` to the cube of full side `w` centred at `c`, positive
outside it.  The point `(3/4, 0, 0)` lies strictly outside the cube of full side
`1` centred at the origin, at distance `1/4` from it, yet `distance_to_cube`
returns `0`. -/
theorem distance_to_cube_not_exact :
    ¬ InCube (⟨3/4, 0, 0⟩ : Vec3 ℝ) ⟨0, 0, 0⟩ 1 ∧
      distance_to_cube ⟨3/4, 0, 0⟩ ⟨0, 0, 0⟩ 1 = 0 ∧
      InCube (⟨1/2, 0, 0⟩ : Vec3 ℝ) ⟨0, 0, 0⟩ 1 ∧
      norm ((⟨1/2, 0, 0⟩ : Vec3 ℝ).sub ⟨3/4, 0, 0⟩) = 1/4 ∧
      ∀ q : Vec3 ℝ, InCube q ⟨0, 0, 0⟩ 1 → 1/4 ≤ norm (q.sub ⟨3/4, 0, 0⟩) := by
  refine ⟨?_, ?_, ?_, ?_, ?_⟩
  · intro h
    have := h.1
    norm_num [abs_le] at this
  · rw [distance_to_cube_eq _ _ _ one_pos]
    have e1 : max (|(3/4 : ℝ) - 0| - 1) 0 = 0 := by
      apply max_eq_right
      norm_num [abs_le]
    have e2 : max (|(0 : ℝ) - 0| - 1) 0 = 0 := by
      apply max_eq_right
      norm_num
    simp only [e1, e2]
    norm_num
  · norm_num [InCube, abs_le]
  · have : ((1/2 : ℝ) - 3/4) * (1/2 - 3/4) + (0 - 0) * (0 - 0) + (0 - 0) * (0 - 0)
        = (1/4) ^ 2 := by norm_num
    simp only [norm, Vec3.sub, Vec3.squaredNorm]
    rw [this, Real.sqrt_sq (by norm_num)]
  · intro q hq
    apply Real.le_sqrt_of_sq_le
    have hx := hq.1
    rw [abs_le] at hx
    simp only [Vec3.sub, Vec3.squaredNorm]
    nlinarith [mul_self_nonneg (q.y - 0), mul_self_nonneg (q.z - 0), hx.1, hx.2]

/-- What the source computes: for every point `p`, centre `c` and width `w > 0`,
`distance_to_cube p c w` is the exact Euclidean distance from `p` to the nearest
location of the axis-aligned cube centred at `c` with half side `w` (full side
`2 w`): it is attained in that cube, no location of that cube is nearer, and it
is positive for every point strictly outside that cube. -/
theorem distance_to_cube_exact_for_half_width (p c : Vec3 ℝ) (w : ℝ) (hw : 0 < w) :
    (∃ q, InCube q c (2 * w) ∧ norm (q.sub p) = distance_to_cube p c w) ∧
      (∀ q, InCube q c (2 * w) → distance_to_cube p c w ≤ norm (q.sub p)) ∧
      (¬ InCube p c (2 * w) → 0 < distance_to_cube p c w) := by
  have hhalf : 2 * w / 2 = w := by ring
  refine ⟨?_, ?_, ?_⟩
  · obtain ⟨hx1, hx2⟩ := axis_clamp p.x c.x w hw
    obtain ⟨hy1, hy2⟩ := axis_clamp p.y c.y w hw
    obtain ⟨hz1, hz2⟩ := axis_clamp p.z c.z w hw
    refine ⟨⟨max (c.x - w) (min p.x (c.x + w)), max (c.y - w) (min p.y (c.y + w)),
      max (c.z - w) (min p.z (c.z + w))⟩, ?_, ?_⟩
    · simp only [InCube, hhalf]
      exact ⟨hx1, hy1, hz1⟩
    · rw [distance_to_cube_eq p c w hw]
      simp only [norm, Vec3.sub, Vec3.squaredNorm]
      rw [hx2, hy2, hz2]
  · intro q hq
    simp only [InCube, hhalf] at hq
    obtain ⟨hx, hy, hz⟩ := hq
    rw [distance_to_cube_eq p c w hw]
    apply Real.sqrt_le_sqrt
    have := axis_lower_bound_wide p.x q.x c.x w hx
    have := axis_lower_bound_wide p.y q.y c.y w hy
    have := axis_lower_bound_wide p.z q.z c.z w hz
    simp only [Vec3.squaredNorm, Vec3.sub]
    linarith
  · intro hout
    rw [distance_to_cube_eq p c w hw]
    apply Real.sqrt_pos.2
    have hnn : ∀ d : ℝ, 0 ≤ (max (|d| - w) 0) ^ 2 := fun d => sq_nonneg _
    have hpos : ∀ d : ℝ, ¬ |d| ≤ w → 0 < (max (|d| - w) 0) ^ 2 := by
      intro d hd
      apply pow_pos
      exact lt_of_lt_of_le (by linarith [not_le.1 hd]) (le_max_left _ _)
    simp only [InCube, hhalf, not_and_or] at hout
    rcases hout with h | h | h
    · linarith [hpos _ h, hnn (p.y - c.y), hnn (p.z - c.z)]
    · linarith [hpos _ h, hnn (p.x - c.x), hnn (p.z - c.z)]
    · linarith [hpos _ h, hnn (p.x - c.x), hnn (p.y - c.y)]

theorem distance_to_cube_exact_for_half_width_witness :
    (0 : ℝ) < 1 ∧
      (∃ q, InCube q (⟨0, 0, 0⟩ : Vec3 ℝ) (2 * 1) ∧
        norm (q.sub ⟨3, 0, 0⟩) = distance_to_cube ⟨3, 0, 0⟩ ⟨0, 0, 0⟩ 1) ∧
      (∀ q, InCube q (⟨0, 0, 0⟩ : Vec3 ℝ) (2 * 1) →
        distance_to_cube ⟨3, 0, 0⟩ ⟨0, 0, 0⟩ 1 ≤ norm (q.sub ⟨3, 0, 0⟩)) ∧
      (¬ InCube (⟨3, 0, 0⟩ : Vec3 ℝ) ⟨0, 0, 0⟩ (2 * 1) →
        0 < distance_to_cube ⟨3, 0, 0⟩ ⟨0, 0, 0⟩ 1) :=
  ⟨one_pos, distance_to_cube_exact_for_half_width ⟨3, 0, 0⟩ ⟨0, 0, 0⟩ 1 one_pos⟩

/-! ## Ties inside a row -/

theorem vector_at_ok {α : Type} (v : List α) (i : Int) (h0 : 0 ≤ i) (h1 : i < v.length) :
    ∃ x, vector_at v i = .ok x := by
  have hlt : i.toNat < v.length := by omega
  refine ⟨v[i.toNat], ?_⟩
  simp only [vector_at, h0, if_true, List.getElem?_eq_getElem hlt]

theorem P_row_ok (P : List (Vec3 ℚ)) (j : Int) (h0 : 0 ≤ j) (h1 : j < P.length) :
    ∃ r, P_row P j = .ok r := by
  have hlt : j.toNat < P.length := by omega
  exact ⟨P[j.toNat], (P_row_ok_iff P j _).2 ⟨h0, List.getElem?_eq_getElem hlt⟩⟩

/-- A unified candidate index in `[0, n + m)` has a distance when the centres and
widths arrays have `m` entries. -/
theorem distance_key_in_range (P : List (Vec3 ℚ)) (t : Octree) (poi : Vec3 ℚ) (m : Nat)
    (hcen : t.centers.length = m) (hwid : t.widths.length = m) (v : Int)
    (h0 : 0 ≤ v) (h1 : v < (P.length : Int) + m) :
    ∃ d, distance_key P t poi v = .ok d := by
  by_cases hv : v < (P.length : Int)
  · obtain ⟨r, hr⟩ := P_row_ok P v h0 hv
    exact ⟨_, distance_key_point P t poi v r hr⟩
  · obtain ⟨c, hc⟩ := vector_at_ok t.centers (v - P.length) (by omega) (by omega)
    obtain ⟨w, hw⟩ := vector_at_ok t.widths (v - P.length) (by omega) (by omega)
    exact ⟨_, distance_key_cell P t poi v c w (by omega) hc hw⟩

theorem checked_push_ok_eq (pq : PriorityQueue) (P : List (Vec3 ℚ)) (t : Octree) (poi : Vec3 ℚ)
    (q q1 : pq.Q) (v : Int) (h : checked_push pq P t poi q v = .ok q1) :
    q1 = pq.push (cmp_total P t poi) q v := by
  unfold checked_push at h
  split at h
  · simp only [Except.ok.injEq] at h
    exact h.symm
  · split at h
    · cases h
    · simp only [Except.ok.injEq] at h
      exact h.symm

theorem checked_push_perm (pq : PriorityQueue) (hpq : pq.Lawful) (P : List (Vec3 ℚ))
    (t : Octree) (poi : Vec3 ℚ) (q q1 : pq.Q) (v : Int)
    (hq : pq.valid (cmp_total P t poi) q) (h : checked_push pq P t poi q v = .ok q1) :
    pq.valid (cmp_total P t poi) q1 ∧ (pq.toList q1).Perm (v :: pq.toList q) := by
  rw [checked_push_ok_eq pq P t poi q q1 v h]
  exact hpq.push_spec (key_or_zero P t poi) q v hq

theorem checked_push_all_perm (pq : PriorityQueue) (hpq : pq.Lawful) (P : List (Vec3 ℚ))
    (t : Octree) (poi : Vec3 ℚ) (vs : List Int) :
    ∀ (q q1 : pq.Q), pq.valid (cmp_total P t poi) q →
      checked_push_all pq P t poi q vs = .ok q1 →
      pq.valid (cmp_total P t poi) q1 ∧ (pq.toList q1).Perm (vs ++ pq.toList q) := by
  induction vs with
  | nil =>
    intro q q1 hq h
    simp only [checked_push_all, Except.ok.injEq] at h
    subst h
    exact ⟨hq, List.Perm.refl _⟩
  | cons v vs ih =>
    intro q q1 hq h
    simp only [checked_push_all] at h
    cases hp : checked_push pq P t poi q v with
    | error e => simp [hp] at h
    | ok q2 =>
      simp only [hp] at h
      obtain ⟨hv2, hp2⟩ := checked_push_perm pq hpq P t poi q q2 v hq hp
      obtain ⟨hv1, hp1⟩ := ih q2 q1 hv2 h
      refine ⟨hv1, hp1.trans ?_⟩
      exact (List.Perm.append_left vs hp2).trans List.perm_middle

/-- C15: one step of the traversal on the popped entry `v` (the entry returned by
`top`, removed by `pop`).  If `v < n` the step appends `v` to the row at column
`points_found`, increments `points_found` and pushes nothing.  If `v ≥ n` the
row and `points_found` are unchanged; when cell `v - n` is a leaf (first child
slot `-1`) the step pushes exactly the first listed point index of the leaf if
there is one and nothing otherwise; when it is not a leaf the step pushes
exactly the eight values `children[v-n][j] + n`. -/
theorem loop_body_step (pq : PriorityQueue) (hpq : pq.Lawful) (P : List (Vec3 ℚ))
    (t : Octree) (poi : Vec3 ℚ) (s s1 : LoopState pq) (v : Int)
    (hvalid : pq.valid (cmp_total P t poi) s.queue) (htop : pq.top s.queue = some v)
    (h : loop_body pq P t poi s = .ok s1) :
    (v < (P.length : Int) →
        s1.row = s.row ++ [v] ∧ s1.row[s.row.length]? = some v ∧
        s1.points_found = s.points_found + 1 ∧
        (pq.toList s1.queue).Perm ((pq.toList s.queue).erase v)) ∧
      ((P.length : Int) ≤ v →
        s1.row = s.row ∧ s1.points_found = s.points_found ∧
        ∃ ch, vector_at t.children (v - P.length) = .ok ch ∧
          (ch 0 = -1 → ∃ pts, vector_at t.point_indices (v - P.length) = .ok pts ∧
            (pq.toList s1.queue).Perm (pts.head?.toList ++ (pq.toList s.queue).erase v)) ∧
          (ch 0 ≠ -1 →
            (pq.toList s1.queue).Perm
              (List.ofFn (fun j : Fin 8 => ch j + (P.length : Int)) ++
                (pq.toList s.queue).erase v))) := by
  obtain ⟨hpv, hpp⟩ := hpq.pop_spec (key_or_zero P t poi) s.queue v hvalid htop
  have hpv1 : pq.valid (cmp_total P t poi) (pq.pop (cmp_total P t poi) s.queue) := hpv
  have hpp1 : (pq.toList (pq.pop (cmp_total P t poi) s.queue)).Perm
      ((pq.toList s.queue).erase v) := hpp
  by_cases hvn : v < (P.length : Int)
  · have hb : loop_body pq P t poi s =
        .ok
          { queue := pq.pop (cmp_total P t poi) s.queue
            row := s.row ++ [v]
            pops := s.pops + 1 } := by
      simp only [loop_body, htop, hvn, if_true]
    rw [hb, Except.ok.injEq] at h
    subst h
    refine ⟨fun _ => ⟨rfl, by simp, ?_, hpp1⟩, fun hge => absurd hvn (not_lt.2 hge)⟩
    simp only [LoopState.points_found, List.length_append, List.length_singleton]
    push_cast
    rfl
  · refine ⟨fun hlt => absurd hlt hvn, fun _ => ?_⟩
    cases hch : vector_at t.children (v - P.length) with
    | error e =>
      have hb : loop_body pq P t poi s = .error e := by
        simp only [loop_body, htop, hvn, if_false, hch]
      rw [hb] at h
      cases h
    | ok ch =>
      by_cases hleaf : ch 0 = -1
      · cases hpts : vector_at t.point_indices (v - P.length) with
        | error e =>
          have hb : loop_body pq P t poi s = .error e := by
            simp only [loop_body, htop, hvn, if_false, hch, hleaf, if_true, hpts]
          rw [hb] at h
          cases h
        | ok pts =>
          cases pts with
          | nil =>
            have hb : loop_body pq P t poi s =
                .ok
                  { queue := pq.pop (cmp_total P t poi) s.queue
                    row := s.row
                    pops := s.pops + 1 } := by
              simp only [loop_body, htop, hvn, if_false, hch, hleaf, if_true, hpts,
                List.length_nil, gt_iff_lt, Nat.lt_irrefl]
            rw [hb, Except.ok.injEq] at h
            subst h
            exact ⟨rfl, rfl, ch, rfl, fun _ => ⟨[], rfl, hpp1⟩, fun hne => absurd hleaf hne⟩
          | cons p0 rest =>
            have hat : vector_at (p0 :: rest) 0 = .ok p0 := by simp [vector_at]
            cases hp : checked_push pq P t poi (pq.pop (cmp_total P t poi) s.queue) p0 with
            | error e =>
              have hb : loop_body pq P t poi s = .error e := by
                simp only [loop_body, htop, hvn, if_false, hch, hleaf, if_true, hpts,
                  List.length_cons, gt_iff_lt, Nat.zero_lt_succ, hat, hp]
              rw [hb] at h
              cases h
            | ok q1 =>
              have hb : loop_body pq P t poi s =
                  .ok { queue := q1, row := s.row, pops := s.pops + 1 } := by
                simp only [loop_body, htop, hvn, if_false, hch, hleaf, if_true, hpts,
                  List.length_cons, gt_iff_lt, Nat.zero_lt_succ, hat, hp]
              rw [hb, Except.ok.injEq] at h
              subst h
              obtain ⟨_, hperm⟩ := checked_push_perm pq hpq P t poi _ q1 p0 hpv1 hp
              refine ⟨rfl, rfl, ch, rfl, fun _ => ⟨p0 :: rest, rfl, ?_⟩,
                fun hne => absurd hleaf hne⟩
              exact hperm.trans (List.Perm.cons p0 hpp1)
      · cases hp : checked_push_all pq P t poi (pq.pop (cmp_total P t poi) s.queue)
            (List.ofFn (fun j : Fin 8 => ch j + (P.length : Int))) with
        | error e =>
          have hb : loop_body pq P t poi s = .error e := by
            simp only [loop_body, htop, hvn, if_false, hch, hleaf, hp]
          rw [hb] at h
          cases h
        | ok q1 =>
          have hb : loop_body pq P t poi s =
              .ok { queue := q1, row := s.row, pops := s.pops + 1 } := by
            simp only [loop_body, htop, hvn, if_false, hch, hleaf, hp]
          rw [hb, Except.ok.injEq] at h
          subst h
          obtain ⟨_, hperm⟩ := checked_push_all_perm pq hpq P t poi _ _ q1 hpv1 hp
          refine ⟨rfl, rfl, ch, rfl, fun hl => absurd hl hleaf, fun _ => ?_⟩
          exact hperm.trans (List.Perm.append_left _ hpp1)

theorem loop_body_step_witness :
    ∃ s1 : LoopState std_queue,
      std_queue.valid (cmp_total scene_points scene_octree ⟨0, 0, 0⟩)
          (initial_state std_queue scene_points scene_octree ⟨0, 0, 0⟩).queue ∧
        std_queue.top (initial_state std_queue scene_points scene_octree ⟨0, 0, 0⟩).queue =
          some 5 ∧
        loop_body std_queue scene_points scene_octree ⟨0, 0, 0⟩
          (initial_state std_queue scene_points scene_octree ⟨0, 0, 0⟩) = .ok s1 ∧
        std_queue.toList s1.queue = [9, 8, 7, 6, 10, 11, 12, 13] ∧
        ((scene_points.length : Int) ≤ 5 →
          s1.row = (initial_state std_queue scene_points scene_octree ⟨0, 0, 0⟩).row ∧
          s1.points_found =
            (initial_state std_queue scene_points scene_octree ⟨0, 0, 0⟩).points_found ∧
          ∃ ch, vector_at scene_octree.children (5 - scene_points.length) = .ok ch ∧
            (ch 0 = -1 → ∃ pts,
              vector_at scene_octree.point_indices (5 - scene_points.length) = .ok pts ∧
              (std_queue.toList s1.queue).Perm (pts.head?.toList ++
                (std_queue.toList
                  (initial_state std_queue scene_points scene_octree ⟨0, 0, 0⟩).queue).erase 5)) ∧
            (ch 0 ≠ -1 →
              (std_queue.toList s1.queue).Perm
                (List.ofFn (fun j : Fin 8 => ch j + (scene_points.length : Int)) ++
                  (std_queue.toList
                    (initial_state std_queue scene_points scene_octree ⟨0, 0, 0⟩).queue).erase
                      5))) := by
  have hvalid : std_queue.valid (cmp_total scene_points scene_octree ⟨0, 0, 0⟩)
      (initial_state std_queue scene_points scene_octree ⟨0, 0, 0⟩).queue :=
    (std_queue_lawful.push_spec (key_or_zero scene_points scene_octree ⟨0, 0, 0⟩) [] 5
      (std_queue_lawful.valid_empty _)).1
  have htop : std_queue.top
      (initial_state std_queue scene_points scene_octree ⟨0, 0, 0⟩).queue = some 5 := rfl
  have hrun : (loop_body std_queue scene_points scene_octree ⟨0, 0, 0⟩
      (initial_state std_queue scene_points scene_octree ⟨0, 0, 0⟩)).toOption.map
        (fun s => std_queue.toList s.queue) = some [9, 8, 7, 6, 10, 11, 12, 13] := by
    decide!
  cases hb : loop_body std_queue scene_points scene_octree ⟨0, 0, 0⟩
      (initial_state std_queue scene_points scene_octree ⟨0, 0, 0⟩) with
  | error e =>
    rw [hb] at hrun
    cases hrun
  | ok s1 =>
    rw [hb] at hrun
    simp only [Except.toOption, Option.map_some', Option.some.injEq] at hrun
    exact ⟨s1, hvalid, htop, rfl, hrun,
      (loop_body_step std_queue std_queue_lawful scene_points scene_octree ⟨0, 0, 0⟩
        (initial_state std_queue scene_points scene_octree ⟨0, 0, 0⟩) s1 5 hvalid htop hb).2⟩

/-! ## Every access stays in range -/

theorem vector_at_ok_iff {α : Type} (v : List α) (i : Int) (x : α) :
    vector_at v i = .ok x ↔ 0 ≤ i ∧ v[i.toNat]? = some x := by
  unfold vector_at
  by_cases h : 0 ≤ i
  · simp only [h, if_true, true_and]
    cases hr : v[i.toNat]? with
    | none => simp
    | some a => simp
  · simp [h]

/-- From a state within the index ranges the loop body either returns a state
within the index ranges or stops at an empty frontier; no access fails. -/
theorem in_range_step (pq : PriorityQueue) (hpq : pq.Lawful) (P : List (Vec3 ℚ)) (t : Octree)
    (poi : Vec3 ℚ) (m : Nat) (hr : IndicesInRange P t m) (s : LoopState pq)
    (hs : StateInRange pq P t poi m s) :
    (∃ s1, loop_body pq P t poi s = .ok s1 ∧ StateInRange pq P t poi m s1) ∨
      loop_body pq P t poi s = .error Fault.empty_queue := by
  cases htop : pq.top s.queue with
  | none =>
    right
    simp only [loop_body, htop]
  | some v =>
    left
    obtain ⟨hmem, _⟩ := hpq.top_spec (key_or_zero P t poi) s.queue v hs.valid htop
    obtain ⟨hpv, hpp⟩ := hpq.pop_spec (key_or_zero P t poi) s.queue v hs.valid htop
    have hpv1 : pq.valid (cmp_total P t poi) (pq.pop (cmp_total P t poi) s.queue) := hpv
    have hv := hs.frontier v hmem
    have hq1 : ∀ x ∈ pq.toList (pq.pop (cmp_total P t poi) s.queue),
        0 ≤ x ∧ x < (P.length : Int) + m :=
      fun x hx => hs.frontier x (List.mem_of_mem_erase (hpp.subset hx))
    have hkey : ∀ x : Int, 0 ≤ x ∧ x < (P.length : Int) + m →
        ∃ d, distance_key P t poi x = .ok d :=
      fun x hx => distance_key_in_range P t poi m hr.centers_length hr.widths_length x hx.1 hx.2
    by_cases hvn : v < (P.length : Int)
    · refine ⟨⟨pq.pop (cmp_total P t poi) s.queue, s.row ++ [v], s.pops + 1⟩,
        by simp only [loop_body, htop, hvn, if_true], hpv1, hq1, ?_⟩
      intro x hx
      rw [List.mem_append, List.mem_singleton] at hx
      rcases hx with hx | hx
      · exact hs.written x hx
      · exact hx ▸ ⟨hv.1, hvn⟩
    · obtain ⟨ch, hch⟩ := vector_at_ok t.children (v - P.length) (by omega)
        (by rw [hr.children_length]; omega)
      have hch1 := ((vector_at_ok_iff _ _ _).1 hch).2
      by_cases hleaf : ch 0 = -1
      · obtain ⟨pts, hpts⟩ := vector_at_ok t.point_indices (v - P.length) (by omega)
          (by rw [hr.point_indices_length]; omega)
        have hpts1 := ((vector_at_ok_iff _ _ _).1 hpts).2
        have hin := hr.leaf_points _ ch pts hch1 hleaf hpts1
        cases pts with
        | nil =>
          refine ⟨⟨pq.pop (cmp_total P t poi) s.queue, s.row, s.pops + 1⟩, ?_, hpv1, hq1,
            hs.written⟩
          simp only [loop_body, htop, hvn, if_false, hch, hleaf, if_true, hpts,
            List.length_nil, gt_iff_lt, Nat.lt_irrefl]
        | cons p0 rest =>
          have hat : vector_at (p0 :: rest) 0 = .ok p0 := by simp [vector_at]
          have hp0 := hin p0 (List.mem_cons_self p0 rest)
          have hp0r : 0 ≤ p0 ∧ p0 < (P.length : Int) + m := ⟨hp0.1, by omega⟩
          obtain ⟨q1, hq1eq, hval1, hperm1⟩ := checked_push_spec pq hpq P t poi
            (pq.pop (cmp_total P t poi) s.queue) p0 hpv1 (fun x hx => hkey x (hq1 x hx))
            (hkey p0 hp0r)
          refine ⟨{ queue := q1, row := s.row, pops := s.pops + 1 }, ?_, hval1, ?_, hs.written⟩
          · simp only [loop_body, htop, hvn, if_false, hch, hleaf, if_true, hpts,
              List.length_cons, gt_iff_lt, Nat.zero_lt_succ, hat, hq1eq]
          · intro x hx
            have hx1 := hperm1.subset hx
            rw [List.mem_cons] at hx1
            rcases hx1 with hx1 | hx1
            · exact hx1 ▸ hp0r
            · exact hq1 x hx1
      · have hslots := hr.child_slots _ ch hch1 hleaf
        have hvs : ∀ x ∈ List.ofFn (fun j : Fin 8 => ch j + (P.length : Int)),
            0 ≤ x ∧ x < (P.length : Int) + m := by
          intro x hx
          rw [List.mem_ofFn] at hx
          obtain ⟨j, hj⟩ := hx
          obtain ⟨h1, h2⟩ := hslots j
          have hxj : x = ch j + (P.length : Int) := hj.symm
          rw [hxj]
          constructor <;> omega
        obtain ⟨q1, hq1eq, hval1, hperm1⟩ := checked_push_all_spec pq hpq P t poi
          (List.ofFn (fun j : Fin 8 => ch j + (P.length : Int)))
          (pq.pop (cmp_total P t poi) s.queue) hpv1 (fun x hx => hkey x (hq1 x hx))
          (fun x hx => hkey x (hvs x hx))
        refine ⟨{ queue := q1, row := s.row, pops := s.pops + 1 }, ?_, hval1, ?_, hs.written⟩
        · simp only [loop_body, htop, hvn, if_false, hch, hleaf, hq1eq]
        · intro x hx
          have hx1 := hperm1.subset hx
          rw [List.mem_append] at hx1
          rcases hx1 with hx1 | hx1
          · exact hvs x hx1
          · exact hq1 x hx1

theorem initial_in_range (pq : PriorityQueue) (hpq : pq.Lawful) (P : List (Vec3 ℚ)) (t : Octree)
    (poi : Vec3 ℚ) (m : Nat) (hm : 1 ≤ m) :
    StateInRange pq P t poi m (initial_state pq P t poi) := by
  have hp := hpq.push_spec (key_or_zero P t poi) pq.empty (P.length : Int) (hpq.valid_empty _)
  rw [hpq.toList_empty] at hp
  refine ⟨hp.1, ?_, fun v hv => by cases hv⟩
  intro x hx
  have hx1 : x ∈ [(P.length : Int)] := hp.2.subset hx
  rw [List.mem_singleton] at hx1
  subst hx1
  constructor <;> omega

theorem reaches_in_range (pq : PriorityQueue) (hpq : pq.Lawful) (P : List (Vec3 ℚ)) (t : Octree)
    (poi : Vec3 ℚ) (m : Nat) (hr : IndicesInRange P t m) (rk : Int) (s0 s : LoopState pq)
    (h : Reaches pq P t poi rk s0 s) (h0 : StateInRange pq P t poi m s0) :
    StateInRange pq P t poi m s := by
  induction h with
  | start => exact h0
  | step s1 s2 _ _ hbody ih =>
    rcases in_range_step pq hpq P t poi m hr s1 ih with ⟨s3, h3, hs3⟩ | herr
    · rw [hbody, Except.ok.injEq] at h3
      exact h3 ▸ hs3
    · rw [hbody] at herr
      cases herr

/-- Within the index ranges the loop ends in a state within the ranges, or at an
empty frontier, or out of fuel: never with a failed access. -/
theorem while_loop_in_range (pq : PriorityQueue) (hpq : pq.Lawful) (P : List (Vec3 ℚ))
    (t : Octree) (poi : Vec3 ℚ) (m : Nat) (hr : IndicesInRange P t m) (rk : Int) :
    ∀ (fuel : Nat) (s : LoopState pq), StateInRange pq P t poi m s →
      (∃ s1, while_loop pq P t poi rk fuel s = .ok s1 ∧ StateInRange pq P t poi m s1) ∨
        while_loop pq P t poi rk fuel s = .error Fault.empty_queue ∨
        while_loop pq P t poi rk fuel s = .error Fault.out_of_fuel := by
  intro fuel
  induction fuel with
  | zero =>
    intro s hs
    rw [while_loop_unfold]
    by_cases hlt : s.points_found < rk
    · rw [if_pos hlt]
      exact Or.inr (Or.inr rfl)
    · rw [if_neg hlt]
      exact Or.inl ⟨s, rfl, hs⟩
  | succ fuel ih =>
    intro s hs
    rw [while_loop_unfold]
    by_cases hlt : s.points_found < rk
    · rw [if_pos hlt]
      rcases in_range_step pq hpq P t poi m hr s hs with ⟨s1, h1, hs1⟩ | herr
      · simp only [h1]
        exact ih s1 hs1
      · rw [herr]
        exact Or.inr (Or.inl rfl)
    · rw [if_neg hlt]
      exact Or.inl ⟨s, rfl, hs⟩

theorem scene_in_range : IndicesInRange scene_points scene_octree 9 where
  cells := by decide
  children_length := rfl
  point_indices_length := rfl
  centers_length := rfl
  widths_length := rfl
  child_slots := by
    intro c ch h hne j
    have hc : c < 9 := (List.getElem?_eq_some.1 h).1
    interval_cases c
    · have h1 : (![1, 2, 3, 4, 5, 6, 7, 8] : Fin 8 → Int) = ch := Option.some.inj h
      subst h1
      fin_cases j <;> decide
    all_goals
      have h1 : leaf_children = ch := Option.some.inj h
      subst h1
      exact absurd rfl hne
  leaf_points := by
    intro c ch pts hch hleaf hpts p hp
    have hc : c < 9 := (List.getElem?_eq_some.1 hch).1
    interval_cases c
    · have h1 : (![1, 2, 3, 4, 5, 6, 7, 8] : Fin 8 → Int) = ch := Option.some.inj hch
      subst h1
      exact absurd hleaf (by decide)
    · have h1 : ([0] : List Int) = pts := Option.some.inj hpts
      subst h1
      rw [List.mem_singleton] at hp
      subst hp
      decide
    · have h1 : ([1] : List Int) = pts := Option.some.inj hpts
      subst h1
      rw [List.mem_singleton] at hp
      subst hp
      decide
    · have h1 : ([2] : List Int) = pts := Option.some.inj hpts
      subst h1
      rw [List.mem_singleton] at hp
      subst hp
      decide
    · have h1 : ([3] : List Int) = pts := Option.some.inj hpts
      subst h1
      rw [List.mem_singleton] at hp
      subst hp
      decide
    · have h1 : ([4] : List Int) = pts := Option.some.inj hpts
      subst h1
      rw [List.mem_singleton] at hp
      subst hp
      decide
    all_goals
      have h1 : ([] : List Int) = pts := Option.some.inj hpts
      subst h1
      cases hp

/-- C17: if the four octree arrays have `m ≥ 1` entries, every non-leaf cell has
its eight child slots in `[0, m)` and every point index listed by a leaf lies in
`[0, n)`, then at every step of every query's traversal each frontier entry
lies in `[0, n + m)` and has a distance (`centers.at`, `widths.at` succeed),
every index written to the row lies in `[0, n)`, and the loop body does not
fail on an access (`children.at`, `point_indices.at` succeed): a query ends
with a row of indices in `[0, n)`, or at an empty frontier, or out of fuel. -/
theorem accesses_stay_in_range (pq : PriorityQueue) (hpq : pq.Lawful) (P : List (Vec3 ℚ))
    (k : Int) (t : Octree) (m : Nat) (hr : IndicesInRange P t m) (i : Nat) (poi : Vec3 ℚ)
    (hi : P[i]? = some poi) :
    (∀ s, Reaches pq P t poi (real_k P.length k) (initial_state pq P t poi) s →
        (∀ x ∈ pq.toList s.queue,
          (0 ≤ x ∧ x < (P.length : Int) + m) ∧ ∃ d, distance_key P t poi x = .ok d) ∧
        (∀ v ∈ s.row, 0 ≤ v ∧ v < (P.length : Int)) ∧
        ((∃ s1, loop_body pq P t poi s = .ok s1) ∨
          loop_body pq P t poi s = .error Fault.empty_queue)) ∧
      ∀ fuel,
        (∃ s, query pq P k t fuel i = .ok s ∧ ∀ v ∈ s.row, 0 ≤ v ∧ v < (P.length : Int)) ∨
          query pq P k t fuel i = .error Fault.empty_queue ∨
          query pq P k t fuel i = .error Fault.out_of_fuel := by
  have h0 := initial_in_range pq hpq P t poi m hr.cells
  constructor
  · intro s hs
    have hin := reaches_in_range pq hpq P t poi m hr _ _ s hs h0
    refine ⟨fun x hx => ⟨hin.frontier x hx, ?_⟩, hin.written, ?_⟩
    · exact distance_key_in_range P t poi m hr.centers_length hr.widths_length x
        (hin.frontier x hx).1 (hin.frontier x hx).2
    · rcases in_range_step pq hpq P t poi m hr s hin with ⟨s1, h1, _⟩ | herr
      · exact Or.inl ⟨s1, h1⟩
      · exact Or.inr herr
  · intro fuel
    have hrow : P_row P i = .ok poi :=
      (P_row_ok_iff P _ _).2 ⟨Int.ofNat_nonneg i, by simpa using hi⟩
    simp only [query, hrow]
    rcases while_loop_in_range pq hpq P t poi m hr (real_k P.length k) fuel _ h0 with
      ⟨s1, h1, hs1⟩ | h1 | h1
    · exact Or.inl ⟨s1, h1, hs1.written⟩
    · exact Or.inr (Or.inl h1)
    · exact Or.inr (Or.inr h1)

theorem accesses_stay_in_range_witness :
    IndicesInRange scene_points scene_octree 9 ∧ scene_points[2]? = some ⟨0, 1, 0⟩ ∧
      (∀ s, Reaches std_queue scene_points scene_octree ⟨0, 1, 0⟩
            (real_k scene_points.length 4)
            (initial_state std_queue scene_points scene_octree ⟨0, 1, 0⟩) s →
          (∀ x ∈ std_queue.toList s.queue,
            (0 ≤ x ∧ x < (scene_points.length : Int) + (9 : Nat)) ∧
              ∃ d, distance_key scene_points scene_octree ⟨0, 1, 0⟩ x = .ok d) ∧
          (∀ v ∈ s.row, 0 ≤ v ∧ v < (scene_points.length : Int)) ∧
          ((∃ s1, loop_body std_queue scene_points scene_octree ⟨0, 1, 0⟩ s = .ok s1) ∨
            loop_body std_queue scene_points scene_octree ⟨0, 1, 0⟩ s =
              .error Fault.empty_queue)) ∧
        ∀ fuel,
          (∃ s, query std_queue scene_points 4 scene_octree fuel 2 = .ok s ∧
              ∀ v ∈ s.row, 0 ≤ v ∧ v < (scene_points.length : Int)) ∨
            query std_queue scene_points 4 scene_octree fuel 2 = .error Fault.empty_queue ∨
            query std_queue scene_points 4 scene_octree fuel 2 = .error Fault.out_of_fuel :=
  ⟨scene_in_range, rfl,
    accesses_stay_in_range std_queue std_queue_lawful scene_points 4 scene_octree 9
      scene_in_range 2 ⟨0, 1, 0⟩ rfl⟩

/-! ## The frontier is not empty when the loop pops -/

theorem reaches_invariant (pq : PriorityQueue) (hpq : pq.Lawful) (P : List (Vec3 ℚ))
    (t : Octree) (poi : Vec3 ℚ) (W : Nat) (rk : Int) (hrk : rk ≤ P.length)
    (s0 s : LoopState pq) (h : Reaches pq P t poi rk s0 s)
    (h0 : ∃ A, Invariant pq P t poi W s0 A) : ∃ A, Invariant pq P t poi W s A := by
  induction h with
  | start => exact h0
  | step s1 s2 _ hguard hbody ih =>
    obtain ⟨A, hA⟩ := ih
    have hlt : s1.row.length < P.length := by
      unfold LoopState.points_found at hguard
      omega
    obtain ⟨s3, A3, h3, hinv3, _, _⟩ := loop_body_spec pq hpq P t poi W s1 A hA hlt
    rw [hbody, Except.ok.injEq] at h3
    exact ⟨A3, h3 ▸ hinv3⟩

/-- C18: over a well-formed octree, for every `k` and every query, whenever the
loop is at its head with `points_found < min(k, n)` the frontier is not empty:
`top` returns an entry and the body returns, so the pop of an empty frontier is
never reached. -/
theorem frontier_nonempty_at_pop (pq : PriorityQueue) (hpq : pq.Lawful) (P : List (Vec3 ℚ))
    (k : Int) (t : Octree) (hwf : WellFormed P t) (i : Nat) (poi : Vec3 ℚ)
    (_hi : P[i]? = some poi) (s : LoopState pq)
    (hs : Reaches pq P t poi (real_k P.length k) (initial_state pq P t poi) s)
    (hguard : s.points_found < min k P.length) :
    pq.toList s.queue ≠ [] ∧ (∃ v, pq.top s.queue = some v) ∧
      ∃ s1, loop_body pq P t poi s = .ok s1 := by
  obtain ⟨pts, W, hroot, hall⟩ := hwf
  obtain ⟨A, hA⟩ := reaches_invariant pq hpq P t poi W _ (real_k_le _ _) _ s hs
    ⟨_, initial_invariant pq hpq P t poi pts W hroot hall⟩
  have hlt : s.row.length < P.length := by
    unfold LoopState.points_found at hguard
    have := min_le_right k (P.length : Int)
    omega
  obtain ⟨s1, _, h1, _, _, _⟩ := loop_body_spec pq hpq P t poi W s A hA hlt
  have hne : pq.toList s.queue ≠ [] := by
    intro h
    have hA0 : A = [] := by
      have := hA.entries
      rw [h] at this
      simpa using this
    have := hA.partition.length_eq
    rw [hA0, all_points_length] at this
    simp at this
    omega
  refine ⟨hne, ?_, s1, h1⟩
  cases htop : pq.top s.queue with
  | none => exact absurd ((hpq.top_none _).1 htop) hne
  | some v => exact ⟨v, rfl⟩

theorem frontier_nonempty_at_pop_witness :
    WellFormed scene_points scene_octree ∧ scene_points[1]? = some ⟨1, 0, 0⟩ ∧
      Reaches std_queue scene_points scene_octree ⟨1, 0, 0⟩ (real_k scene_points.length 3)
        (initial_state std_queue scene_points scene_octree ⟨1, 0, 0⟩)
        (initial_state std_queue scene_points scene_octree ⟨1, 0, 0⟩) ∧
      (initial_state std_queue scene_points scene_octree ⟨1, 0, 0⟩).points_found <
        min (3 : Int) scene_points.length ∧
      std_queue.toList (initial_state std_queue scene_points scene_octree ⟨1, 0, 0⟩).queue ≠ [] ∧
      (∃ v, std_queue.top
        (initial_state std_queue scene_points scene_octree ⟨1, 0, 0⟩).queue = some v) ∧
      ∃ s1, loop_body std_queue scene_points scene_octree ⟨1, 0, 0⟩
        (initial_state std_queue scene_points scene_octree ⟨1, 0, 0⟩) = .ok s1 :=
  ⟨scene_wf, rfl, Reaches.start _, by decide,
    frontier_nonempty_at_pop std_queue std_queue_lawful scene_points 3 scene_octree scene_wf 1
      ⟨1, 0, 0⟩ rfl _ (Reaches.start _) (by decide)⟩

/-! ## Each query writes its own row only -/

theorem set_row_entry (row row0 : List Int) (v : Int) (h : row.length < row0.length) :
    (row ++ row0.drop row.length).set row.length v =
      (row ++ [v]) ++ row0.drop (row.length + 1) := by
  rw [List.set_append_right _ _ (le_refl _), Nat.sub_self, List.drop_eq_getElem_cons h,
    List.set_cons_zero, List.append_assoc]
  rfl

theorem write_cell_of_row (I : List (List Int)) (i j : Nat) (v : Int) (r : List Int)
    (h : I[i]? = some r) :
    (write_cell I i j v).length = I.length ∧ (write_cell I i j v)[i]? = some (r.set j v) ∧
      ∀ l, l ≠ i → (write_cell I i j v)[l]? = I[l]? := by
  have hi : i < I.length := (List.getElem?_eq_some.1 h).1
  simp only [write_cell, h]
  refine ⟨List.length_set _ _ _, ?_, fun l hl => ?_⟩
  · rw [List.getElem?_set_self hi]
  · rw [List.getElem?_set_ne (Ne.symm hl)]

/-- One pass through the loop body on corresponding states: the two bodies fail
alike or return corresponding states. -/
theorem corresponds_step (pq : PriorityQueue) (P : List (Vec3 ℚ)) (t : Octree) (poi : Vec3 ℚ)
    (i : Nat) (I0 : List (List Int)) (row0 : List Int) (s : LoopState pq) (S : TableState pq)
    (h : Corresponds pq i I0 row0 s S) (hlt : s.row.length < row0.length) :
    (∀ e, loop_body pq P t poi s = .error e → table_loop_body pq P t poi i S = .error e) ∧
      (∀ s1, loop_body pq P t poi s = .ok s1 →
        ∃ S1, table_loop_body pq P t poi i S = .ok S1 ∧ Corresponds pq i I0 row0 s1 S1) := by
  obtain ⟨hq, hcount, hbound, hlen, hrow, hothers, hwritten⟩ := h
  have err : ∀ e0, loop_body pq P t poi s = .error e0 →
      table_loop_body pq P t poi i S = .error e0 →
      (∀ e, loop_body pq P t poi s = .error e → table_loop_body pq P t poi i S = .error e) ∧
        (∀ s1, loop_body pq P t poi s = .ok s1 →
          ∃ S1, table_loop_body pq P t poi i S = .ok S1 ∧ Corresponds pq i I0 row0 s1 S1) := by
    intro e0 hb hB
    refine ⟨fun e he => ?_, fun s1 hs1 => ?_⟩
    · rw [hb, Except.error.injEq] at he
      rw [← he]
      exact hB
    · rw [hb] at hs1
      cases hs1
  have same : ∀ q1 : pq.Q,
      loop_body pq P t poi s = .ok ⟨q1, s.row, s.pops + 1⟩ →
      table_loop_body pq P t poi i S = .ok { S with queue := q1 } →
      (∀ e, loop_body pq P t poi s = .error e → table_loop_body pq P t poi i S = .error e) ∧
        (∀ s1, loop_body pq P t poi s = .ok s1 →
          ∃ S1, table_loop_body pq P t poi i S = .ok S1 ∧ Corresponds pq i I0 row0 s1 S1) := by
    intro q1 hb hB
    refine ⟨fun e he => ?_, fun s1 hs1 => ?_⟩
    · rw [hb] at he
      cases he
    · rw [hb, Except.ok.injEq] at hs1
      subst hs1
      exact ⟨_, hB, rfl, hcount, hbound, hlen, hrow, hothers, hwritten⟩
  cases htop : pq.top s.queue with
  | none =>
    exact err Fault.empty_queue (by simp only [loop_body, htop])
      (by simp only [table_loop_body, hq, htop])
  | some v =>
    by_cases hvn : v < (P.length : Int)
    · have hb : loop_body pq P t poi s =
          .ok ⟨pq.pop (cmp_total P t poi) s.queue, s.row ++ [v], s.pops + 1⟩ := by
        simp only [loop_body, htop, hvn, if_true]
      have hB : table_loop_body pq P t poi i S =
          .ok ⟨pq.pop (cmp_total P t poi) s.queue, S.points_found + 1,
            write_cell S.I i S.points_found v, S.written ++ [(i, S.points_found)]⟩ := by
        simp only [table_loop_body, hq, htop, hvn, if_true]
      refine ⟨fun e he => ?_, fun s1 hs1 => ?_⟩
      · rw [hb] at he
        cases he
      · rw [hb, Except.ok.injEq] at hs1
        subst hs1
        obtain ⟨w1, w2, w3⟩ := write_cell_of_row S.I i S.points_found v _ hrow
        refine ⟨_, hB, rfl, ?_, ?_, ?_, ?_, ?_, ?_⟩
        · simp only [List.length_append, List.length_singleton, hcount]
        · simp only [List.length_append, List.length_singleton]
          omega
        · exact w1.trans hlen
        · simp only [List.length_append, List.length_singleton]
          rw [w2, hcount, set_row_entry s.row row0 v hlt]
        · exact fun j hj => (w3 j hj).trans (hothers j hj)
        · simp only [List.length_append, List.length_singleton, List.range_succ,
            List.map_append, List.map_cons, List.map_nil, hwritten, hcount]
    · cases hch : vector_at t.children (v - P.length) with
      | error e =>
        exact err e (by simp only [loop_body, htop, hvn, if_false, hch])
          (by simp only [table_loop_body, hq, htop, hvn, if_false, hch])
      | ok ch =>
        by_cases hleaf : ch 0 = -1
        · cases hpts : vector_at t.point_indices (v - P.length) with
          | error e =>
            exact err e (by simp only [loop_body, htop, hvn, if_false, hch, hleaf, if_true, hpts])
              (by simp only [table_loop_body, hq, htop, hvn, if_false, hch, hleaf, if_true,
                hpts])
          | ok pts =>
            cases pts with
            | nil =>
              exact same (pq.pop (cmp_total P t poi) s.queue)
                (by simp only [loop_body, htop, hvn, if_false, hch, hleaf, if_true, hpts,
                  List.length_nil, gt_iff_lt, Nat.lt_irrefl])
                (by simp only [table_loop_body, hq, htop, hvn, if_false, hch, hleaf, if_true,
                  hpts, List.length_nil, gt_iff_lt, Nat.lt_irrefl])
            | cons p0 rest =>
              have hat : vector_at (p0 :: rest) 0 = .ok p0 := by simp [vector_at]
              cases hp : checked_push pq P t poi (pq.pop (cmp_total P t poi) s.queue) p0 with
              | error e =>
                exact err e
                  (by simp only [loop_body, htop, hvn, if_false, hch, hleaf, if_true, hpts,
                    List.length_cons, gt_iff_lt, Nat.zero_lt_succ, hat, hp])
                  (by simp only [table_loop_body, hq, htop, hvn, if_false, hch, hleaf, if_true,
                    hpts, List.length_cons, gt_iff_lt, Nat.zero_lt_succ, hat, hp])
              | ok q1 =>
                exact same q1
                  (by simp only [loop_body, htop, hvn, if_false, hch, hleaf, if_true, hpts,
                    List.length_cons, gt_iff_lt, Nat.zero_lt_succ, hat, hp])
                  (by simp only [table_loop_body, hq, htop, hvn, if_false, hch, hleaf, if_true,
                    hpts, List.length_cons, gt_iff_lt, Nat.zero_lt_succ, hat, hp])
        · cases hp : checked_push_all pq P t poi (pq.pop (cmp_total P t poi) s.queue)
              (List.ofFn (fun j : Fin 8 => ch j + (P.length : Int))) with
          | error e =>
            exact err e (by simp only [loop_body, htop, hvn, if_false, hch, hleaf, hp])
              (by simp only [table_loop_body, hq, htop, hvn, if_false, hch, hleaf, hp])
          | ok q1 =>
            exact same q1 (by simp only [loop_body, htop, hvn, if_false, hch, hleaf, hp])
              (by simp only [table_loop_body, hq, htop, hvn, if_false, hch, hleaf, hp])

theorem table_while_loop_unfold (pq : PriorityQueue) (P : List (Vec3 ℚ)) (t : Octree)
    (poi : Vec3 ℚ) (i : Nat) (rk : Int) (fuel : Nat) (S : TableState pq) :
    table_while_loop pq P t poi i rk fuel S =
      if (S.points_found : Int) < rk then
        match fuel with
        | 0 => .error Fault.out_of_fuel
        | fuel + 1 =>
          match table_loop_body pq P t poi i S with
          | .error e => .error e
          | .ok S1 => table_while_loop pq P t poi i rk fuel S1
      else .ok S := by
  cases fuel <;> rfl

/-- The two loops fail alike or end in corresponding states. -/
theorem corresponds_loop (pq : PriorityQueue) (P : List (Vec3 ℚ)) (t : Octree) (poi : Vec3 ℚ)
    (i : Nat) (I0 : List (List Int)) (row0 : List Int) (rk : Int)
    (hrk : (row0.length : Int) = rk) :
    ∀ (fuel : Nat) (s : LoopState pq) (S : TableState pq), Corresponds pq i I0 row0 s S →
      (∀ e, while_loop pq P t poi rk fuel s = .error e →
        table_while_loop pq P t poi i rk fuel S = .error e) ∧
        (∀ s1, while_loop pq P t poi rk fuel s = .ok s1 →
          ∃ S1, table_while_loop pq P t poi i rk fuel S = .ok S1 ∧
            Corresponds pq i I0 row0 s1 S1) := by
  intro fuel
  induction fuel with
  | zero =>
    intro s S h
    have hg : ((S.points_found : Int) < rk) ↔ (s.points_found < rk) := by
      rw [h.count]
      rfl
    rw [while_loop_unfold, table_while_loop_unfold]
    by_cases hlt : s.points_found < rk
    · rw [if_pos hlt, if_pos (hg.2 hlt)]
      refine ⟨fun e he => ?_, fun s1 hs1 => ?_⟩
      · have he1 : (Except.error Fault.out_of_fuel : Except Fault (LoopState pq)) = .error e := he
        rw [Except.error.injEq] at he1
        rw [← he1]
      · have hs2 : (Except.error Fault.out_of_fuel : Except Fault (LoopState pq)) = .ok s1 := hs1
        cases hs2
    · rw [if_neg hlt, if_neg (fun hh => hlt (hg.1 hh))]
      refine ⟨fun e he => (by cases he), fun s1 hs1 => ?_⟩
      rw [Except.ok.injEq] at hs1
      exact ⟨S, rfl, hs1 ▸ h⟩
  | succ fuel ih =>
    intro s S h
    have hg : ((S.points_found : Int) < rk) ↔ (s.points_found < rk) := by
      rw [h.count]
      rfl
    rw [while_loop_unfold, table_while_loop_unfold]
    by_cases hlt : s.points_found < rk
    · rw [if_pos hlt, if_pos (hg.2 hlt)]
      have hlt1 : s.row.length < row0.length := by
        unfold LoopState.points_found at hlt
        omega
      obtain ⟨herr, hok⟩ := corresponds_step pq P t poi i I0 row0 s S h hlt1
      cases hb : loop_body pq P t poi s with
      | error e =>
        simp only [herr e hb]
        refine ⟨fun e1 he => ?_, fun s1 hs1 => (by cases hs1)⟩
        rw [Except.error.injEq] at he ⊢
        exact he
      | ok s2 =>
        obtain ⟨S2, hB, hc⟩ := hok s2 hb
        simp only [hB]
        exact ih s2 S2 hc
    · rw [if_neg hlt, if_neg (fun hh => hlt (hg.1 hh))]
      refine ⟨fun e he => (by cases he), fun s1 hs1 => ?_⟩
      rw [Except.ok.injEq] at hs1
      exact ⟨S, rfl, hs1 ▸ h⟩

/-- The query of row `i` on a table whose row `i` has `real_k` entries: it fails
as `knn_row` does, or it returns the table with row `i` replaced by the row
that `knn_row` returns, having written columns `0, 1, …` of row `i` in order. -/
theorem table_query_spec (pq : PriorityQueue) (P : List (Vec3 ℚ)) (k : Int) (t : Octree)
    (fuel : Nat) (i : Nat) (I : List (List Int)) (row0 : List Int) (hrow0 : I[i]? = some row0)
    (hlen : (row0.length : Int) = real_k P.length k) :
    (∀ e, knn_row pq P k t fuel i = .error e → table_query pq P k t fuel i I = .error e) ∧
      (∀ row, knn_row pq P k t fuel i = .ok row →
        ∃ S, table_query pq P k t fuel i I = .ok S ∧ S.I = I.set i row ∧
          S.written = (List.range row.length).map (fun c => (i, c)) ∧
          (row.length : Int) = real_k P.length k) := by
  unfold knn_row query table_query
  cases hr : P_row P i with
  | error e0 =>
    simp only
    refine ⟨fun e he => ?_, fun row hrow => (by cases hrow)⟩
    rw [Except.error.injEq] at he ⊢
    exact he
  | ok poi =>
    simp only
    have h0 : Corresponds pq i I row0 (initial_state pq P t poi)
        { queue := pq.push (cmp_total P t poi) pq.empty (P.length : Int),
          points_found := 0, I := I, written := [] } :=
      ⟨rfl, rfl, Nat.zero_le _, rfl, by simpa [initial_state] using hrow0, fun _ _ => rfl, rfl⟩
    obtain ⟨herr, hok⟩ := corresponds_loop pq P t poi i I row0 _ hlen fuel _ _ h0
    cases hw : while_loop pq P t poi (real_k P.length k) fuel (initial_state pq P t poi) with
    | error e0 =>
      simp only
      refine ⟨fun e he => ?_, fun row hrow => (by cases hrow)⟩
      rw [Except.error.injEq] at he
      exact he ▸ herr e0 hw
    | ok s1 =>
      simp only
      refine ⟨fun e he => (by cases he), fun row hrow => ?_⟩
      rw [Except.ok.injEq] at hrow
      obtain ⟨S1, hS1, hc⟩ := hok s1 hw
      have hl : (s1.row.length : Int) = real_k P.length k :=
        while_loop_row_length pq P t poi _ fuel _ s1 hw (by
          simp only [initial_state, List.length_nil]
          omega)
      have hi : i < I.length := (List.getElem?_eq_some.1 hrow0).1
      have hrowS : S1.I[i]? = some s1.row := by
        have := hc.row
        rwa [List.drop_of_length_le (by omega), List.append_nil] at this
      refine ⟨S1, hS1, ?_, hrow ▸ hc.written, hrow ▸ hl⟩
      apply List.ext_getElem?
      intro j
      by_cases hj : j = i
      · rw [hj, hrowS, List.getElem?_set_self hi, hrow]
      · rw [hc.others j hj, List.getElem?_set_ne (Ne.symm hj)]

theorem TableShape.set {P : List (Vec3 ℚ)} {k : Int} {I : List (List Int)}
    (h : TableShape P k I) (i : Nat) (row : List Int)
    (hrow : (row.length : Int) = real_k P.length k) : TableShape P k (I.set i row) := by
  refine ⟨by rw [List.length_set]; exact h.1, fun r hr => ?_⟩
  rcases List.mem_or_eq_of_mem_set hr with hr1 | hr1
  · exact h.2 r hr1
  · exact hr1 ▸ hrow

theorem TableShape.row {P : List (Vec3 ℚ)} {k : Int} {I : List (List Int)}
    (h : TableShape P k I) (i : Nat) (hi : i < P.length) :
    ∃ row0, I[i]? = some row0 ∧ (row0.length : Int) = real_k P.length k := by
  have hiI : i < I.length := by rw [h.1]; exact hi
  exact ⟨I[i], List.getElem?_eq_getElem hiI, h.2 _ (List.getElem_mem hiI)⟩

/-- The rows processed in any listed order: when every listed query returns, the
table ends with each listed row replaced by the row of its query. -/
theorem table_batch_ok (pq : PriorityQueue) (P : List (Vec3 ℚ)) (k : Int) (t : Octree)
    (fuel : Nat) (rows : Nat → List Int) (order : List Nat) :
    ∀ (I : List (List Int)), TableShape P k I → (∀ i ∈ order, i < P.length) →
      (∀ i ∈ order, knn_row pq P k t fuel i = .ok (rows i)) →
      table_batch pq P k t fuel order I =
        .ok (order.foldl (fun (I : List (List Int)) i => I.set i (rows i)) I) := by
  induction order with
  | nil => intro I _ _ _; rfl
  | cons i is ih =>
    intro I hI hlt hrows
    obtain ⟨row0, hrow0, hlen0⟩ := hI.row i (hlt i (List.mem_cons_self i is))
    obtain ⟨S, hS, hSI, _, hl⟩ := (table_query_spec pq P k t fuel i I row0 hrow0 hlen0).2
      (rows i) (hrows i (List.mem_cons_self i is))
    simp only [table_batch, hS, List.foldl_cons, hSI]
    exact ih _ (hI.set i (rows i) hl) (fun j hj => hlt j (List.mem_cons_of_mem i hj))
      (fun j hj => hrows j (List.mem_cons_of_mem i hj))

/-- When the rows processed in a listed order all return, each listed query
returns on its own. -/
theorem table_batch_rows (pq : PriorityQueue) (P : List (Vec3 ℚ)) (k : Int) (t : Octree)
    (fuel : Nat) (order : List Nat) :
    ∀ (I T : List (List Int)), TableShape P k I → (∀ i ∈ order, i < P.length) →
      table_batch pq P k t fuel order I = .ok T →
      ∀ i ∈ order, ∃ row, knn_row pq P k t fuel i = .ok row := by
  induction order with
  | nil => intro I T _ _ _ i hi; cases hi
  | cons i is ih =>
    intro I T hI hlt hT j hj
    obtain ⟨row0, hrow0, hlen0⟩ := hI.row i (hlt i (List.mem_cons_self i is))
    obtain ⟨herr, hok⟩ := table_query_spec pq P k t fuel i I row0 hrow0 hlen0
    cases hk : knn_row pq P k t fuel i with
    | error e =>
      simp only [table_batch, herr e hk] at hT
      cases hT
    | ok row =>
      obtain ⟨S, hS, hSI, _, hl⟩ := hok row hk
      simp only [table_batch, hS, hSI] at hT
      rw [List.mem_cons] at hj
      rcases hj with hj | hj
      · exact ⟨row, hj ▸ hk⟩
      · exact ih _ T (hI.set i row hl) (fun l hl1 => hlt l (List.mem_cons_of_mem i hl1)) hT j hj

theorem foldl_set_getElem? (rows : Nat → List Int) (order : List Nat) :
    ∀ (I : List (List Int)) (j : Nat),
      (order.foldl (fun (I : List (List Int)) i => I.set i (rows i)) I)[j]? =
        if j ∈ order ∧ j < I.length then some (rows j) else I[j]? := by
  induction order with
  | nil => intro I j; simp
  | cons i is ih =>
    intro I j
    rw [List.foldl_cons, ih, List.length_set]
    by_cases hjs : j ∈ is
    · by_cases hjl : j < I.length
      · rw [if_pos ⟨hjs, hjl⟩, if_pos ⟨List.mem_cons_of_mem i hjs, hjl⟩]
      · rw [if_neg (fun h => hjl h.2), if_neg (fun h => hjl h.2)]
        rw [List.getElem?_eq_none (by rw [List.length_set]; omega),
          List.getElem?_eq_none (by omega)]
    · rw [if_neg (fun h => hjs h.1)]
      by_cases hji : j = i
      · subst hji
        by_cases hjl : j < I.length
        · rw [List.getElem?_set_self hjl, if_pos ⟨List.mem_cons_self j is, hjl⟩]
        · rw [if_neg (fun h => hjl h.2), List.getElem?_eq_none (by rw [List.length_set]; omega),
            List.getElem?_eq_none (by omega)]
      · rw [List.getElem?_set_ne (Ne.symm hji), if_neg]
        intro h
        rcases List.mem_cons.1 h.1 with h1 | h1
        · exact hji h1
        · exact hjs h1

/-- C16: the traversal for query row `i` writes columns `0, 1, …, real_k - 1` of
row `i` of the table, in that order and each once, and changes no other row
(the point set and the octree arrays are read-only inputs of the model); the row
it leaves in the table is the row of the single-query traversal `knn_row`.
Hence, processing the rows in any order gives the table of `knn_octree`, whose
row `i` is the result of the traversal for point `i`. -/
theorem rows_are_independent (pq : PriorityQueue) (P : List (Vec3 ℚ)) (k : Int) (t : Octree)
    (fuel : Nat) (I0 : List (List Int)) (hshape : TableShape P k I0) (order : List Nat)
    (horder : order.Perm (List.range P.length)) :
    (∀ (I : List (List Int)) (i : Nat) (S : TableState pq), TableShape P k I → i < P.length →
        table_query pq P k t fuel i I = .ok S →
        S.written = (List.range (real_k P.length k).toNat).map (fun c => (i, c)) ∧
          S.I.length = I.length ∧ (∀ j, j ≠ i → S.I[j]? = I[j]?) ∧
          ∃ row, knn_row pq P k t fuel i = .ok row ∧ S.I[i]? = some row) ∧
      (∀ T, knn_octree_in_order pq P k t fuel order I0 = .ok T ↔
        knn_octree pq P k t fuel = .ok T) ∧
      (∀ T, knn_octree pq P k t fuel = .ok T →
        ∀ (i : Nat) (row : List Int), T[i]? = some row → knn_row pq P k t fuel i = .ok row) := by
  have hmem : ∀ i, i ∈ order ↔ i < P.length := fun i => by
    rw [horder.mem_iff, List.mem_range]
  have hfwd : ∀ T, knn_octree pq P k t fuel = .ok T →
      knn_octree_in_order pq P k t fuel order I0 = .ok T ∧
        ∀ (i : Nat) (row : List Int), T[i]? = some row → knn_row pq P k t fuel i = .ok row := by
    intro T hT
    unfold knn_octree at hT
    unfold knn_octree_in_order
    by_cases hneg : (resize_shape P k).2 < 0
    · rw [if_pos hneg] at hT
      cases hT
    · rw [if_neg hneg] at hT ⊢
      obtain ⟨hlen, hget⟩ := for_rows_get _ _ T hT
      rw [List.length_range] at hlen
      have hrows : ∀ i, i < P.length → knn_row pq P k t fuel i = .ok (T.getD i []) := by
        intro i hi
        have hiT : i < T.length := by omega
        apply hget i i _ (by simp [List.getElem?_range hi])
        rw [List.getElem?_eq_getElem hiT, List.getD_eq_getElem _ _ hiT]
      refine ⟨?_, fun i row hi => ?_⟩
      · rw [table_batch_ok pq P k t fuel (fun i => T.getD i []) order I0 hshape
          (fun i hi => (hmem i).1 hi) (fun i hi => hrows i ((hmem i).1 hi))]
        congr 1
        apply List.ext_getElem?
        intro j
        rw [foldl_set_getElem?, hshape.1]
        by_cases hj : j < P.length
        · have hjT : j < T.length := by omega
          rw [if_pos ⟨(hmem j).2 hj, hj⟩, List.getElem?_eq_getElem hjT,
            List.getD_eq_getElem _ _ hjT]
        · rw [if_neg (fun h => hj h.2), List.getElem?_eq_none (by rw [hshape.1]; omega),
            List.getElem?_eq_none (by omega)]
      · have hiT : i < T.length := (List.getElem?_eq_some.1 hi).1
        exact hget i i row (by simp [List.getElem?_range (hlen ▸ hiT)]) hi
  refine ⟨?_, fun T => ⟨fun hT => ?_, fun hT => (hfwd T hT).1⟩, fun T hT => (hfwd T hT).2⟩
  · intro I i S hI hi hS
    obtain ⟨row0, hrow0, hlen0⟩ := hI.row i hi
    obtain ⟨herr, hok⟩ := table_query_spec pq P k t fuel i I row0 hrow0 hlen0
    cases hk : knn_row pq P k t fuel i with
    | error e =>
      rw [herr e hk] at hS
      cases hS
    | ok row =>
      obtain ⟨S1, hS1, hSI, hw, hl⟩ := hok row hk
      rw [hS1, Except.ok.injEq] at hS
      subst hS
      have hiI : i < I.length := (List.getElem?_eq_some.1 hrow0).1
      refine ⟨?_, ?_, fun j hj => ?_, row, rfl, ?_⟩
      · rw [hw, ← hl, Int.toNat_ofNat]
      · rw [hSI, List.length_set]
      · rw [hSI, List.getElem?_set_ne (Ne.symm hj)]
      · rw [hSI, List.getElem?_set_self hiI]
  · have hT1 := hT
    unfold knn_octree_in_order at hT1
    by_cases hneg : (resize_shape P k).2 < 0
    · rw [if_pos hneg] at hT1
      cases hT1
    · rw [if_neg hneg] at hT1
      have hall := table_batch_rows pq P k t fuel order I0 T hshape
        (fun i hi => (hmem i).1 hi) hT1
      obtain ⟨T2, hT2⟩ := for_rows_ok (knn_row pq P k t fuel) (List.range P.length)
        (fun i hi => hall i ((hmem i).2 (List.mem_range.1 hi)))
      have hk2 : knn_octree pq P k t fuel = .ok T2 := by
        simp only [knn_octree, hneg, if_false, hT2]
      have := (hfwd T2 hk2).1
      rw [hT, Except.ok.injEq] at this
      rw [this]
      exact hk2

theorem rows_are_independent_witness :
    TableShape scene_points 3 (List.replicate 5 [0, 0, 0]) ∧
      ([3, 1, 4, 0, 2] : List Nat).Perm (List.range scene_points.length) ∧
      (∀ (I : List (List Int)) (i : Nat) (S : TableState std_queue),
        TableShape scene_points 3 I → i < scene_points.length →
        table_query std_queue scene_points 3 scene_octree 20 i I = .ok S →
        S.written = (List.range (real_k scene_points.length 3).toNat).map (fun c => (i, c)) ∧
          S.I.length = I.length ∧ (∀ j, j ≠ i → S.I[j]? = I[j]?) ∧
          ∃ row, knn_row std_queue scene_points 3 scene_octree 20 i = .ok row ∧
            S.I[i]? = some row) ∧
      (∀ T, knn_octree_in_order std_queue scene_points 3 scene_octree 20 [3, 1, 4, 0, 2]
            (List.replicate 5 [0, 0, 0]) = .ok T ↔
          knn_octree std_queue scene_points 3 scene_octree 20 = .ok T) ∧
      (∀ T, knn_octree std_queue scene_points 3 scene_octree 20 = .ok T →
        ∀ (i : Nat) (row : List Int), T[i]? = some row →
          knn_row std_queue scene_points 3 scene_octree 20 i = .ok row) := by
  have hshape : TableShape scene_points 3 (List.replicate 5 [0, 0, 0]) := by
    refine ⟨rfl, fun row hrow => ?_⟩
    rw [(List.mem_replicate.1 hrow).2]
    decide
  have horder : ([3, 1, 4, 0, 2] : List Nat).Perm (List.range scene_points.length) := by
    decide
  exact ⟨hshape, horder,
    rows_are_independent std_queue scene_points 3 scene_octree 20 _ hshape _ horder⟩

/-- The table of the scenario computed with the rows processed in the order
`3, 1, 4, 0, 2` on a table of zeros. -/
theorem scene_table_in_order :
    (knn_octree_in_order std_queue scene_points 3 scene_octree 20 [3, 1, 4, 0, 2]
        (List.replicate 5 [0, 0, 0])).toOption =
      some [[0, 1, 2], [1, 0, 2], [2, 0, 3], [3, 0, 2], [4, 3, 1]] := by
  decide!

end igl
